import Mathlib

/-! # A verification development for the spreadsheet engine

The development embeds `sheet.cpp`, `cell.cpp` and `formula.cpp` in Lean.

* C++ objects owned by the sheet are kept in the map `position_cell`; every `Cell`
  carries the number of the allocation that produced it (`addr`), and a raw `Cell*`
  is the pair of the position the object is stored at and that allocation number.
  A pointer whose allocation is no longer stored at its position is dangling, and
  dereferencing it is reported as `Exn.dangling`.
* C++ exceptions are explicit outcomes: every mutating operation returns the
  exception (if any) together with the sheet as it stands when the exception leaves
  the operation.
* Recursion that C++ runs on the call stack is driven by a fuel counter taken from
  the allocation counter of the sheet; running out of fuel is `Exn.diverge`.
* The formula parser and evaluator (`FormulaAST.h`) and `common.h` are not part of
  the sources; the parser and evaluator are parameters (`FormulaAPI`).
-/

namespace Spreadsheet

/-! ## Positions and values (`common.h`) -/

/-- A cell position: `struct Position { int row; int col; }`. -/
structure Position where
  row : Int
  col : Int
deriving DecidableEq, Repr

/-- Modelled from the spec: the number of rows of the grid (`Position::MAX_ROWS`). -/
def MAX_ROWS : Int := 16384

/-- Modelled from the spec: the number of columns of the grid (`Position::MAX_COLS`). -/
def MAX_COLS : Int := 16384

/-- Modelled from the spec: `Position::IsValid` is declared in the missing `common.h`;
a position is valid when both coordinates are non-negative and within the bounds. -/
def Position.IsValid (p : Position) : Bool :=
  decide (0 ≤ p.row) && decide (0 ≤ p.col) && decide (p.row < MAX_ROWS) && decide (p.col < MAX_COLS)

/-- Modelled from the spec: `Position::operator<` is declared in the missing `common.h`;
positions are ordered by row and then by column. -/
def Position.lt (a b : Position) : Bool :=
  decide (a.row < b.row) || (decide (a.row = b.row) && decide (a.col < b.col))

/-- The strict order of `int` keys in `std::set<int>` and `std::map<int, ...>`. -/
def intLt (a b : Int) : Bool := decide (a < b)

/-- The function `std::set::insert` on a set kept as a strictly increasing list. -/
def setInsert {α : Type} (lt : α → α → Bool) (x : α) : List α → List α
  | [] => [x]
  | y :: ys =>
    if lt x y then x :: y :: ys
    else if lt y x then y :: setInsert lt x ys
    else y :: ys

/-- The function `std::set::erase(key)`: drops the element equivalent to `x`. -/
def setErase {α : Type} (lt : α → α → Bool) (x : α) (l : List α) : List α :=
  l.filter (fun y => lt x y || lt y x)

/-- The range constructor of `std::set`: inserts the elements one by one. -/
def setOfList {α : Type} (lt : α → α → Bool) (l : List α) : List α :=
  l.foldl (fun acc x => setInsert lt x acc) []

/-- A C++ `double`. Floating-point arithmetic happens only inside the external
evaluator, so a double is carried as an uninterpreted code; code 0 stands for `0.0`. -/
structure Double where
  code : Nat
deriving DecidableEq, Repr

/-- Modelled from the spec: the categories of `FormulaError` (`FormulaError::Category`,
declared in the missing `common.h`); the sources name `Ref` and `Value`. -/
inductive Category where
  | Ref
  | Value
  | Arithmetic
deriving DecidableEq, Repr

/-- The type `CellInterface::Value`, a `std::variant<std::string, double, FormulaError>`. -/
inductive Value where
  | text (s : String)
  | number (d : Double)
  | error (e : Category)
deriving DecidableEq, Repr

/-- What leaves an operation other than a normal return. The first four are the C++
exceptions of the engine; `dangling` is the dereference of a pointer to a destroyed
`Cell` (undefined behaviour) and `diverge` is unbounded recursion. -/
inductive Exn where
  | InvalidPositionException
  | FormulaException
  | CircularDependencyException
  | out_of_range
  | dangling
  | diverge
deriving DecidableEq, Repr

/-! ## The external formula library (`formula.h`, `FormulaAST.h`) -/

/-- The run of `FormulaAST::Execute(get_value)`: the evaluator either returns a double,
throws a `FormulaError`, or calls `get_value(pos)` and continues with what the call
returned or threw. -/
inductive Exec where
  | ret (d : Double)
  | raise (e : Category)
  | call (pos : Position) (k : Except Category Value → Exec)

/-- The operations of the parsed formula `FormulaAST` used by `formula.cpp`;
`ParseFormulaAST` returns `none` when the parser throws. -/
structure FormulaAPI (F : Type) where
  ParseFormulaAST : String → Option F
  GetCells : F → List Position
  PrintFormula : F → String
  Execute : F → Exec

/-- Modelled from the spec: the constant `FORMULA_SIGN` of the missing `common.h`, the
formula marker `=`. -/
def FORMULA_SIGN : Char := '='

/-- Modelled from the spec: the constant `ESCAPE_SIGN` of the missing `common.h`, the
escape marker, an apostrophe. -/
def ESCAPE_SIGN : Char := '\''

/-! ## Cells (`cell.h`, `cell.cpp`) -/

/-- The three implementations of `Cell::Impl`; a formula carries its `cache_`. -/
inductive Impl (F : Type) where
  | Empty
  | Text (text : String)
  | Formula (formula : F) (cache : Option Value)
deriving DecidableEq

/-- A raw `Cell*`: the position the object is stored at and its allocation number. -/
structure Ptr where
  pos : Position
  addr : Nat
deriving DecidableEq, Repr

/-- A `Cell` object: `impl_` and `referring_cells_`, plus its allocation number. -/
structure Cell (F : Type) where
  addr : Nat
  impl : Impl F
  referring_cells : List Ptr
deriving DecidableEq

/-- A `std::map<int, std::set<int>>`, kept as a list with strictly increasing keys. -/
abbrev IndexMap := List (Int × List Int)

/-- The lookup `m.at(k)`; `none` when `at` throws `std::out_of_range`. -/
def IndexMap.at? : IndexMap → Int → Option (List Int)
  | [], _ => none
  | (k1, s) :: rest, k => if k1 = k then some s else IndexMap.at? rest k

/-- The statement `m[k].insert(v)`. -/
def IndexMap.insertAt (k v : Int) : IndexMap → IndexMap
  | [] => [(k, [v])]
  | (k1, s) :: rest =>
    if k < k1 then (k, [v]) :: (k1, s) :: rest
    else if k1 < k then (k1, s) :: IndexMap.insertAt k v rest
    else (k1, setInsert intLt v s) :: rest

/-- The statements `auto& set = m.at(k); set.erase(v); if (set.empty()) m.erase(k);`
with `m.at(k)` known to succeed. -/
def IndexMap.eraseAt (k v : Int) : IndexMap → IndexMap
  | [] => []
  | (k1, s) :: rest =>
    if k1 = k then
      (if setErase intLt v s = [] then rest else (k1, setErase intLt v s) :: rest)
    else (k1, s) :: IndexMap.eraseAt k v rest

/-- The sheet: `position_cell_`, `row_cell_`, `col_cell_`, and the allocation counter. -/
structure Sheet (F : Type) where
  position_cell : Position → Option (Cell F)
  row_cell : IndexMap
  col_cell : IndexMap
  next : Nat

/-- The freshly constructed sheet. -/
def Sheet.empty (F : Type) : Sheet F :=
  { position_cell := fun _ => none, row_cell := [], col_cell := [], next := 0 }

variable {F : Type}

/-- The method `Formula::GetReferencedCells`: the cells of the AST through a `std::set`. -/
def FormulaAPI.GetReferencedCells (api : FormulaAPI F) (f : F) : List Position :=
  setOfList Position.lt (api.GetCells f)

/-- The methods `EmptyImpl::GetText`, `TextImpl::GetText`, `FormulaImpl::GetText`. -/
def Impl.GetText (api : FormulaAPI F) : Impl F → String
  | .Empty => ""
  | .Text text => text
  | .Formula f _ => String.mk [FORMULA_SIGN] ++ api.PrintFormula f

/-- The methods `Impl::ChacheIsFull` (base class) and `FormulaImpl::ChacheIsFull`. -/
def Impl.ChacheIsFull : Impl F → Bool
  | .Formula _ cache => cache.isSome
  | _ => true

/-- The methods `Impl::ClearCache` (base class) and `FormulaImpl::ClearCache`. -/
def Impl.ClearCache : Impl F → Impl F
  | .Formula f _ => .Formula f none
  | i => i

/-- The method `Cell::GetText`. -/
def Cell.GetText (api : FormulaAPI F) (c : Cell F) : String := c.impl.GetText api

/-- The method `Cell::GetReferencedCells`. -/
def Cell.GetReferencedCells (api : FormulaAPI F) (c : Cell F) : List Position :=
  match c.impl with
  | .Formula f _ => api.GetReferencedCells f
  | _ => []

/-- The method `Cell::IsReferenced`. -/
def Cell.IsReferenced (c : Cell F) : Bool := !c.referring_cells.isEmpty

/-- The method `Cell::IsEmpty`. -/
def Cell.IsEmpty (c : Cell F) : Bool :=
  match c.impl with
  | .Empty => true
  | _ => false

/-- The method `Cell::AddRefference`. -/
def Cell.AddRefference (c : Cell F) (cell : Ptr) : Cell F :=
  { c with referring_cells := c.referring_cells ++ [cell] }

/-- The method `Cell::DeleteRefference` (erase-remove of every occurrence). -/
def Cell.DeleteRefference (c : Cell F) (cell : Ptr) : Cell F :=
  { c with referring_cells := c.referring_cells.filter (fun x => decide (x ≠ cell)) }

/-! ## Object store -/

/-- Overwrites the object stored at `pos`. -/
def Sheet.store (s : Sheet F) (pos : Position) (c : Option (Cell F)) : Sheet F :=
  { s with position_cell := fun q => if q = pos then c else s.position_cell q }

/-- Dereferences a `Cell*`; `none` when the pointer dangles. -/
def Sheet.deref (s : Sheet F) (ptr : Ptr) : Option (Cell F) :=
  match s.position_cell ptr.pos with
  | some c => if c.addr = ptr.addr then some c else none
  | none => none

/-- Assigns `impl_` of the object stored at `pos`. -/
def Sheet.setImpl (s : Sheet F) (pos : Position) (impl : Impl F) : Sheet F :=
  match s.position_cell pos with
  | some c => s.store pos (some { c with impl := impl })
  | none => s

/-- A range-for loop whose body may throw: stops at the first exception. -/
def forEach {α σ : Type} (body : α → σ → Option Exn × σ) : List α → σ → Option Exn × σ
  | [], s => (none, s)
  | x :: xs, s =>
    match body x s with
    | (some e, s1) => (some e, s1)
    | (none, s1) => forEach body xs s1

/-! ## Cycle detection (`Cell::RecursedCheck`, `Cell::CheckDependencies`) -/

/-- The method `Cell::RecursedCheck`, called on the object `this` during the check that
protects `start_pos`; `visited_cells` is threaded through. The sheet is not modified. -/
def Cell.RecursedCheck (api : FormulaAPI F) (s : Sheet F) (start_pos : Ptr) :
    Nat → Ptr → List Ptr → Except Exn (List Ptr)
  | 0, _, _ => .error .diverge
  | fuel + 1, this, visited_cells =>
    if this ∈ visited_cells then .ok visited_cells
    else if this = start_pos then .error .CircularDependencyException
    else
      match s.deref this with
      | none => .error .dangling
      | some c =>
        (c.GetReferencedCells api).foldlM
          (fun visited pos =>
            match s.position_cell pos with
            | none => .error .out_of_range
            | some cell => Cell.RecursedCheck api s start_pos fuel ⟨pos, cell.addr⟩ visited)
          (this :: visited_cells)

/-- The method `Cell::CheckDependencies` of the object `this`; `none` when it returns. -/
def Cell.CheckDependencies (api : FormulaAPI F) (s : Sheet F) (this : Ptr)
    (referenced_cells : List Ptr) : Option Exn :=
  if this ∈ referenced_cells then some .CircularDependencyException
  else
    match referenced_cells.foldlM
        (fun checked cell => Cell.RecursedCheck api s this (s.next + 1) cell checked) [] with
    | .error e => some e
    | .ok _ => none

/-! ## Cache invalidation (`Cell::ClearCache`) -/

/-- The method `Cell::ClearCache`, called on the object `this`. -/
def Cell.ClearCache : Nat → Ptr → Sheet F → Option Exn × Sheet F
  | 0, _, s => (some .diverge, s)
  | fuel + 1, this, s =>
    match s.deref this with
    | none => (some .dangling, s)
    | some c =>
      if c.impl.ChacheIsFull then
        forEach (fun cell s1 => Cell.ClearCache fuel cell s1) c.referring_cells
          (s.setImpl this.pos c.impl.ClearCache)
      else (none, s)

/-! ## Editing a cell (`Cell::Set`, `Sheet::SetCell`) -/

/-- The method `Cell::RemoveDependence` of the object `this` stored at `this.pos`. -/
def Cell.RemoveDependence (api : FormulaAPI F) (this : Ptr) (c : Cell F) (s : Sheet F) :
    Option Exn × Sheet F :=
  forEach
    (fun pos s1 =>
      match s1.position_cell pos with
      | none => (some .out_of_range, s1)
      | some cell_ptr => (none, s1.store pos (some (cell_ptr.DeleteRefference this))))
    (c.GetReferencedCells api) s

/-- The method `Sheet::SaveCell`. -/
def Sheet.SaveCell (s : Sheet F) (cell : Cell F) (pos : Position) : Sheet F :=
  { s with
    position_cell := fun q => if q = pos then some cell else s.position_cell q
    row_cell := s.row_cell.insertAt pos.row pos.col
    col_cell := s.col_cell.insertAt pos.col pos.row }

/-- Lines 19 and 20 of `Sheet::SetCell`: `auto new_cell = std::make_unique<Cell>(*this);
SaveCell(std::move(new_cell), pos);` with the constructor `Cell::Cell`. -/
def Sheet.SaveNewCell (s : Sheet F) (pos : Position) : Sheet F :=
  Sheet.SaveCell { s with next := s.next + 1 } ⟨s.next, .Empty, []⟩ pos

/-- The method `Sheet::GetOrCreate`; `setCell` is `Sheet::SetCell`. -/
def Sheet.GetOrCreate (setCell : Sheet F → Position → String → Option Exn × Sheet F)
    (s : Sheet F) (pos : Position) : Except Exn Ptr × Sheet F :=
  match (if (s.position_cell pos).isNone then setCell s pos "" else (none, s)) with
  | (some e, s1) => (.error e, s1)
  | (none, s1) =>
    match s1.position_cell pos with
    | none => (.error .out_of_range, s1)
    | some c => (.ok ⟨pos, c.addr⟩, s1)

/-- The loop of `Cell::Set` that fills `cells_to_check` with `GetOrCreate(pos)`. -/
def Cell.cellsToCheck (setCell : Sheet F → Position → String → Option Exn × Sheet F) :
    List Position → Sheet F → Except Exn (List Ptr) × Sheet F
  | [], s => (.ok [], s)
  | pos :: rest, s =>
    match Sheet.GetOrCreate setCell s pos with
    | (.error e, s1) => (.error e, s1)
    | (.ok ptr, s1) =>
      match Cell.cellsToCheck setCell rest s1 with
      | (.error e, s2) => (.error e, s2)
      | (.ok ptrs, s2) => (.ok (ptr :: ptrs), s2)

/-- The loop of `Cell::Set` that calls `sheet_->ThisCell(pos)->AddRefference(this)`. -/
def Cell.addReferences (this : Ptr) (referenced_cells : List Position) (s : Sheet F) :
    Option Exn × Sheet F :=
  forEach
    (fun pos s1 =>
      match s1.position_cell pos with
      | none => (some .out_of_range, s1)
      | some cell => (none, s1.store pos (some (cell.AddRefference this))))
    referenced_cells s

/-- Lines 37 to 43 of `Cell::Set` for the object `this`: the referenced positions are
resolved to cells and the cycle check runs on them. -/
def Cell.resolveAndCheck (api : FormulaAPI F)
    (setCell : Sheet F → Position → String → Option Exn × Sheet F)
    (this : Ptr) (referenced_cells : List Position) (s : Sheet F) : Option Exn × Sheet F :=
  if referenced_cells.isEmpty then (none, s)
  else
    match Cell.cellsToCheck setCell referenced_cells s with
    | (.error e, s1) => (some e, s1)
    | (.ok cells_to_check, s1) => (Cell.CheckDependencies api s1 this cells_to_check, s1)

/-- The formula branch of `Cell::Set` (lines 28 to 51) for the object `this`. -/
def Cell.SetFormula (api : FormulaAPI F)
    (setCell : Sheet F → Position → String → Option Exn × Sheet F)
    (this : Ptr) (expression : String) (s : Sheet F) : Option Exn × Sheet F :=
  match api.ParseFormulaAST expression with
  | none => (some .FormulaException, s)
  | some f =>
    let referenced_cells := api.GetReferencedCells f
    match Cell.resolveAndCheck api setCell this referenced_cells s with
    | (some e, s1) => (some e, s1)
    | (none, s1) =>
      match Cell.addReferences this referenced_cells s1 with
      | (some e, s2) => (some e, s2)
      | (none, s2) => (none, s2.setImpl this.pos (.Formula f none))

/-- The method `Cell::Set` of the object stored at `pos`; `setCell` is `Sheet::SetCell`,
reached through `Sheet::GetOrCreate`. -/
def Cell.Set (api : FormulaAPI F)
    (setCell : Sheet F → Position → String → Option Exn × Sheet F)
    (s : Sheet F) (pos : Position) (text : String) : Option Exn × Sheet F :=
  match s.position_cell pos with
  | none => (some .out_of_range, s)
  | some c =>
    let this : Ptr := ⟨pos, c.addr⟩
    if text = c.impl.GetText api then (none, s)
    else
      match Cell.RemoveDependence api this c s with
      | (some e, s1) => (some e, s1)
      | (none, s1) =>
        let installed : Option Exn × Sheet F :=
          match text.data with
          | [] => (none, s1.setImpl pos .Empty)
          | ch :: rest =>
            if ch = FORMULA_SIGN ∧ rest ≠ [] then
              Cell.SetFormula api setCell this (String.mk rest) s1
            else (none, s1.setImpl pos (.Text text))
        match installed with
        | (some e, s2) => (some e, s2)
        | (none, s2) => Cell.ClearCache (s2.next + 1) this s2

/-- The method `Sheet::SetCell`, with the nesting depth of the call as a counter:
`SetCell` calls `Cell::Set`, which calls `GetOrCreate`, which calls `SetCell`. -/
def Sheet.SetCellDepth (api : FormulaAPI F) :
    Nat → Sheet F → Position → String → Option Exn × Sheet F
  | 0, s, _, _ => (some .diverge, s)
  | depth + 1, s, pos, text =>
    if !pos.IsValid then (some .InvalidPositionException, s)
    else
      let s1 : Sheet F :=
        match s.position_cell pos with
        | none => s.SaveNewCell pos
        | some c => if c.IsEmpty then s.SaveNewCell pos else s
      Cell.Set api (Sheet.SetCellDepth api depth) s1 pos text

/-- The method `Sheet::SetCell`. The nested call made by `GetOrCreate` passes the empty
text for an absent position and returns from `Cell::Set` at once, so two levels are
all the nesting there is (see `SetCellDepth_blank`). -/
def Sheet.SetCell (api : FormulaAPI F) (s : Sheet F) (pos : Position) (text : String) :
    Option Exn × Sheet F :=
  Sheet.SetCellDepth api 2 s pos text

/-! ## Reading and clearing (`Sheet::GetCell`, `Sheet::ClearCell`, `GetValue`) -/

/-- The method `Sheet::GetCell`: the cell view, `none` for `nullptr`. -/
def Sheet.GetCell (s : Sheet F) (pos : Position) : Except Exn (Option (Cell F)) :=
  if !pos.IsValid then .error .InvalidPositionException
  else .ok (s.position_cell pos)

/-- The method `Sheet::ClearCell`. -/
def Sheet.ClearCell (api : FormulaAPI F) (s : Sheet F) (pos : Position) :
    Option Exn × Sheet F :=
  if !pos.IsValid then (some .InvalidPositionException, s)
  else
    match s.position_cell pos with
    | none => (none, s)
    | some c =>
      let cleared : Option Exn × Sheet F :=
        if !c.IsReferenced then (none, s.store pos none)
        else Cell.Set api (Sheet.SetCell api) s pos ""
      match cleared with
      | (some e, s1) => (some e, s1)
      | (none, s1) =>
        match s1.row_cell.at? pos.row with
        | none => (some .out_of_range, s1)
        | some _ =>
          let s2 : Sheet F := { s1 with row_cell := s1.row_cell.eraseAt pos.row pos.col }
          match s2.col_cell.at? pos.col with
          | none => (some .out_of_range, s2)
          | some _ => (none, { s2 with col_cell := s2.col_cell.eraseAt pos.col pos.row })

/-- The method `Sheet::GetPrintableSize`, as `(rows, cols)`. -/
def Sheet.GetPrintableSize (s : Sheet F) : Int × Int :=
  ((match s.row_cell.getLast? with
    | some (row, _) => row + 1
    | none => 0),
   (match s.col_cell.getLast? with
    | some (col, _) => col + 1
    | none => 0))

/-- The method `TextImpl::GetValue`. -/
def TextImpl.GetValue (text : String) : Value :=
  match text.data with
  | ch :: rest => if ch = ESCAPE_SIGN then .text (String.mk rest) else .text text
  | [] => .text text

/-- Runs `ast_.Execute(get_value)` against the sheet. -/
def runExec (get_value : Sheet F → Position → Except Exn (Except Category Value) × Sheet F) :
    Exec → Sheet F → Except Exn (Except Category Double) × Sheet F
  | .ret d, s => (.ok (.ok d), s)
  | .raise e, s => (.ok (.error e), s)
  | .call pos k, s =>
    match get_value s pos with
    | (.error e, s1) => (.error e, s1)
    | (.ok v, s1) => runExec get_value (k v) s1

/-- The method `Sheet::GetValue`, the lookup handed to the evaluator; `cellGetValue` is
`Cell::GetValue`. The inner result is the thrown `FormulaError`, if any. -/
def Sheet.GetValueWith (cellGetValue : Sheet F → Position → Except Exn Value × Sheet F)
    (s : Sheet F) (pos : Position) : Except Exn (Except Category Value) × Sheet F :=
  if !pos.IsValid then (.ok (.error .Ref), s)
  else
    match s.position_cell pos with
    | none => (.ok (.ok (.number ⟨0⟩)), s)
    | some _ =>
      match cellGetValue s pos with
      | (.error e, s1) => (.error e, s1)
      | (.ok v, s1) => (.ok (.ok v), s1)

/-- The method `Cell::GetValue` of the object stored at `pos`, with `FormulaImpl::GetValue`
and `Formula::Evaluate` inlined. -/
def Cell.GetValue (api : FormulaAPI F) : Nat → Sheet F → Position → Except Exn Value × Sheet F
  | 0, s, _ => (.error .diverge, s)
  | fuel + 1, s, pos =>
    match s.position_cell pos with
    | none => (.error .out_of_range, s)
    | some c =>
      match c.impl with
      | .Empty => (.ok (.error .Value), s)
      | .Text text => (.ok (TextImpl.GetValue text), s)
      | .Formula _ (some cached) => (.ok cached, s)
      | .Formula f none =>
        match runExec (Sheet.GetValueWith (fun s1 q => Cell.GetValue api fuel s1 q))
            (api.Execute f) s with
        | (.error e, s1) => (.error e, s1)
        | (.ok result, s1) =>
          let value : Value :=
            match result with
            | .ok d => .number d
            | .error e => .error e
          (.ok value, s1.setImpl pos (.Formula f (some value)))

/-- The method `Sheet::GetValue`. -/
def Sheet.GetValue (api : FormulaAPI F) (s : Sheet F) (pos : Position) :
    Except Exn (Except Category Value) × Sheet F :=
  Sheet.GetValueWith (fun s1 q => Cell.GetValue api (s.next + 1) s1 q) s pos

/-- The call `sheet.GetCell(pos)->GetValue()` of a client; nothing is evaluated when
`GetCell` throws or returns `nullptr`. -/
def Sheet.CellValue (api : FormulaAPI F) (s : Sheet F) (pos : Position) :
    Except Exn (Option Value) × Sheet F :=
  if !pos.IsValid then (.error .InvalidPositionException, s)
  else
    match s.position_cell pos with
    | none => (.ok none, s)
    | some _ =>
      match Cell.GetValue api (s.next + 1) s pos with
      | (.error e, s1) => (.error e, s1)
      | (.ok v, s1) => (.ok (some v), s1)

/-! ## Client operations and reachable sheets -/

/-- A call a client can make on the sheet. `GetValue pos` is `GetCell(pos)->GetValue()`. -/
inductive Op where
  | SetCell (pos : Position) (text : String)
  | ClearCell (pos : Position)
  | GetValue (pos : Position)

/-- The exception (if any) and the sheet after one client call. -/
def Sheet.apply (api : FormulaAPI F) (s : Sheet F) : Op → Option Exn × Sheet F
  | .SetCell pos text => Sheet.SetCell api s pos text
  | .ClearCell pos => Sheet.ClearCell api s pos
  | .GetValue pos =>
    match Sheet.CellValue api s pos with
    | (.error e, s1) => (some e, s1)
    | (.ok _, s1) => (none, s1)

/-- The sheets a client can reach from the empty sheet by any sequence of calls. A call
that throws counts with the sheet it leaves behind; so does a call that ends in
`dangling` or `diverge`, with the sheet at the point where it stops, which only adds
sheets to those the theorems below speak about. -/
inductive Reachable (api : FormulaAPI F) : Sheet F → Prop where
  | init : Reachable api (Sheet.empty F)
  | call (s : Sheet F) (op : Op) : Reachable api s → Reachable api (Sheet.apply api s op).2

/-- The sheet after a list of client calls, whatever they return or throw. -/
def Sheet.after (api : FormulaAPI F) (s : Sheet F) : List Op → Sheet F
  | [] => s
  | op :: ops => Sheet.after api (Sheet.apply api s op).2 ops

/-- The outcomes of a list of client calls, in order. -/
def Sheet.outcomes (api : FormulaAPI F) (s : Sheet F) : List Op → List (Option Exn)
  | [] => []
  | op :: ops => (Sheet.apply api s op).1 :: Sheet.outcomes api (Sheet.apply api s op).2 ops

/-! ## A small formula library for concrete scenarios

Formulas are sums such as `A1+B2+3`. A parsed formula is represented by its text, which
is also its canonical printing. The library serves to run the engine on concrete calls;
the general theorems hold for every formula library. -/

namespace Sample

/-- One summand: a cell reference or a number literal. -/
inductive Term where
  | cell (pos : Position)
  | lit (n : Nat)
deriving DecidableEq

/-- Cuts a character list at every `+`. -/
def splitPlus : List Char → List (List Char)
  | [] => [[]]
  | c :: cs =>
    match splitPlus cs with
    | [] => [[c]]
    | w :: ws => if c = '+' then [] :: w :: ws else (c :: w) :: ws

/-- Reads a non-empty string of decimal digits. -/
def readNat : List Char → Option Nat
  | [] => none
  | cs =>
    cs.foldl
      (fun acc c =>
        match acc with
        | none => none
        | some n => if '0' ≤ c ∧ c ≤ '9' then some (10 * n + (c.toNat - 48)) else none)
      (some 0)

/-- Reads a summand: an upper-case letter followed by a row number, or a number. -/
def readTerm : List Char → Option Term
  | [] => none
  | c :: cs =>
    if 'A' ≤ c ∧ c ≤ 'Z' then
      match readNat cs with
      | some (n + 1) => some (.cell ⟨Int.ofNat n, Int.ofNat (c.toNat - 65)⟩)
      | _ => none
    else
      match readNat (c :: cs) with
      | some n => some (.lit n)
      | none => none

/-- Reads all summands of an expression. -/
def readTerms (expression : String) : Option (List Term) :=
  (splitPlus expression.data).mapM readTerm

/-- The cell references among the summands, in order of appearance. -/
def termCells : List Term → List Position
  | [] => []
  | .cell pos :: ts => pos :: termCells ts
  | .lit _ :: ts => termCells ts

/-- Adds up the summands, asking the sheet for every referenced cell. A text operand
counts when it reads as a number and is a value error otherwise. -/
def execTerms : List Term → Nat → Exec
  | [], acc => .ret ⟨acc⟩
  | .lit n :: ts, acc => execTerms ts (acc + n)
  | .cell pos :: ts, acc =>
    .call pos (fun r =>
      match r with
      | .error e => .raise e
      | .ok (.number d) => execTerms ts (acc + d.code)
      | .ok (.error e) => .raise e
      | .ok (.text t) =>
        match readNat t.data with
        | some n => execTerms ts (acc + n)
        | none => .raise .Value)

/-- A parsed sample formula: an expression text that reads as a sum. -/
abbrev Formula : Type := { expression : String // (readTerms expression).isSome = true }

/-- The sample formula library. -/
def api : FormulaAPI Formula where
  ParseFormulaAST := fun expression =>
    if h : (readTerms expression).isSome = true then some ⟨expression, h⟩ else none
  GetCells := fun f => termCells ((readTerms f.val).getD [])
  PrintFormula := fun f => f.val
  Execute := fun f => execTerms ((readTerms f.val).getD []) 0

/-- The position `A1`. -/
def A1 : Position := ⟨0, 0⟩

/-- The position `B1`. -/
def B1 : Position := ⟨0, 1⟩

/-- The position `C1`. -/
def C1 : Position := ⟨0, 2⟩

/-- The position `A2`. -/
def A2 : Position := ⟨1, 0⟩

end Sample

/-! ## The reference graph and the well-formedness of sheets -/

/-- The positions referenced by the cell stored at `a` (none unless it is a formula). -/
def Sheet.refsAt (api : FormulaAPI F) (s : Sheet F) (a : Position) : List Position :=
  match s.position_cell a with
  | some c => c.GetReferencedCells api
  | none => []

/-- The reference graph: an edge goes from a formula cell to every position it references. -/
def Sheet.Edge (api : FormulaAPI F) (s : Sheet F) (a b : Position) : Prop :=
  b ∈ s.refsAt api a

/-- The reference graph has no cycle. -/
def Sheet.Acyclic (api : FormulaAPI F) (s : Sheet F) : Prop :=
  ∀ a, ¬ Relation.TransGen (s.Edge api) a a

/-- Every position referenced by a formula cell holds a cell. -/
def Sheet.RefsPresent (api : FormulaAPI F) (s : Sheet F) : Prop :=
  ∀ a b, s.Edge api a b → (s.position_cell b).isSome = true

/-- Allocation numbers of stored cells are below the counter and pairwise distinct. -/
def Sheet.AllocOK (s : Sheet F) : Prop :=
  (∀ p c, s.position_cell p = some c → c.addr < s.next) ∧
  (∀ p q c d, s.position_cell p = some c → s.position_cell q = some d → c.addr = d.addr → p = q)

/-- The pointer `ptr` points to the object currently stored at its position. -/
def Sheet.Canon (s : Sheet F) (ptr : Ptr) : Prop :=
  ∃ c, s.position_cell ptr.pos = some c ∧ c.addr = ptr.addr

/-- A visited set of the cycle check: live pointers, no repetition, without `start`. -/
structure Sheet.Good (s : Sheet F) (start : Ptr) (V : List Ptr) : Prop where
  canon : ∀ v ∈ V, s.Canon v
  nodup : V.Nodup
  start_not_mem : start ∉ V

/-- What a call of `RecursedCheck` on the cell at `pos` with visited set `V` delivers:
either a larger visited set that holds `pos` and is closed under references for every
newly visited cell, or the cycle exception together with a reference path to `start`,
or `std::out_of_range` from `ThisCell` because some referenced position is absent. -/
def Sheet.DfsPost (api : FormulaAPI F) (s : Sheet F) (start : Ptr) (pos : Position)
    (V : List Ptr) : Except Exn (List Ptr) → Prop
  | .ok W =>
    V ⊆ W ∧ V.length ≤ W.length ∧ s.Good start W ∧ (∃ w ∈ W, w.pos = pos) ∧
      (∀ v ∈ W, v ∉ V → ∀ q, s.Edge api v.pos q → ∃ w ∈ W, w.pos = q)
  | .error e =>
    (e = .CircularDependencyException ∧ Relation.ReflTransGen (s.Edge api) pos start.pos) ∨
      (e = .out_of_range ∧ ¬ s.RefsPresent api)

/-- What a loop of `RecursedCheck` calls over the cells at `targets` delivers. -/
def Sheet.LoopPost (api : FormulaAPI F) (s : Sheet F) (start : Ptr) (targets : List Position)
    (V : List Ptr) : Except Exn (List Ptr) → Prop
  | .ok W =>
    V ⊆ W ∧ V.length ≤ W.length ∧ s.Good start W ∧ (∀ q ∈ targets, ∃ w ∈ W, w.pos = q) ∧
      (∀ v ∈ W, v ∉ V → ∀ q, s.Edge api v.pos q → ∃ w ∈ W, w.pos = q)
  | .error e =>
    (e = .CircularDependencyException ∧
      ∃ q ∈ targets, Relation.ReflTransGen (s.Edge api) q start.pos) ∨
      (e = .out_of_range ∧ ¬ s.RefsPresent api)

/-- The part of a cell that the reference graph depends on: the allocation number and
the implementation without its cache. -/
def Cell.core (c : Cell F) : Nat × Impl F := (c.addr, c.impl.ClearCache)

/-- The core of the cell stored at `p`, if any. -/
def Sheet.core (s : Sheet F) (p : Position) : Option (Nat × Impl F) :=
  (s.position_cell p).map Cell.core

/-- Two sheets that differ at most in caches, `referring_cells_` and the indices. -/
def Sheet.CoreEq (s s' : Sheet F) : Prop :=
  s'.next = s.next ∧ ∀ p, s'.core p = s.core p

/-- The texts that `Cell::Set` treats as formulas: `=` followed by at least one character. -/
def IsFormulaText (text : String) : Prop :=
  ∃ rest, text.data = FORMULA_SIGN :: rest ∧ rest ≠ []

/-- No text cell holds a text that `Cell::Set` would have parsed as a formula. -/
def Sheet.TextOK (s : Sheet F) : Prop :=
  ∀ p c t, s.position_cell p = some c → c.impl = .Text t → ¬ IsFormulaText t

/-- The facts that hold of every reachable sheet. -/
structure Sheet.Inv (api : FormulaAPI F) (s : Sheet F) : Prop where
  alloc : s.AllocOK
  acyclic : s.Acyclic api
  text : s.TextOK

/-- The ways in which the engine changes the cells of a sheet, as far as the reference
graph can tell: it touches caches and back-references, seats a new empty cell,
installs an empty or text implementation, destroys a
cell, or installs a formula whose references passed the cycle check. -/
inductive Sheet.Evolve (api : FormulaAPI F) : Sheet F → Sheet F → Prop where
  | refl (s : Sheet F) : Sheet.Evolve api s s
  | coreEq {s s1 s2 : Sheet F} : Sheet.Evolve api s s1 → s1.CoreEq s2 → Sheet.Evolve api s s2
  | fresh {s s1 : Sheet F} (pos : Position) : Sheet.Evolve api s s1 →
      Sheet.Evolve api s (s1.SaveNewCell pos)
  | plain {s s1 : Sheet F} (pos : Position) (impl : Impl F) : Sheet.Evolve api s s1 →
      (impl = .Empty ∨ ∃ t, impl = .Text t ∧ ¬ IsFormulaText t) →
      Sheet.Evolve api s (s1.setImpl pos impl)
  | erase {s s1 : Sheet F} (pos : Position) : Sheet.Evolve api s s1 →
      Sheet.Evolve api s (s1.store pos none)
  | formula {s s1 : Sheet F} (pos : Position) (f : F) (S : Position → Prop) :
      Sheet.Evolve api s s1 → (∀ q ∈ api.GetReferencedCells f, S q) → ¬ S pos →
      (∀ a b, S a → s1.Edge api a b → S b) →
      Sheet.Evolve api s (s1.setImpl pos (.Formula f none))

/-- What `Cell::Set` relies on when `GetOrCreate` calls back into `Sheet::SetCell` with
the empty text for an absent position: the call checks the position and seats a new
empty cell. -/
def BlankOK (setCell : Sheet F → Position → String → Option Exn × Sheet F) : Prop :=
  ∀ s pos, s.position_cell pos = none →
    setCell s pos "" =
      if pos.IsValid then (none, s.SaveNewCell pos)
      else (some .InvalidPositionException, s)

/-- The sheet `s'` holds every cell of `s` unchanged, and empty cells elsewhere. -/
def Sheet.Grow (s s' : Sheet F) : Prop :=
  (∀ p c, s.position_cell p = some c → s'.position_cell p = some c) ∧
  (∀ p c, s.position_cell p = none → s'.position_cell p = some c → c.impl = .Empty)

/-- What the resolve-and-check stage of `Cell::Set` delivers for the cell at `pos` and
the referenced positions `refs`: on success a set of positions that holds `refs`,
misses `pos` and is closed under references; otherwise the exception and its cause. -/
def Sheet.CheckPost (api : FormulaAPI F) (s : Sheet F) (pos : Position)
    (refs : List Position) : Option Exn → Prop
  | none =>
    ∃ S : Position → Prop, (∀ q ∈ refs, S q) ∧ ¬ S pos ∧ ∀ a b, S a → s.Edge api a b → S b
  | some e =>
    (e = .InvalidPositionException ∧ ∃ q ∈ refs, q.IsValid = false) ∨
    (e = .CircularDependencyException ∧
      ∃ q ∈ refs, Relation.ReflTransGen (s.Edge api) q pos) ∨
    (e = .out_of_range ∧ ¬ s.RefsPresent api)

/-- The sheet `s'` has the references of `s` at every position and holds a cell wherever
`s` does. -/
def Sheet.SameGraph (api : FormulaAPI F) (s s' : Sheet F) : Prop :=
  (∀ a, s'.refsAt api a = s.refsAt api a) ∧
  (∀ q, (s.position_cell q).isSome = true → (s'.position_cell q).isSome = true)

/-- The text a cell reports after a successful `SetCell` with text `t`: `t` itself unless
`t` is a formula text, and `=` followed by the canonical printing of the parsed
expression when `t` is `=E` with `E` non-empty. -/
def TextSpec (api : FormulaAPI F) (t : String) (c : Cell F) : Prop :=
  (¬ IsFormulaText t → c.GetText api = t) ∧
  (∀ E, t = "=" ++ E → E ≠ "" →
    ∃ f, api.ParseFormulaAST E = some f ∧ c.GetText api = "=" ++ api.PrintFormula f)

/-! ## Observations used in concrete scenarios -/

/-- The back-references (`referring_cells_`) of the cell stored at `pos`, if any. -/
def Sheet.dependentsAt (s : Sheet F) (pos : Position) : Option (List Ptr) :=
  (s.position_cell pos).map (fun c => c.referring_cells)

/-- The cache of the cell stored at `pos`; a cell that is not a formula has none. -/
def Sheet.cacheAt (s : Sheet F) (pos : Position) : Option Value :=
  match s.position_cell pos with
  | some ⟨_, .Formula _ cache, _⟩ => cache
  | _ => none

/-- The text (`GetText`) of the cell stored at `pos`, if any. -/
def Sheet.textAt (api : FormulaAPI F) (s : Sheet F) (pos : Position) : Option String :=
  (s.position_cell pos).map (fun c => c.GetText api)

/-- The sheet after a list of client calls on the empty sheet, with the sample library. -/
def Sample.sheetAfter (ops : List Op) : Sheet Sample.Formula :=
  Sheet.after Sample.api (Sheet.empty Sample.Formula) ops

/-- The outcomes of a list of client calls on the empty sheet, with the sample library. -/
def Sample.outcomesOf (ops : List Op) : List (Option Exn) :=
  Sheet.outcomes Sample.api (Sheet.empty Sample.Formula) ops

/-! ## Printing (`operator<<` of `formula.cpp`, `PrintValue`, `Sheet::PrintValues`) -/

/-- The characters that `operator<<(std::ostream&, FormulaError)` of `formula.cpp` writes. -/
def FormulaError.render (_fe : Category) : String := "#ARITHM!"

/-- The three overloads of `PrintValue` of `sheet.cpp`, picked by `std::visit`;
`printDouble` stands for the stream rendering of a `double`. -/
def PrintValue (printDouble : Double → String) : Value → String
  | .number value => printDouble value
  | .text value => value
  | .error value => FormulaError.render value

/-- The body of the inner loop of `Sheet::PrintValues` at `(row, col)`; the state is the
output written so far and the sheet (reading a value may fill caches). -/
def Sheet.printValueAt (api : FormulaAPI F) (printDouble : Double → String) (cols : Int)
    (row col : Int) (st : String × Sheet F) : Option Exn × (String × Sheet F) :=
  match st.2.GetCell ⟨row, col⟩ with
  | .error e => (some e, st)
  | .ok cell_ptr =>
    let printed : Option Exn × (String × Sheet F) :=
      match cell_ptr with
      | none => (none, st)
      | some _ =>
        match Cell.GetValue api (st.2.next + 1) st.2 ⟨row, col⟩ with
        | (.error e, s1) => (some e, (st.1, s1))
        | (.ok value, s1) => (none, (st.1 ++ PrintValue printDouble value, s1))
    match printed with
    | (some e, st1) => (some e, st1)
    | (none, st1) =>
      if col < cols - 1 then (none, (st1.1 ++ "\t", st1.2)) else (none, st1)

/-- The method `Sheet::PrintValues`: the exception (if any), the output and the sheet. -/
def Sheet.PrintValues (api : FormulaAPI F) (printDouble : Double → String) (s : Sheet F) :
    Option Exn × (String × Sheet F) :=
  let size := s.GetPrintableSize
  forEach
    (fun (row : Nat) st =>
      match forEach (fun (col : Nat) st1 =>
          Sheet.printValueAt api printDouble size.2 (Int.ofNat row) (Int.ofNat col) st1)
          (List.range size.2.toNat) st with
      | (some e, st1) => (some e, st1)
      | (none, st1) => (none, (st1.1 ++ "\n", st1.2)))
    (List.range size.1.toNat) ("", s)

/-- A rendering of doubles for the sample library: the decimal digits of the code. -/
def Sample.printDouble (d : Double) : String := String.mk (Nat.toDigits 10 d.code)

/-! ## The row and column indices -/

/-- The value `v` is in the set stored under the key `k`. -/
def IndexMap.Mem (m : IndexMap) (k v : Int) : Prop :=
  ∃ set, m.at? k = some set ∧ v ∈ set

/-- The keys are strictly increasing, as in a `std::map`. -/
def IndexMap.Sorted (m : IndexMap) : Prop :=
  (m.map Prod.fst).Pairwise (fun a b => a < b)

/-- The row index and the column index describe the same set of coordinates, store no
empty set, have increasing keys, and hold no negative coordinate. -/
structure IdxInv (rows cols : IndexMap) : Prop where
  rows_sorted : rows.Sorted
  cols_sorted : cols.Sorted
  consistent : ∀ r c, rows.Mem r c ↔ cols.Mem c r
  rows_nonempty : ∀ r set, rows.at? r = some set → set ≠ []
  cols_nonempty : ∀ c set, cols.at? c = some set → set ≠ []
  nonneg : ∀ r c, rows.Mem r c → 0 ≤ r ∧ 0 ≤ c

/-- The indices of the sheet are consistent. -/
def Sheet.IndexOK (s : Sheet F) : Prop := IdxInv s.row_cell s.col_cell

/-- The row and column indices of `s'` are those of `s`. -/
def Sheet.SameIndex (s s' : Sheet F) : Prop :=
  s'.row_cell = s.row_cell ∧ s'.col_cell = s.col_cell

/-- The row index after `SaveCell` has indexed the positions `qs`, in order. -/
def IndexMap.insertRows (m : IndexMap) (qs : List Position) : IndexMap :=
  qs.foldl (fun m q => m.insertAt q.row q.col) m

/-- The column index after `SaveCell` has indexed the positions `qs`, in order. -/
def IndexMap.insertCols (m : IndexMap) (qs : List Position) : IndexMap :=
  qs.foldl (fun m q => m.insertAt q.col q.row) m

/-- The sheet `s'` comes from `s` by seating new cells at the valid positions `qs`, which
held no cell in `s`, each indexed by `SaveCell`, and by changes that touch neither the
indices nor the set of positions that hold a cell. -/
def Sheet.Seated (s s' : Sheet F) (qs : List Position) : Prop :=
  (∀ q ∈ qs, q.IsValid = true ∧ s.position_cell q = none) ∧
  s'.row_cell = s.row_cell.insertRows qs ∧
  s'.col_cell = s.col_cell.insertCols qs ∧
  (∀ q, (s.position_cell q).isSome = true → (s'.position_cell q).isSome = true) ∧
  (∀ q ∈ qs, (s'.position_cell q).isSome = true) ∧
  ∀ q, (s'.position_cell q).isSome = true → (s.position_cell q).isSome = true ∨ q ∈ qs

/-- The sheet `s'` comes from `s` by seating new cells at some valid positions. -/
def Sheet.IndexGrown (s s' : Sheet F) : Prop := ∃ qs, s.Seated s' qs

/-- Lines 18 to 21 of `Sheet::SetCell`: a new cell is saved at `pos` unless a cell that
is not empty is there. -/
def Sheet.seat (s : Sheet F) (pos : Position) : Sheet F :=
  match s.position_cell pos with
  | none => s.SaveNewCell pos
  | some c => if c.IsEmpty then s.SaveNewCell pos else s

/-- The sheet `s'` is the sheet `s` except that the pointer `this` may have been erased
from lists of dependents (`referring_cells_`): the indices and the allocation counter are
equal, the same positions hold a cell, and each cell has the same allocation number and
the same implementation (cache included). -/
def Sheet.SameButDeps (this : Ptr) (s s' : Sheet F) : Prop :=
  s'.row_cell = s.row_cell ∧ s'.col_cell = s.col_cell ∧ s'.next = s.next ∧
  (∀ q, s.position_cell q = none → s'.position_cell q = none) ∧
  ∀ q c, s.position_cell q = some c →
    ∃ c', s'.position_cell q = some c' ∧ c'.addr = c.addr ∧ c'.impl = c.impl ∧
      (c'.referring_cells = c.referring_cells ∨
        c'.referring_cells = c.referring_cells.filter (fun x => decide (x ≠ this)))

/-! # Properties -/

/-! ## Pointers and visited sets -/

theorem Sheet.Canon.eq_of_pos {s : Sheet F} {a b : Ptr} (ha : s.Canon a) (hb : s.Canon b)
    (h : a.pos = b.pos) : a = b := by
  obtain ⟨c, hc, hca⟩ := ha
  obtain ⟨d, hd, hda⟩ := hb
  rw [h, hd] at hc
  cases a; cases b
  simp only [Option.some.injEq] at hc
  subst hc
  simp_all

theorem Sheet.deref_of_canon {s : Sheet F} {a : Ptr} (ha : s.Canon a) :
    ∃ c, s.deref a = some c ∧ s.position_cell a.pos = some c := by
  obtain ⟨c, hc, hca⟩ := ha
  exact ⟨c, by simp [Sheet.deref, hc, hca], hc⟩

theorem Sheet.Good.length_le {s : Sheet F} {start : Ptr} {V : List Ptr} (h : s.Good start V)
    (hs : s.AllocOK) : V.length ≤ s.next := by
  have hnd : (V.map Ptr.addr).Nodup := by
    refine List.Nodup.map_on ?_ h.nodup
    intro x hx y hy hxy
    obtain ⟨c, hc, hca⟩ := h.canon x hx
    obtain ⟨d, hd, hda⟩ := h.canon y hy
    have := hs.2 _ _ _ _ hc hd (by omega)
    exact Sheet.Canon.eq_of_pos (h.canon x hx) (h.canon y hy) this
  have hsub : (V.map Ptr.addr).toFinset ⊆ Finset.range s.next := by
    intro a ha
    simp only [List.mem_toFinset, List.mem_map] at ha
    obtain ⟨v, hv, rfl⟩ := ha
    obtain ⟨c, hc, hca⟩ := h.canon v hv
    simp only [Finset.mem_range]
    have := hs.1 _ _ hc
    omega
  have := Finset.card_le_card hsub
  rw [List.toFinset_card_of_nodup hnd] at this
  simpa using this

/-! ## The depth-first search of the cycle check -/

theorem Sheet.dfs_loop (api : FormulaAPI F) (s : Sheet F) (start : Ptr) {α : Type}
    (g : List Ptr → α → Except Exn (List Ptr)) (posOf : α → Position) :
    ∀ (xs : List α) (V0 : List Ptr), s.Good start V0 →
      (∀ x ∈ xs, ∀ V, s.Good start V → V0.length ≤ V.length →
        s.DfsPost api start (posOf x) V (g V x)) →
      s.LoopPost api start (xs.map posOf) V0 (xs.foldlM g V0) := by
  intro xs
  induction xs with
  | nil =>
    intro V0 hV0 _
    simp only [List.foldlM_nil, List.map_nil]
    exact ⟨fun _ h => h, le_refl _, hV0, by simp, fun v hv hnv => absurd hv hnv⟩
  | cons x xs ih =>
    intro V0 hV0 hg
    have h1 := hg x (List.mem_cons_self _ _) V0 hV0 (le_refl _)
    simp only [List.foldlM_cons, List.map_cons]
    cases hr : g V0 x with
    | error e =>
      rw [hr] at h1
      rcases h1 with ⟨he, hreach⟩ | h1
      · exact Or.inl ⟨he, posOf x, List.mem_cons_self _ _, hreach⟩
      · exact Or.inr h1
    | ok V1 =>
      rw [hr] at h1
      obtain ⟨hsub, hlen, hgood, hmem, hclosed⟩ := h1
      have h2 := ih V1 hgood (fun y hy V hV hl =>
        hg y (List.mem_cons_of_mem _ hy) V hV (le_trans hlen hl))
      show s.LoopPost api start (posOf x :: xs.map posOf) V0 (xs.foldlM g V1)
      cases hr2 : xs.foldlM g V1 with
      | error e =>
        rw [hr2] at h2
        rcases h2 with ⟨he, q, hq, hreach⟩ | h2
        · exact Or.inl ⟨he, q, List.mem_cons_of_mem _ hq, hreach⟩
        · exact Or.inr h2
      | ok W =>
        rw [hr2] at h2
        obtain ⟨hsub2, hlen2, hgood2, hmem2, hclosed2⟩ := h2
        refine ⟨fun v hv => hsub2 (hsub hv), le_trans hlen hlen2, hgood2, ?_, ?_⟩
        · intro q hq
          rcases List.mem_cons.1 hq with rfl | hq
          · obtain ⟨w, hw, hwq⟩ := hmem
            exact ⟨w, hsub2 hw, hwq⟩
          · exact hmem2 q hq
        · intro v hv hnv q hq
          by_cases hv1 : v ∈ V1
          · obtain ⟨w, hw, hwq⟩ := hclosed v hv1 hnv q hq
            exact ⟨w, hsub2 hw, hwq⟩
          · exact hclosed2 v hv hv1 q hq

theorem Sheet.RecursedCheck_spec (api : FormulaAPI F) (s : Sheet F) (start : Ptr)
    (hs : s.AllocOK) :
    ∀ (fuel : Nat) (this : Ptr) (V : List Ptr), s.Canon this → s.Good start V →
      s.next + 1 ≤ fuel + V.length →
      s.DfsPost api start this.pos V (Cell.RecursedCheck api s start fuel this V) := by
  intro fuel
  induction fuel with
  | zero =>
    intro this V _ hV hfuel
    have := hV.length_le hs
    omega
  | succ fuel ih =>
    intro this V hthis hV hfuel
    unfold Cell.RecursedCheck
    by_cases hmem : this ∈ V
    · simp only [hmem, if_true]
      exact ⟨fun _ h => h, le_refl _, hV, ⟨this, hmem, rfl⟩, fun v hv hnv => absurd hv hnv⟩
    · simp only [hmem, if_false]
      by_cases hst : this = start
      · simp only [hst, if_true]
        exact Or.inl ⟨rfl, Relation.ReflTransGen.refl⟩
      · simp only [hst, if_false]
        obtain ⟨c, hderef, hcell⟩ := Sheet.deref_of_canon hthis
        simp only [hderef]
        have hV0 : s.Good start (this :: V) :=
          ⟨fun v hv => by
              rcases List.mem_cons.1 hv with rfl | hv
              · exact hthis
              · exact hV.canon v hv,
            List.nodup_cons.2 ⟨hmem, hV.nodup⟩,
            fun h => by
              rcases List.mem_cons.1 h with h | h
              · exact hst h.symm
              · exact hV.start_not_mem h⟩
        have hrefs : s.refsAt api this.pos = c.GetReferencedCells api := by
          simp [Sheet.refsAt, hcell]
        have hloop := Sheet.dfs_loop api s start
          (fun visited pos =>
            match s.position_cell pos with
            | none => Except.error Exn.out_of_range
            | some cell => Cell.RecursedCheck api s start fuel ⟨pos, cell.addr⟩ visited)
          (fun pos => pos) (c.GetReferencedCells api) (this :: V) hV0
          (by
            intro q hq W hW hlen
            beta_reduce
            cases hd : s.position_cell q with
            | none =>
              refine Or.inr ⟨rfl, fun hp => ?_⟩
              have := hp this.pos q (by simp [Sheet.Edge, hrefs, hq])
              simp [hd] at this
            | some d =>
              exact ih ⟨q, d.addr⟩ W ⟨d, hd, rfl⟩ hW (by simp at hlen; omega))
        simp only [List.map_id'] at hloop
        cases hr : (c.GetReferencedCells api).foldlM
          (fun visited pos =>
            match s.position_cell pos with
            | none => Except.error Exn.out_of_range
            | some cell => Cell.RecursedCheck api s start fuel ⟨pos, cell.addr⟩ visited)
          (this :: V) with
        | error e =>
          rw [hr] at hloop
          rcases hloop with ⟨he, q, hq, hreach⟩ | hloop
          · exact Or.inl
              ⟨he, Relation.ReflTransGen.head (by simp [Sheet.Edge, hrefs, hq]) hreach⟩
          · exact Or.inr hloop
        | ok W =>
          rw [hr] at hloop
          obtain ⟨hsub, hlen, hgood, hcover, hclosed⟩ := hloop
          refine ⟨fun v hv => hsub (List.mem_cons_of_mem _ hv), ?_, hgood,
            ⟨this, hsub (List.mem_cons_self _ _), rfl⟩, ?_⟩
          · simp at hlen; omega
          · intro v hv hnv q hq
            by_cases hvt : v = this
            · subst hvt
              exact hcover q (by simpa [Sheet.Edge, hrefs] using hq)
            · exact hclosed v hv (by simp [hvt, hnv]) q hq

/-- When `CheckDependencies` returns, some set of positions holds the referenced cells,
is closed under references and misses the checked cell; when it throws, either a
reference path leads from a referenced cell to the checked cell, or a referenced
position is absent. It never runs out of fuel. -/
theorem Sheet.CheckDependencies_spec (api : FormulaAPI F) (s : Sheet F) (hs : s.AllocOK)
    (this : Ptr) (hthis : s.Canon this) (ptrs : List Ptr) (hptrs : ∀ x ∈ ptrs, s.Canon x) :
    match Cell.CheckDependencies api s this ptrs with
    | none =>
      ∃ S : Position → Prop, (∀ x ∈ ptrs, S x.pos) ∧ ¬ S this.pos ∧
        ∀ a b, S a → s.Edge api a b → S b
    | some e =>
      (e = .CircularDependencyException ∧
        ∃ x ∈ ptrs, Relation.ReflTransGen (s.Edge api) x.pos this.pos) ∨
      (e = .out_of_range ∧ ¬ s.RefsPresent api) := by
  unfold Cell.CheckDependencies
  by_cases hmem : this ∈ ptrs
  · rw [if_pos hmem]
    exact Or.inl ⟨rfl, this, hmem, Relation.ReflTransGen.refl⟩
  · rw [if_neg hmem]
    have hloop := Sheet.dfs_loop api s this
      (fun checked cell => Cell.RecursedCheck api s this (s.next + 1) cell checked)
      Ptr.pos ptrs [] ⟨by simp, List.nodup_nil, by simp⟩
      (by
        intro x hx V hV _
        exact Sheet.RecursedCheck_spec api s this hs (s.next + 1) x V (hptrs x hx) hV
          (by omega))
    cases hr : ptrs.foldlM
      (fun checked cell => Cell.RecursedCheck api s this (s.next + 1) cell checked) [] with
    | error e =>
      rw [hr] at hloop
      rcases hloop with ⟨he, q, hq, hreach⟩ | hloop
      · obtain ⟨x, hx, rfl⟩ := List.mem_map.1 hq
        exact Or.inl ⟨he, x, hx, hreach⟩
      · exact Or.inr hloop
    | ok W =>
      rw [hr] at hloop
      obtain ⟨_, _, hgood, hcover, hclosed⟩ := hloop
      refine ⟨fun a => ∃ w ∈ W, w.pos = a, ?_, ?_, ?_⟩
      · intro x hx
        exact hcover x.pos (List.mem_map.2 ⟨x, hx, rfl⟩)
      · rintro ⟨w, hw, hwp⟩
        have := Sheet.Canon.eq_of_pos (hgood.canon w hw) hthis hwp
        exact hgood.start_not_mem (this ▸ hw)
      · rintro a b ⟨w, hw, rfl⟩ hab
        exact hclosed w hw (by simp) b hab

theorem Sheet.closed_of_reach (api : FormulaAPI F) (s : Sheet F) (S : Position → Prop)
    (hclosed : ∀ a b, S a → s.Edge api a b → S b) {a b : Position} (ha : S a)
    (h : Relation.ReflTransGen (s.Edge api) a b) : S b := by
  induction h with
  | refl => exact ha
  | tail _ hbc ih => exact hclosed _ _ ih hbc


/-! ## Elementary updates of the object store -/

@[simp] theorem Sheet.SaveNewCell_cell (s : Sheet F) (pos q : Position) :
    (s.SaveNewCell pos).position_cell q =
      if q = pos then some ⟨s.next, .Empty, []⟩ else s.position_cell q := rfl

@[simp] theorem Sheet.SaveNewCell_next (s : Sheet F) (pos : Position) :
    (s.SaveNewCell pos).next = s.next + 1 := rfl

@[simp] theorem Sheet.store_cell (s : Sheet F) (pos q : Position) (c : Option (Cell F)) :
    (s.store pos c).position_cell q = if q = pos then c else s.position_cell q := rfl

@[simp] theorem Sheet.store_next (s : Sheet F) (pos : Position) (c : Option (Cell F)) :
    (s.store pos c).next = s.next := rfl

theorem Sheet.setImpl_cell (s : Sheet F) (pos q : Position) (impl : Impl F) :
    (s.setImpl pos impl).position_cell q =
      if q = pos then (s.position_cell pos).map (fun c => { c with impl := impl })
      else s.position_cell q := by
  unfold Sheet.setImpl
  cases h : s.position_cell pos with
  | none =>
    by_cases hq : q = pos
    · simp [hq, h]
    · simp [hq]
  | some c => simp

@[simp] theorem Sheet.setImpl_next (s : Sheet F) (pos : Position) (impl : Impl F) :
    (s.setImpl pos impl).next = s.next := by
  unfold Sheet.setImpl
  cases s.position_cell pos <;> rfl

theorem Impl.refs_of_ClearCache (api : FormulaAPI F) {c d : Cell F}
    (h : c.impl.ClearCache = d.impl.ClearCache) :
    c.GetReferencedCells api = d.GetReferencedCells api := by
  unfold Cell.GetReferencedCells
  cases hc : c.impl <;> cases hd : d.impl <;> simp_all [Impl.ClearCache]

theorem Sheet.CoreEq.same (s : Sheet F) : s.CoreEq s := ⟨rfl, fun _ => rfl⟩

theorem Sheet.CoreEq.andThen {s1 s2 s3 : Sheet F} (h12 : s1.CoreEq s2) (h23 : s2.CoreEq s3) :
    s1.CoreEq s3 :=
  ⟨h23.1.trans h12.1, fun p => (h23.2 p).trans (h12.2 p)⟩

theorem Sheet.CoreEq.symm {s1 s2 : Sheet F} (h : s1.CoreEq s2) : s2.CoreEq s1 :=
  ⟨h.1.symm, fun p => (h.2 p).symm⟩

theorem Sheet.CoreEq.cell {s1 s2 : Sheet F} (h : s1.CoreEq s2) {p : Position} {c : Cell F}
    (hc : s1.position_cell p = some c) :
    ∃ d, s2.position_cell p = some d ∧ d.addr = c.addr ∧
      d.impl.ClearCache = c.impl.ClearCache := by
  have := h.2 p
  simp only [Sheet.core, hc, Option.map_some'] at this
  cases hd : s2.position_cell p with
  | none => simp [hd] at this
  | some d =>
    simp only [hd, Option.map_some', Option.some.injEq, Cell.core, Prod.mk.injEq] at this
    exact ⟨d, rfl, this.1, this.2⟩

theorem Sheet.CoreEq.absent {s1 s2 : Sheet F} (h : s1.CoreEq s2) {p : Position}
    (hc : s1.position_cell p = none) : s2.position_cell p = none := by
  have := h.2 p
  simp only [Sheet.core, hc, Option.map_none'] at this
  cases hd : s2.position_cell p with
  | none => rfl
  | some d => simp [hd] at this

theorem Sheet.CoreEq.refsAt_eq (api : FormulaAPI F) {s1 s2 : Sheet F} (h : s1.CoreEq s2)
    (p : Position) : s2.refsAt api p = s1.refsAt api p := by
  unfold Sheet.refsAt
  cases hc : s1.position_cell p with
  | none => simp [h.absent hc]
  | some c =>
    obtain ⟨d, hd, _, himpl⟩ := h.cell hc
    simp only [hd]
    exact Impl.refs_of_ClearCache api himpl

theorem Sheet.CoreEq.edge_iff (api : FormulaAPI F) {s1 s2 : Sheet F} (h : s1.CoreEq s2)
    (a b : Position) : s2.Edge api a b ↔ s1.Edge api a b := by
  unfold Sheet.Edge
  rw [h.refsAt_eq api a]

theorem Sheet.CoreEq.isSome {s1 s2 : Sheet F} (h : s1.CoreEq s2) (p : Position) :
    (s2.position_cell p).isSome = (s1.position_cell p).isSome := by
  cases hc : s1.position_cell p with
  | none => simp [h.absent hc]
  | some c =>
    obtain ⟨d, hd, _, _⟩ := h.cell hc
    simp [hd]


/-! ## The invariants along the changes of the engine -/

theorem Sheet.Acyclic.of_edge_subset (api : FormulaAPI F) {s s' : Sheet F}
    (h : ∀ a b, s'.Edge api a b → s.Edge api a b) (hs : s.Acyclic api) : s'.Acyclic api := by
  intro a ha
  exact hs a (Relation.TransGen.mono h ha)

theorem Sheet.Inv.coreEq (api : FormulaAPI F) {s s' : Sheet F} (h : s.CoreEq s')
    (hs : s.Inv api) : s'.Inv api := by
  refine ⟨⟨?_, ?_⟩, ?_, ?_⟩
  · intro p d hd
    obtain ⟨c, hc, hca, _⟩ := h.symm.cell hd
    rw [h.1, ← hca]
    exact hs.alloc.1 p c hc
  · intro p q d1 d2 hd1 hd2 hadd
    obtain ⟨c1, hc1, hca1, _⟩ := h.symm.cell hd1
    obtain ⟨c2, hc2, hca2, _⟩ := h.symm.cell hd2
    exact hs.alloc.2 p q c1 c2 hc1 hc2 (by omega)
  · exact Sheet.Acyclic.of_edge_subset api (fun a b hab => (h.edge_iff api a b).1 hab) hs.acyclic
  · intro p d t hd himpl
    obtain ⟨c, hc, _, hci⟩ := h.symm.cell hd
    refine hs.text p c t hc ?_
    rw [himpl] at hci
    cases hi : c.impl <;> simp_all [Impl.ClearCache]

theorem Sheet.refsAt_SaveNewCell (api : FormulaAPI F) (s : Sheet F) (pos a : Position) :
    (s.SaveNewCell pos).refsAt api a = if a = pos then [] else s.refsAt api a := by
  unfold Sheet.refsAt
  by_cases ha : a = pos
  · simp [ha, Cell.GetReferencedCells]
  · simp [ha]

theorem Sheet.refsAt_erase (api : FormulaAPI F) (s : Sheet F) (pos a : Position) :
    (s.store pos none).refsAt api a = if a = pos then [] else s.refsAt api a := by
  unfold Sheet.refsAt
  by_cases ha : a = pos
  · simp [ha]
  · simp [ha]

theorem Sheet.Inv.fresh (api : FormulaAPI F) {s : Sheet F} (pos : Position)
    (hs : s.Inv api) : (s.SaveNewCell pos).Inv api := by
  refine ⟨⟨?_, ?_⟩, ?_, ?_⟩
  · intro p c hc
    simp only [Sheet.SaveNewCell_cell, Sheet.SaveNewCell_next] at *
    split at hc
    · cases hc; simp
    · have := hs.alloc.1 p c hc
      omega
  · intro p q c d hc hd hcd
    simp only [Sheet.SaveNewCell_cell] at hc hd
    split at hc <;> split at hd
    · simp_all
    · cases hc
      have := hs.alloc.1 q d hd
      simp at hcd; omega
    · cases hd
      have := hs.alloc.1 p c hc
      simp at hcd; omega
    · exact hs.alloc.2 p q c d hc hd hcd
  · refine Sheet.Acyclic.of_edge_subset api (fun a b hab => ?_) hs.acyclic
    unfold Sheet.Edge at *
    rw [Sheet.refsAt_SaveNewCell] at hab
    split at hab
    · simp at hab
    · exact hab
  · intro p c t hc himpl
    simp only [Sheet.SaveNewCell_cell] at hc
    split at hc
    · cases hc; simp at himpl
    · exact hs.text p c t hc himpl

theorem Sheet.Inv.erase (api : FormulaAPI F) {s : Sheet F} (pos : Position)
    (hs : s.Inv api) : (s.store pos none).Inv api := by
  refine ⟨⟨?_, ?_⟩, ?_, ?_⟩
  · intro p c hc
    simp only [Sheet.store_cell, Sheet.store_next] at *
    split at hc
    · cases hc
    · exact hs.alloc.1 p c hc
  · intro p q c d hc hd hcd
    simp only [Sheet.store_cell] at hc hd
    split at hc
    · cases hc
    · split at hd
      · cases hd
      · exact hs.alloc.2 p q c d hc hd hcd
  · refine Sheet.Acyclic.of_edge_subset api (fun a b hab => ?_) hs.acyclic
    unfold Sheet.Edge at *
    rw [Sheet.refsAt_erase] at hab
    split at hab
    · simp at hab
    · exact hab
  · intro p c t hc himpl
    simp only [Sheet.store_cell] at hc
    split at hc
    · cases hc
    · exact hs.text p c t hc himpl

theorem Sheet.AllocOK.after_setImpl {s : Sheet F} (pos : Position) (impl : Impl F)
    (hs : s.AllocOK) : (s.setImpl pos impl).AllocOK := by
  refine ⟨?_, ?_⟩
  · intro p c hc
    rw [Sheet.setImpl_cell] at hc
    rw [Sheet.setImpl_next]
    split at hc
    · cases h0 : s.position_cell pos with
      | none => simp [h0] at hc
      | some c0 =>
        simp only [h0, Option.map_some', Option.some.injEq] at hc
        subst hc
        exact hs.1 pos c0 h0
    · exact hs.1 p c hc
  · intro p q c d hc hd hcd
    rw [Sheet.setImpl_cell] at hc hd
    have key : ∀ r (e : Cell F),
        (if r = pos then (s.position_cell pos).map (fun c => { c with impl := impl })
          else s.position_cell r) = some e →
        ∃ e0, s.position_cell r = some e0 ∧ e0.addr = e.addr := by
      intro r e he
      split at he
      · rename_i hr
        subst hr
        cases h0 : s.position_cell r with
        | none => simp [h0] at he
        | some c0 =>
          simp only [h0, Option.map_some', Option.some.injEq] at he
          subst he
          exact ⟨c0, rfl, rfl⟩
      · exact ⟨e, he, rfl⟩
    obtain ⟨c0, hc0, hca⟩ := key p c hc
    obtain ⟨d0, hd0, hda⟩ := key q d hd
    exact hs.2 p q c0 d0 hc0 hd0 (by omega)

theorem Sheet.refsAt_setImpl (api : FormulaAPI F) (s : Sheet F) (pos a : Position)
    (impl : Impl F) :
    (s.setImpl pos impl).refsAt api a =
      if a = pos ∧ (s.position_cell pos).isSome then
        (match impl with
         | .Formula f _ => api.GetReferencedCells f
         | _ => [])
      else s.refsAt api a := by
  unfold Sheet.refsAt
  rw [Sheet.setImpl_cell]
  by_cases ha : a = pos
  · subst ha
    cases h0 : s.position_cell a with
    | none => simp
    | some c0 => simp [Cell.GetReferencedCells]
  · simp [ha]

theorem Sheet.Inv.plain (api : FormulaAPI F) {s : Sheet F} (pos : Position) (impl : Impl F)
    (himpl : impl = .Empty ∨ ∃ t, impl = .Text t ∧ ¬ IsFormulaText t)
    (hs : s.Inv api) : (s.setImpl pos impl).Inv api := by
  refine ⟨hs.alloc.after_setImpl pos impl, ?_, ?_⟩
  · refine Sheet.Acyclic.of_edge_subset api (fun a b hab => ?_) hs.acyclic
    unfold Sheet.Edge at *
    rw [Sheet.refsAt_setImpl] at hab
    split at hab
    · rcases himpl with rfl | ⟨t, rfl, _⟩ <;> simp at hab
    · exact hab
  · intro p c t hc hct
    rw [Sheet.setImpl_cell] at hc
    split at hc
    · cases h0 : s.position_cell pos with
      | none => simp [h0] at hc
      | some c0 =>
        simp only [h0, Option.map_some', Option.some.injEq] at hc
        subst hc
        simp only at hct
        rcases himpl with rfl | ⟨t', rfl, ht'⟩
        · cases hct
        · cases hct
          exact ht'
    · exact hs.text p c t hc hct


theorem Sheet.Inv.formula (api : FormulaAPI F) {s : Sheet F} (pos : Position) (f : F)
    (S : Position → Prop) (hN : ∀ q ∈ api.GetReferencedCells f, S q) (hpos : ¬ S pos)
    (hclosed : ∀ a b, S a → s.Edge api a b → S b)
    (hs : s.Inv api) : (s.setImpl pos (.Formula f none)).Inv api := by
  refine ⟨hs.alloc.after_setImpl pos _, ?_, ?_⟩
  · have hedge : ∀ a b, (s.setImpl pos (.Formula f none)).Edge api a b →
        (a = pos ∧ b ∈ api.GetReferencedCells f) ∨ (a ≠ pos ∧ s.Edge api a b) ∨
          (a = pos ∧ s.Edge api a b ∧ s.position_cell pos = none) := by
      intro a b hab
      unfold Sheet.Edge at *
      rw [Sheet.refsAt_setImpl] at hab
      by_cases ha : a = pos
      · cases h0 : s.position_cell pos with
        | none =>
          simp only [ha, h0, Option.isSome_none, Bool.false_eq_true, and_false, if_false] at hab
          exact Or.inr (Or.inr ⟨ha, by rw [ha]; exact hab, rfl⟩)
        | some c0 =>
          simp only [ha, h0, Option.isSome_some, and_self, if_true] at hab
          exact Or.inl ⟨ha, hab⟩
      · simp only [ha, false_and, if_false] at hab
        exact Or.inr (Or.inl ⟨ha, hab⟩)
    have hedge2 : ∀ a b, (s.setImpl pos (.Formula f none)).Edge api a b →
        (a = pos ∧ S b) ∨ s.Edge api a b := by
      intro a b hab
      rcases hedge a b hab with ⟨ha, hb⟩ | ⟨_, h⟩ | ⟨_, h, _⟩
      · exact Or.inl ⟨ha, hN b hb⟩
      · exact Or.inr h
      · exact Or.inr h
    have hA : ∀ a b, Relation.TransGen ((s.setImpl pos (.Formula f none)).Edge api) a b →
        Relation.TransGen (s.Edge api) a b ∨ S b := by
      intro a b h
      induction h with
      | single hab =>
        rcases hedge2 _ _ hab with ⟨_, hb⟩ | h
        · exact Or.inr hb
        · exact Or.inl (Relation.TransGen.single h)
      | tail _ hbc ih =>
        rcases hedge2 _ _ hbc with ⟨_, hc⟩ | h
        · exact Or.inr hc
        · rcases ih with ih | ih
          · exact Or.inl (Relation.TransGen.tail ih h)
          · exact Or.inr (hclosed _ _ ih h)
    have hB : ∀ a b, S a → Relation.TransGen ((s.setImpl pos (.Formula f none)).Edge api) a b →
        Relation.TransGen (s.Edge api) a b ∧ S b := by
      intro a b ha h
      induction h with
      | single hab =>
        rcases hedge2 _ _ hab with ⟨hap, _⟩ | h
        · exact absurd (hap ▸ ha) hpos
        · exact ⟨Relation.TransGen.single h, hclosed _ _ ha h⟩
      | tail _ hbc ih =>
        rcases hedge2 _ _ hbc with ⟨hbp, _⟩ | h
        · exact absurd (hbp ▸ ih.2) hpos
        · exact ⟨Relation.TransGen.tail ih.1 h, hclosed _ _ ih.2 h⟩
    intro x hx
    rcases hA x x hx with h | h
    · exact hs.acyclic x h
    · exact hs.acyclic x (hB x x h hx).1
  · intro p c t hc hct
    rw [Sheet.setImpl_cell] at hc
    split at hc
    · cases h0 : s.position_cell pos with
      | none => simp [h0] at hc
      | some c0 =>
        simp only [h0, Option.map_some', Option.some.injEq] at hc
        subst hc
        simp at hct
    · exact hs.text p c t hc hct

theorem Sheet.Evolve.preserves (api : FormulaAPI F) {s s' : Sheet F} (h : Sheet.Evolve api s s')
    (hs : s.Inv api) : s'.Inv api := by
  induction h with
  | refl => exact hs
  | coreEq _ heq ih => exact Sheet.Inv.coreEq api heq ih
  | fresh pos _ ih => exact Sheet.Inv.fresh api pos ih
  | plain pos impl _ himpl ih => exact Sheet.Inv.plain api pos impl himpl ih
  | erase pos _ ih => exact Sheet.Inv.erase api pos ih
  | formula pos f S _ hN hpos hclosed ih => exact Sheet.Inv.formula api pos f S hN hpos hclosed ih

theorem Sheet.Evolve.append (api : FormulaAPI F) {s1 s2 s3 : Sheet F}
    (h12 : Sheet.Evolve api s1 s2) (h23 : Sheet.Evolve api s2 s3) : Sheet.Evolve api s1 s3 := by
  induction h23 with
  | refl => exact h12
  | coreEq _ heq ih => exact Sheet.Evolve.coreEq ih heq
  | fresh pos _ ih => exact Sheet.Evolve.fresh pos ih
  | plain pos impl _ himpl ih => exact Sheet.Evolve.plain pos impl ih himpl
  | erase pos _ ih => exact Sheet.Evolve.erase pos ih
  | formula pos f S _ hN hpos hclosed ih => exact Sheet.Evolve.formula pos f S ih hN hpos hclosed

theorem Sheet.Evolve.of_same_core (api : FormulaAPI F) {s s' : Sheet F} (h : s.CoreEq s') :
    Sheet.Evolve api s s' :=
  Sheet.Evolve.coreEq (Sheet.Evolve.refl s) h


/-! ## Loops, back-references, caches -/

theorem forEach_rel {α σ : Type} (R : σ → σ → Prop) (hrefl : ∀ s, R s s)
    (htrans : ∀ a b c, R a b → R b c → R a c) (body : α → σ → Option Exn × σ)
    (hbody : ∀ x s, R s (body x s).2) : ∀ xs s, R s (forEach body xs s).2 := by
  intro xs
  induction xs with
  | nil => intro s; exact hrefl s
  | cons x xs ih =>
    intro s
    unfold forEach
    have h1 := hbody x s
    cases hb : body x s with
    | mk e s1 =>
      rw [hb] at h1
      cases e with
      | some e => exact h1
      | none => exact htrans _ _ _ h1 (ih s1)

theorem forEach_exn {α σ : Type} (Q : Option Exn → Prop) (hnone : Q none)
    (body : α → σ → Option Exn × σ) (hbody : ∀ x s, Q (body x s).1) :
    ∀ xs s, Q (forEach body xs s).1 := by
  intro xs
  induction xs with
  | nil => intro s; exact hnone
  | cons x xs ih =>
    intro s
    unfold forEach
    have h1 := hbody x s
    cases hb : body x s with
    | mk e s1 =>
      rw [hb] at h1
      cases e with
      | some e => exact h1
      | none => exact ih s1

theorem forEach_none {α σ : Type} (I : σ → Prop) (body : α → σ → Option Exn × σ) :
    ∀ (xs : List α), (∀ x ∈ xs, ∀ s, I s → (body x s).1 = none ∧ I (body x s).2) →
      ∀ s, I s → (forEach body xs s).1 = none ∧ I (forEach body xs s).2 := by
  intro xs
  induction xs with
  | nil => intro _ s hs; exact ⟨rfl, hs⟩
  | cons x xs ih =>
    intro hbody s hs
    unfold forEach
    have h1 := hbody x (List.mem_cons_self _ _) s hs
    cases hb : body x s with
    | mk e s1 =>
      rw [hb] at h1
      obtain ⟨he, hs1⟩ := h1
      simp only at he
      subst he
      exact ih (fun y hy => hbody y (List.mem_cons_of_mem _ hy)) s1 hs1

theorem Sheet.CoreEq.store {s : Sheet F} {pos : Position} {c d : Cell F}
    (hc : s.position_cell pos = some c) (hd : d.core = c.core) :
    s.CoreEq (s.store pos (some d)) := by
  refine ⟨rfl, fun p => ?_⟩
  unfold Sheet.core
  rw [Sheet.store_cell]
  by_cases hp : p = pos
  · simp [hp, hc, hd]
  · simp [hp]

theorem Sheet.CoreEq.of_setImpl {s : Sheet F} {pos : Position} {c : Cell F} {impl : Impl F}
    (hc : s.position_cell pos = some c) (himpl : impl.ClearCache = c.impl.ClearCache) :
    s.CoreEq (s.setImpl pos impl) := by
  unfold Sheet.setImpl
  rw [hc]
  exact Sheet.CoreEq.store hc (by simp [Cell.core, himpl])

theorem Impl.ClearCache_idem (i : Impl F) : i.ClearCache.ClearCache = i.ClearCache := by
  cases i <;> rfl

theorem Cell.RemoveDependence_coreEq (api : FormulaAPI F) (this : Ptr) (c : Cell F)
    (s : Sheet F) : s.CoreEq (Cell.RemoveDependence api this c s).2 := by
  unfold Cell.RemoveDependence
  refine forEach_rel Sheet.CoreEq Sheet.CoreEq.same (fun _ _ _ => Sheet.CoreEq.andThen) _ ?_ _ s
  intro pos s1
  cases h : s1.position_cell pos with
  | none => exact Sheet.CoreEq.same s1
  | some cell => exact Sheet.CoreEq.store h rfl

theorem Cell.RemoveDependence_exn (api : FormulaAPI F) (this : Ptr) (c : Cell F)
    (s : Sheet F) :
    (Cell.RemoveDependence api this c s).1 = none ∨
      (Cell.RemoveDependence api this c s).1 = some .out_of_range := by
  unfold Cell.RemoveDependence
  refine forEach_exn (fun e => e = none ∨ e = some .out_of_range) (Or.inl rfl) _ ?_ _ s
  intro pos s1
  cases h : s1.position_cell pos <;> simp

theorem Cell.RemoveDependence_none (api : FormulaAPI F) (this : Ptr) (c : Cell F)
    (s : Sheet F) (hpres : ∀ q ∈ c.GetReferencedCells api, (s.position_cell q).isSome = true) :
    (Cell.RemoveDependence api this c s).1 = none := by
  unfold Cell.RemoveDependence
  refine (forEach_none (fun s1 => s.CoreEq s1) _ _ ?_ s (Sheet.CoreEq.same s)).1
  intro q hq s1 hs1
  have := hpres q hq
  rw [← hs1.isSome] at this
  obtain ⟨d, hd⟩ := Option.isSome_iff_exists.1 this
  simp only [hd, true_and]
  exact hs1.andThen (Sheet.CoreEq.store hd rfl)

theorem Cell.addReferences_coreEq (this : Ptr) (refs : List Position) (s : Sheet F) :
    s.CoreEq (Cell.addReferences this refs s).2 := by
  unfold Cell.addReferences
  refine forEach_rel Sheet.CoreEq Sheet.CoreEq.same (fun _ _ _ => Sheet.CoreEq.andThen) _ ?_ _ s
  intro pos s1
  cases h : s1.position_cell pos with
  | none => exact Sheet.CoreEq.same s1
  | some cell => exact Sheet.CoreEq.store h rfl

theorem Cell.addReferences_exn (this : Ptr) (refs : List Position) (s : Sheet F) :
    (Cell.addReferences this refs s).1 = none ∨
      (Cell.addReferences this refs s).1 = some .out_of_range := by
  unfold Cell.addReferences
  refine forEach_exn (fun e => e = none ∨ e = some .out_of_range) (Or.inl rfl) _ ?_ _ s
  intro pos s1
  cases h : s1.position_cell pos <;> simp

theorem Cell.ClearCache_coreEq : ∀ (fuel : Nat) (this : Ptr) (s : Sheet F),
    s.CoreEq (Cell.ClearCache fuel this s).2 := by
  intro fuel
  induction fuel with
  | zero => intro this s; exact Sheet.CoreEq.same s
  | succ fuel ih =>
    intro this s
    unfold Cell.ClearCache
    cases hd : s.deref this with
    | none => exact Sheet.CoreEq.same s
    | some c =>
      simp only
      have hc : s.position_cell this.pos = some c := by
        unfold Sheet.deref at hd
        cases h0 : s.position_cell this.pos with
        | none => simp [h0] at hd
        | some c0 =>
          simp only [h0] at hd
          split at hd
          · simpa using hd
          · cases hd
      split
      · refine Sheet.CoreEq.andThen
          (Sheet.CoreEq.of_setImpl hc (Impl.ClearCache_idem c.impl)) ?_
        exact forEach_rel Sheet.CoreEq Sheet.CoreEq.same (fun _ _ _ => Sheet.CoreEq.andThen) _
          (fun cell s1 => ih cell s1) _ _
      · exact Sheet.CoreEq.same s

/-- The outcomes `Cell::ClearCache` can have. -/
theorem Cell.ClearCache_exn : ∀ (fuel : Nat) (this : Ptr) (s : Sheet F),
    (Cell.ClearCache fuel this s).1 = none ∨ (Cell.ClearCache fuel this s).1 = some .dangling ∨
      (Cell.ClearCache fuel this s).1 = some .diverge := by
  intro fuel
  induction fuel with
  | zero => intro this s; exact Or.inr (Or.inr rfl)
  | succ fuel ih =>
    intro this s
    unfold Cell.ClearCache
    cases hd : s.deref this with
    | none => exact Or.inr (Or.inl rfl)
    | some c =>
      simp only
      split
      · exact forEach_exn
          (fun e => e = none ∨ e = some .dangling ∨ e = some .diverge) (Or.inl rfl) _
          (fun cell s1 => ih cell s1) _ _
      · exact Or.inl rfl

theorem runExec_rel (R : Sheet F → Sheet F → Prop) (hrefl : ∀ s, R s s)
    (htrans : ∀ a b c, R a b → R b c → R a c)
    (get_value : Sheet F → Position → Except Exn (Except Category Value) × Sheet F)
    (hget : ∀ s pos, R s (get_value s pos).2) :
    ∀ (e : Exec) (s : Sheet F), R s (runExec get_value e s).2 := by
  intro e
  induction e with
  | ret d => intro s; exact hrefl s
  | raise e => intro s; exact hrefl s
  | call pos k ih =>
    intro s
    unfold runExec
    have h1 := hget s pos
    cases hg : get_value s pos with
    | mk r s1 =>
      rw [hg] at h1
      cases r with
      | error e => exact h1
      | ok v => exact htrans _ _ _ h1 (ih v s1)

theorem Sheet.GetValueWith_rel (R : Sheet F → Sheet F → Prop) (hrefl : ∀ s, R s s)
    (cellGetValue : Sheet F → Position → Except Exn Value × Sheet F)
    (hget : ∀ s pos, R s (cellGetValue s pos).2) (s : Sheet F) (pos : Position) :
    R s (Sheet.GetValueWith cellGetValue s pos).2 := by
  unfold Sheet.GetValueWith
  split
  · exact hrefl s
  · split
    · exact hrefl s
    · have h1 := hget s pos
      cases hg : cellGetValue s pos with
      | mk r s1 =>
        rw [hg] at h1
        cases r <;> exact h1

theorem Cell.GetValue_coreEq (api : FormulaAPI F) : ∀ (fuel : Nat) (s : Sheet F)
    (pos : Position), s.CoreEq (Cell.GetValue api fuel s pos).2 := by
  intro fuel
  induction fuel with
  | zero => intro s pos; exact Sheet.CoreEq.same s
  | succ fuel ih =>
    intro s pos
    unfold Cell.GetValue
    cases hc : s.position_cell pos with
    | none => exact Sheet.CoreEq.same s
    | some c =>
      simp only
      cases hi : c.impl with
      | Empty => exact Sheet.CoreEq.same s
      | Text t => exact Sheet.CoreEq.same s
      | Formula f cache =>
        cases cache with
        | some v => exact Sheet.CoreEq.same s
        | none =>
          simp only
          have h1 : s.CoreEq (runExec (Sheet.GetValueWith
              (fun s1 q => Cell.GetValue api fuel s1 q)) (api.Execute f) s).2 :=
            runExec_rel Sheet.CoreEq Sheet.CoreEq.same (fun _ _ _ => Sheet.CoreEq.andThen) _
              (fun s1 q => Sheet.GetValueWith_rel Sheet.CoreEq Sheet.CoreEq.same _
                (fun s2 q2 => ih s2 q2) s1 q) _ s
          cases hr : runExec (Sheet.GetValueWith
              (fun s1 q => Cell.GetValue api fuel s1 q)) (api.Execute f) s with
          | mk r s1 =>
            rw [hr] at h1
            cases r with
            | error e => exact h1
            | ok result =>
              simp only
              obtain ⟨d, hd, _, hdi⟩ := h1.cell hc
              refine h1.andThen (Sheet.CoreEq.of_setImpl hd ?_)
              rw [hdi, hi]
              rfl


/-! ## Resolving the references of a new formula -/

theorem Sheet.SetCellDepth_blank (api : FormulaAPI F) (depth : Nat) :
    BlankOK (Sheet.SetCellDepth api (depth + 1)) := by
  intro s pos habs
  unfold Sheet.SetCellDepth
  by_cases hv : pos.IsValid = true
  · simp only [hv, Bool.not_true, Bool.false_eq_true, if_false, if_true, habs]
    unfold Cell.Set
    simp [Sheet.SaveNewCell_cell, Impl.GetText]
  · simp [hv]

theorem Sheet.Grow.self (s : Sheet F) : s.Grow s :=
  ⟨fun _ _ h => h, fun _ _ h1 h2 => by rw [h1] at h2; cases h2⟩

theorem Sheet.Grow.chain {s1 s2 s3 : Sheet F} (h12 : s1.Grow s2) (h23 : s2.Grow s3) :
    s1.Grow s3 := by
  refine ⟨fun p c h => h23.1 p c (h12.1 p c h), fun p c h1 h3 => ?_⟩
  cases h2 : s2.position_cell p with
  | none => exact h23.2 p c h2 h3
  | some d =>
    have := h23.1 p d h2
    rw [this] at h3
    cases h3
    exact h12.2 p _ h1 h2

theorem Sheet.Grow.SaveNewCell (s : Sheet F) (pos : Position)
    (habs : s.position_cell pos = none) : s.Grow (s.SaveNewCell pos) := by
  refine ⟨fun p c h => ?_, fun p c h1 h2 => ?_⟩
  · rw [Sheet.SaveNewCell_cell]
    by_cases hp : p = pos
    · rw [hp, habs] at h; cases h
    · simp [hp, h]
  · rw [Sheet.SaveNewCell_cell] at h2
    by_cases hp : p = pos
    · simp only [hp, if_true, Option.some.injEq] at h2
      subst h2; rfl
    · simp only [hp, if_false] at h2
      rw [h1] at h2; cases h2

theorem Sheet.Grow.refsAt_same (api : FormulaAPI F) {s s' : Sheet F} (h : s.Grow s')
    (a : Position) : s'.refsAt api a = s.refsAt api a := by
  unfold Sheet.refsAt
  cases hc : s.position_cell a with
  | some c => rw [h.1 a c hc]
  | none =>
    cases hd : s'.position_cell a with
    | none => rfl
    | some d =>
      have := h.2 a d hc hd
      simp [Cell.GetReferencedCells, this]

theorem Sheet.Grow.canon_mono {s s' : Sheet F} (h : s.Grow s') {x : Ptr} (hx : s.Canon x) :
    s'.Canon x := by
  obtain ⟨c, hc, hca⟩ := hx
  exact ⟨c, h.1 _ _ hc, hca⟩

theorem Sheet.GetOrCreate_present
    (setCell : Sheet F → Position → String → Option Exn × Sheet F)
    {s : Sheet F} {pos : Position} {c : Cell F} (hc : s.position_cell pos = some c) :
    Sheet.GetOrCreate setCell s pos = (.ok ⟨pos, c.addr⟩, s) := by
  unfold Sheet.GetOrCreate
  simp [hc]

theorem Sheet.GetOrCreate_absent
    {setCell : Sheet F → Position → String → Option Exn × Sheet F} (hcb : BlankOK setCell)
    {s : Sheet F} {pos : Position} (hc : s.position_cell pos = none) :
    Sheet.GetOrCreate setCell s pos =
      if pos.IsValid then (.ok ⟨pos, s.next⟩, s.SaveNewCell pos)
      else (.error .InvalidPositionException, s) := by
  unfold Sheet.GetOrCreate
  rw [hcb s pos hc]
  by_cases hv : pos.IsValid = true
  · simp [hc, hv]
  · simp [hc, hv]

theorem Sheet.GetOrCreate_spec (api : FormulaAPI F)
    {setCell : Sheet F → Position → String → Option Exn × Sheet F} (hcb : BlankOK setCell)
    (s : Sheet F) (pos : Position) :
    Sheet.Evolve api s (Sheet.GetOrCreate setCell s pos).2 ∧
    s.Grow (Sheet.GetOrCreate setCell s pos).2 ∧
    (match (Sheet.GetOrCreate setCell s pos).1 with
     | .ok ptr => ptr.pos = pos ∧ (Sheet.GetOrCreate setCell s pos).2.Canon ptr
     | .error e => e = .InvalidPositionException ∧ pos.IsValid = false) := by
  cases hc : s.position_cell pos with
  | some c =>
    rw [Sheet.GetOrCreate_present setCell hc]
    exact ⟨Sheet.Evolve.refl s, Sheet.Grow.self s, rfl, c, hc, rfl⟩
  | none =>
    rw [Sheet.GetOrCreate_absent hcb hc]
    by_cases hv : pos.IsValid = true
    · rw [if_pos hv]
      refine ⟨Sheet.Evolve.fresh pos (Sheet.Evolve.refl s), Sheet.Grow.SaveNewCell s pos hc, rfl,
        ⟨s.next, .Empty, []⟩, ?_, rfl⟩
      simp
    · rw [if_neg hv]
      exact ⟨Sheet.Evolve.refl s, Sheet.Grow.self s, rfl, by simpa using hv⟩

theorem Cell.cellsToCheck_spec (api : FormulaAPI F)
    {setCell : Sheet F → Position → String → Option Exn × Sheet F} (hcb : BlankOK setCell) :
    ∀ (qs : List Position) (s : Sheet F),
      Sheet.Evolve api s (Cell.cellsToCheck setCell qs s).2 ∧
      s.Grow (Cell.cellsToCheck setCell qs s).2 ∧
      (match (Cell.cellsToCheck setCell qs s).1 with
       | .ok ptrs =>
         ptrs.map Ptr.pos = qs ∧ ∀ x ∈ ptrs, (Cell.cellsToCheck setCell qs s).2.Canon x
       | .error e => e = .InvalidPositionException ∧ ∃ q ∈ qs, q.IsValid = false) := by
  intro qs
  induction qs with
  | nil =>
    intro s
    exact ⟨Sheet.Evolve.refl s, Sheet.Grow.self s, rfl, by simp⟩
  | cons q qs ih =>
    intro s
    unfold Cell.cellsToCheck
    obtain ⟨he, hg, hr⟩ := Sheet.GetOrCreate_spec api hcb s q
    cases h1 : Sheet.GetOrCreate setCell s q with
    | mk r1 s1 =>
      rw [h1] at he hg hr
      cases r1 with
      | error e =>
        simp only at hr ⊢
        exact ⟨he, hg, hr.1, q, List.mem_cons_self _ _, hr.2⟩
      | ok ptr =>
        simp only at hr ⊢
        obtain ⟨he2, hg2, hr2⟩ := ih s1
        cases h2 : Cell.cellsToCheck setCell qs s1 with
        | mk r2 s2 =>
          rw [h2] at he2 hg2 hr2
          cases r2 with
          | error e =>
            simp only at hr2 ⊢
            obtain ⟨hee, q', hq', hv⟩ := hr2
            exact ⟨Sheet.Evolve.append api he he2, hg.chain hg2, hee, q',
              List.mem_cons_of_mem _ hq', hv⟩
          | ok ptrs =>
            simp only at hr2 ⊢
            refine ⟨Sheet.Evolve.append api he he2, hg.chain hg2, ?_, ?_⟩
            · simp [hr.1, hr2.1]
            · intro x hx
              rcases List.mem_cons.1 hx with rfl | hx
              · exact hg2.canon_mono hr.2
              · exact hr2.2 x hx


theorem Cell.resolveAndCheck_spec (api : FormulaAPI F)
    {setCell : Sheet F → Position → String → Option Exn × Sheet F} (hcb : BlankOK setCell)
    (this : Ptr) (refs : List Position) (s : Sheet F) (hinv : s.Inv api)
    (hthis : s.Canon this) :
    Sheet.Evolve api s (Cell.resolveAndCheck api setCell this refs s).2 ∧
    s.Grow (Cell.resolveAndCheck api setCell this refs s).2 ∧
    (Cell.resolveAndCheck api setCell this refs s).2.CheckPost api this.pos refs
      (Cell.resolveAndCheck api setCell this refs s).1 := by
  unfold Cell.resolveAndCheck
  by_cases hempty : refs.isEmpty = true
  · rw [if_pos hempty]
    refine ⟨Sheet.Evolve.refl s, Sheet.Grow.self s, fun _ => False, ?_, fun h => h,
      fun _ _ h _ => h⟩
    intro q hq
    rw [List.isEmpty_iff] at hempty
    rw [hempty] at hq
    cases hq
  · rw [if_neg hempty]
    obtain ⟨he, hg, hr⟩ := Cell.cellsToCheck_spec api hcb refs s
    cases h1 : Cell.cellsToCheck setCell refs s with
    | mk r1 s1 =>
      rw [h1] at he hg hr
      cases r1 with
      | error e => exact ⟨he, hg, Or.inl hr⟩
      | ok ptrs =>
        obtain ⟨hpos, hcanon⟩ := hr
        refine ⟨he, hg, ?_⟩
        have hspec := Sheet.CheckDependencies_spec api s1 (Sheet.Evolve.preserves api he hinv).alloc
          this (hg.canon_mono hthis) ptrs hcanon
        show s1.CheckPost api this.pos refs (Cell.CheckDependencies api s1 this ptrs)
        cases hcd : Cell.CheckDependencies api s1 this ptrs with
        | none =>
          rw [hcd] at hspec
          obtain ⟨S, hS, hnot, hclosed⟩ := hspec
          refine ⟨S, ?_, hnot, hclosed⟩
          intro q hq
          rw [← hpos] at hq
          obtain ⟨x, hx, rfl⟩ := List.mem_map.1 hq
          exact hS x hx
        | some e =>
          rw [hcd] at hspec
          rcases hspec with ⟨hee, x, hx, hreach⟩ | hspec
          · refine Or.inr (Or.inl ⟨hee, x.pos, ?_, hreach⟩)
            rw [← hpos]
            exact List.mem_map.2 ⟨x, hx, rfl⟩
          · exact Or.inr (Or.inr hspec)

theorem Sheet.CoreEq.canon_of {s s' : Sheet F} (h : s.CoreEq s') {x : Ptr} (hx : s.Canon x) :
    s'.Canon x := by
  obtain ⟨c, hc, hca⟩ := hx
  obtain ⟨d, hd, hda, _⟩ := h.cell hc
  exact ⟨d, hd, by omega⟩

theorem Cell.SetFormula_evolve (api : FormulaAPI F)
    {setCell : Sheet F → Position → String → Option Exn × Sheet F} (hcb : BlankOK setCell)
    (this : Ptr) (expression : String) (s : Sheet F) (hinv : s.Inv api)
    (hthis : s.Canon this) :
    Sheet.Evolve api s (Cell.SetFormula api setCell this expression s).2 := by
  unfold Cell.SetFormula
  cases hparse : api.ParseFormulaAST expression with
  | none => exact Sheet.Evolve.refl s
  | some f =>
    simp only
    obtain ⟨he, _, hpost⟩ :=
      Cell.resolveAndCheck_spec api hcb this (api.GetReferencedCells f) s hinv hthis
    cases h1 : Cell.resolveAndCheck api setCell this (api.GetReferencedCells f) s with
    | mk e1 s1 =>
      rw [h1] at he hpost
      cases e1 with
      | some e => exact he
      | none =>
        simp only
        obtain ⟨S, hS, hnot, hclosed⟩ := hpost
        have hce := Cell.addReferences_coreEq this (api.GetReferencedCells f) s1
        cases h2 : Cell.addReferences this (api.GetReferencedCells f) s1 with
        | mk e2 s2 =>
          rw [h2] at hce
          cases e2 with
          | some e => exact Sheet.Evolve.coreEq he hce
          | none =>
            exact Sheet.Evolve.formula this.pos f S (Sheet.Evolve.coreEq he hce) hS hnot
              (fun a b ha hab => hclosed a b ha ((hce.edge_iff api a b).1 hab))

theorem not_isFormulaText_of_data {text : String} {ch : Char} {rest : List Char}
    (hdata : text.data = ch :: rest) (h : ¬ (ch = FORMULA_SIGN ∧ rest ≠ [])) :
    ¬ IsFormulaText text := by
  rintro ⟨r, hr, hne⟩
  rw [hdata] at hr
  simp only [List.cons.injEq] at hr
  exact h ⟨hr.1, hr.2 ▸ hne⟩

theorem Cell.Set_evolve (api : FormulaAPI F)
    {setCell : Sheet F → Position → String → Option Exn × Sheet F} (hcb : BlankOK setCell)
    (s : Sheet F) (pos : Position) (text : String) (hinv : s.Inv api) :
    Sheet.Evolve api s (Cell.Set api setCell s pos text).2 := by
  unfold Cell.Set
  cases hc : s.position_cell pos with
  | none => exact Sheet.Evolve.refl s
  | some c =>
    simp only
    split
    · exact Sheet.Evolve.refl s
    · have hce := Cell.RemoveDependence_coreEq api ⟨pos, c.addr⟩ c s
      cases h1 : Cell.RemoveDependence api ⟨pos, c.addr⟩ c s with
      | mk e1 s1 =>
        rw [h1] at hce
        cases e1 with
        | some e => exact Sheet.Evolve.of_same_core api hce
        | none =>
          simp only
          have hinst : Sheet.Evolve api s
              (match text.data with
                | [] => ((none : Option Exn), s1.setImpl pos .Empty)
                | ch :: rest =>
                  if ch = FORMULA_SIGN ∧ rest ≠ [] then
                    Cell.SetFormula api setCell ⟨pos, c.addr⟩ (String.mk rest) s1
                  else (none, s1.setImpl pos (.Text text))).2 := by
            cases hdata : text.data with
            | nil =>
              exact Sheet.Evolve.plain pos .Empty (Sheet.Evolve.of_same_core api hce) (Or.inl rfl)
            | cons ch rest =>
              simp only
              split
              · exact Sheet.Evolve.append api (Sheet.Evolve.of_same_core api hce)
                  (Cell.SetFormula_evolve api hcb _ _ s1 (Sheet.Inv.coreEq api hce hinv)
                    (hce.canon_of ⟨c, hc, rfl⟩))
              · rename_i hnf
                exact Sheet.Evolve.plain pos (.Text text) (Sheet.Evolve.of_same_core api hce)
                  (Or.inr ⟨text, rfl, not_isFormulaText_of_data hdata hnf⟩)
          cases h2 : (match text.data with
                | [] => ((none : Option Exn), s1.setImpl pos .Empty)
                | ch :: rest =>
                  if ch = FORMULA_SIGN ∧ rest ≠ [] then
                    Cell.SetFormula api setCell ⟨pos, c.addr⟩ (String.mk rest) s1
                  else (none, s1.setImpl pos (.Text text))) with
          | mk e2 s2 =>
            rw [h2] at hinst
            cases e2 with
            | some e => exact hinst
            | none =>
              exact Sheet.Evolve.coreEq hinst (Cell.ClearCache_coreEq _ _ s2)

theorem Sheet.SetCell_evolve (api : FormulaAPI F) (s : Sheet F) (pos : Position)
    (text : String) (hinv : s.Inv api) :
    Sheet.Evolve api s (Sheet.SetCell api s pos text).2 := by
  unfold Sheet.SetCell Sheet.SetCellDepth
  split
  · exact Sheet.Evolve.refl s
  · simp only
    have h1 : Sheet.Evolve api s
        (match s.position_cell pos with
          | none => s.SaveNewCell pos
          | some c => if c.IsEmpty = true then s.SaveNewCell pos else s) := by
      split
      · exact Sheet.Evolve.fresh pos (Sheet.Evolve.refl s)
      · split
        · exact Sheet.Evolve.fresh pos (Sheet.Evolve.refl s)
        · exact Sheet.Evolve.refl s
    exact Sheet.Evolve.append api h1
      (Cell.Set_evolve api (Sheet.SetCellDepth_blank api 0) _ pos text
        (Sheet.Evolve.preserves api h1 hinv))

theorem Sheet.CoreEq.index (s : Sheet F) (rows cols : IndexMap) :
    s.CoreEq { s with row_cell := rows, col_cell := cols } :=
  ⟨rfl, fun _ => rfl⟩

theorem Sheet.ClearCell_evolve (api : FormulaAPI F) (s : Sheet F) (pos : Position)
    (hinv : s.Inv api) : Sheet.Evolve api s (Sheet.ClearCell api s pos).2 := by
  unfold Sheet.ClearCell
  split
  · exact Sheet.Evolve.refl s
  · cases hc : s.position_cell pos with
    | none => exact Sheet.Evolve.refl s
    | some c =>
      simp only
      have h1 : Sheet.Evolve api s
          (if (!c.IsReferenced) = true then ((none : Option Exn), s.store pos none)
            else Cell.Set api (Sheet.SetCell api) s pos "").2 := by
        split
        · exact Sheet.Evolve.erase pos (Sheet.Evolve.refl s)
        · exact Cell.Set_evolve api (Sheet.SetCellDepth_blank api 1) s pos "" hinv
      cases h2 : (if (!c.IsReferenced) = true then ((none : Option Exn), s.store pos none)
            else Cell.Set api (Sheet.SetCell api) s pos "") with
      | mk e2 s2 =>
        rw [h2] at h1
        cases e2 with
        | some e => exact h1
        | none =>
          simp only
          split
          · exact h1
          · split
            · exact Sheet.Evolve.coreEq h1 (Sheet.CoreEq.index s2 _ _)
            · exact Sheet.Evolve.coreEq h1 (Sheet.CoreEq.index s2 _ _)

theorem Sheet.CellValue_coreEq (api : FormulaAPI F) (s : Sheet F) (pos : Position) :
    s.CoreEq (Sheet.CellValue api s pos).2 := by
  unfold Sheet.CellValue
  split
  · exact Sheet.CoreEq.same s
  · split
    · exact Sheet.CoreEq.same s
    · have h1 := Cell.GetValue_coreEq api (s.next + 1) s pos
      cases hg : Cell.GetValue api (s.next + 1) s pos with
      | mk r s1 =>
        rw [hg] at h1
        cases r <;> exact h1

theorem Sheet.apply_evolve (api : FormulaAPI F) (s : Sheet F) (op : Op) (hinv : s.Inv api) :
    Sheet.Evolve api s (Sheet.apply api s op).2 := by
  cases op with
  | SetCell pos text => exact Sheet.SetCell_evolve api s pos text hinv
  | ClearCell pos => exact Sheet.ClearCell_evolve api s pos hinv
  | GetValue pos =>
    have h1 := Sheet.CellValue_coreEq api s pos
    show Sheet.Evolve api s
      (match Sheet.CellValue api s pos with
        | (.error e, s1) => (some e, s1)
        | (.ok _, s1) => (none, s1)).2
    cases hg : Sheet.CellValue api s pos with
    | mk r s1 =>
      rw [hg] at h1
      cases r <;> exact Sheet.Evolve.of_same_core api h1

theorem Sheet.Inv.empty (api : FormulaAPI F) : (Sheet.empty F).Inv api := by
  refine ⟨⟨?_, ?_⟩, ?_, ?_⟩
  · intro p c hc; cases hc
  · intro p q c d hc; cases hc
  · intro a ha
    have : ∀ x y, Relation.TransGen ((Sheet.empty F).Edge api) x y → False := by
      intro x y h
      induction h with
      | single h => simp [Sheet.Edge, Sheet.refsAt, Sheet.empty] at h
      | tail _ _ ih => exact ih
    exact this a a ha
  · intro p c t hc; cases hc

theorem Reachable.invariant (api : FormulaAPI F) {s : Sheet F} (h : Reachable api s) : s.Inv api := by
  induction h with
  | init => exact Sheet.Inv.empty api
  | call s op _ ih => exact Sheet.Evolve.preserves api (Sheet.apply_evolve api s op ih) ih


/-! ## Exactness of the cycle check -/

theorem Sheet.SameGraph.self_graph (api : FormulaAPI F) (s : Sheet F) : Sheet.SameGraph api s s :=
  ⟨fun _ => rfl, fun _ h => h⟩

theorem Sheet.SameGraph.chain_graph (api : FormulaAPI F) {s1 s2 s3 : Sheet F}
    (h12 : Sheet.SameGraph api s1 s2) (h23 : Sheet.SameGraph api s2 s3) :
    Sheet.SameGraph api s1 s3 :=
  ⟨fun a => (h23.1 a).trans (h12.1 a), fun q h => h23.2 q (h12.2 q h)⟩

theorem Sheet.SameGraph.of_core (api : FormulaAPI F) {s s' : Sheet F} (h : s.CoreEq s') :
    Sheet.SameGraph api s s' :=
  ⟨fun a => h.refsAt_eq api a, fun q hq => by rw [h.isSome]; exact hq⟩

theorem Sheet.SameGraph.of_grow (api : FormulaAPI F) {s s' : Sheet F} (h : s.Grow s') :
    Sheet.SameGraph api s s' := by
  refine ⟨fun a => h.refsAt_same api a, fun q hq => ?_⟩
  obtain ⟨c, hc⟩ := Option.isSome_iff_exists.1 hq
  rw [h.1 q c hc]
  rfl

theorem Sheet.SameGraph.reseat (api : FormulaAPI F) (s : Sheet F) (pos : Position)
    (h : s.refsAt api pos = []) : Sheet.SameGraph api s (s.SaveNewCell pos) := by
  refine ⟨fun a => ?_, fun q hq => ?_⟩
  · rw [Sheet.refsAt_SaveNewCell]
    split
    · rename_i ha; rw [ha, h]
    · rfl
  · rw [Sheet.SaveNewCell_cell]
    split
    · rfl
    · exact hq

theorem Sheet.SameGraph.edge_eq (api : FormulaAPI F) {s s' : Sheet F}
    (h : Sheet.SameGraph api s s') : s'.Edge api = s.Edge api := by
  funext a b
  unfold Sheet.Edge
  rw [h.1 a]

theorem Sheet.SameGraph.refsPresent (api : FormulaAPI F) {s s' : Sheet F}
    (h : Sheet.SameGraph api s s') (hs : s.RefsPresent api) : s'.RefsPresent api := by
  intro a b hab
  rw [h.edge_eq] at hab
  exact h.2 b (hs a b hab)

theorem formulaText_data (E : String) : ("=" ++ E).data = FORMULA_SIGN :: E.data := rfl

theorem Cell.SetFormula_raises (api : FormulaAPI F)
    {setCell : Sheet F → Position → String → Option Exn × Sheet F} (hcb : BlankOK setCell)
    (this : Ptr) (E : String) (f : F) (s : Sheet F) (hinv : s.Inv api)
    (hpres : s.RefsPresent api) (hthis : s.Canon this)
    (hparse : api.ParseFormulaAST E = some f)
    (hvalid : ∀ q ∈ api.GetReferencedCells f, q.IsValid = true) :
    (Cell.SetFormula api setCell this E s).1 = some .CircularDependencyException ↔
      ∃ n ∈ api.GetReferencedCells f, Relation.ReflTransGen (s.Edge api) n this.pos := by
  unfold Cell.SetFormula
  rw [hparse]
  simp only
  obtain ⟨_, hg, hpost⟩ :=
    Cell.resolveAndCheck_spec api hcb this (api.GetReferencedCells f) s hinv hthis
  have hsame := Sheet.SameGraph.of_grow api hg
  cases h1 : Cell.resolveAndCheck api setCell this (api.GetReferencedCells f) s with
  | mk e1 s1 =>
    rw [h1] at hpost hsame
    cases e1 with
    | some e =>
      simp only
      rcases hpost with ⟨_, q, hq, hqv⟩ | ⟨he, hreach⟩ | ⟨_, hnp⟩
      · rw [hvalid q hq] at hqv
        cases hqv
      · rw [hsame.edge_eq] at hreach
        subst he
        exact ⟨fun _ => hreach, fun _ => rfl⟩
      · exact absurd (hsame.refsPresent api hpres) hnp
    | none =>
      simp only
      obtain ⟨S, hS, hnot, hclosed⟩ := hpost
      have hno : ¬ ∃ n ∈ api.GetReferencedCells f,
          Relation.ReflTransGen (s.Edge api) n this.pos := by
        rintro ⟨n, hn, hreach⟩
        rw [← hsame.edge_eq] at hreach
        exact hnot (Sheet.closed_of_reach api s1 S hclosed (hS n hn) hreach)
      have hadd := Cell.addReferences_exn this (api.GetReferencedCells f) s1
      cases h2 : Cell.addReferences this (api.GetReferencedCells f) s1 with
      | mk e2 s2 =>
        rw [h2] at hadd
        cases e2 with
        | some e =>
          simp only at hadd ⊢
          rcases hadd with hadd | hadd
          · cases hadd
          · rw [hadd]
            exact ⟨fun h => (by cases h), fun h => absurd h hno⟩
        | none =>
          simp only
          exact ⟨fun h => (by cases h), fun h => absurd h hno⟩

theorem Cell.Set_formula_raises (api : FormulaAPI F)
    {setCell : Sheet F → Position → String → Option Exn × Sheet F} (hcb : BlankOK setCell)
    (s : Sheet F) (pos : Position) (c : Cell F) (E : String) (f : F) (hinv : s.Inv api)
    (hpres : s.RefsPresent api) (hc : s.position_cell pos = some c) (hE : E ≠ "")
    (hparse : api.ParseFormulaAST E = some f)
    (hvalid : ∀ q ∈ api.GetReferencedCells f, q.IsValid = true)
    (hneq : "=" ++ E ≠ c.impl.GetText api) :
    (Cell.Set api setCell s pos ("=" ++ E)).1 = some .CircularDependencyException ↔
      ∃ n ∈ api.GetReferencedCells f, Relation.ReflTransGen (s.Edge api) n pos := by
  unfold Cell.Set
  rw [hc]
  simp only [if_neg hneq]
  have hnone := Cell.RemoveDependence_none api ⟨pos, c.addr⟩ c s (by
    intro q hq
    exact hpres pos q (by simp [Sheet.Edge, Sheet.refsAt, hc, hq]))
  have hce := Cell.RemoveDependence_coreEq api ⟨pos, c.addr⟩ c s
  cases h1 : Cell.RemoveDependence api ⟨pos, c.addr⟩ c s with
  | mk e1 s1 =>
    rw [h1] at hnone hce
    simp only at hnone
    subst hnone
    simp only [formulaText_data]
    have hE' : E.data ≠ [] := by
      intro h
      apply hE
      cases E
      simp_all
    rw [if_pos (show True ∧ E.data ≠ [] from ⟨trivial, hE'⟩)]
    have hsame := Sheet.SameGraph.of_core api hce
    have hmain := Cell.SetFormula_raises api hcb ⟨pos, c.addr⟩ E f s1
      (Sheet.Inv.coreEq api hce hinv) (hsame.refsPresent api hpres) (hce.canon_of ⟨c, hc, rfl⟩)
      hparse hvalid
    rw [hsame.edge_eq] at hmain
    show (match Cell.SetFormula api setCell ⟨pos, c.addr⟩ E s1 with
      | (some e, s2) => (some e, s2)
      | (none, s2) => Cell.ClearCache (s2.next + 1) ⟨pos, c.addr⟩ s2).1 = _ ↔ _
    cases h2 : Cell.SetFormula api setCell ⟨pos, c.addr⟩ E s1 with
    | mk e2 s2 =>
      rw [h2] at hmain
      cases e2 with
      | some e => exact hmain
      | none =>
        simp only at hmain ⊢
        have hcc := Cell.ClearCache_exn (s2.next + 1) ⟨pos, c.addr⟩ s2
        constructor
        · intro h
          rw [h] at hcc
          simp at hcc
        · intro h
          exact absurd (hmain.2 h) (by simp)


theorem Sheet.reseat_spec (api : FormulaAPI F) (s : Sheet F) (pos : Position) :
    ∃ c1,
      (match s.position_cell pos with
        | none => s.SaveNewCell pos
        | some c => if c.IsEmpty = true then s.SaveNewCell pos else s).position_cell pos
        = some c1 ∧
      Sheet.SameGraph api s
        (match s.position_cell pos with
          | none => s.SaveNewCell pos
          | some c => if c.IsEmpty = true then s.SaveNewCell pos else s) ∧
      Sheet.Evolve api s
        (match s.position_cell pos with
          | none => s.SaveNewCell pos
          | some c => if c.IsEmpty = true then s.SaveNewCell pos else s) ∧
      (c1.impl = .Empty ∨ s.position_cell pos = some c1) := by
  cases hc : s.position_cell pos with
  | none =>
    refine ⟨⟨s.next, .Empty, []⟩, by simp, ?_, Sheet.Evolve.fresh pos (Sheet.Evolve.refl s),
      Or.inl rfl⟩
    exact Sheet.SameGraph.reseat api s pos (by simp [Sheet.refsAt, hc])
  | some c =>
    by_cases he : c.IsEmpty = true
    · simp only [he, if_true]
      refine ⟨⟨s.next, .Empty, []⟩, by simp, ?_, Sheet.Evolve.fresh pos (Sheet.Evolve.refl s),
        Or.inl rfl⟩
      refine Sheet.SameGraph.reseat api s pos ?_
      unfold Cell.IsEmpty at he
      cases hi : c.impl <;> simp_all [Sheet.refsAt, Cell.GetReferencedCells]
    · simp only [he, Bool.false_eq_true, if_false]
      exact ⟨c, hc, Sheet.SameGraph.self_graph api s, Sheet.Evolve.refl s, Or.inr rfl⟩

theorem formulaText_inj {E P : String} (h : "=" ++ E = String.mk [FORMULA_SIGN] ++ P) :
    E = P := by
  have := congrArg String.data h
  have h2 : FORMULA_SIGN :: E.data = FORMULA_SIGN :: P.data := this
  simp only [List.cons.injEq, true_and] at h2
  exact String.ext h2

theorem formulaText_isFormulaText {E : String} (hE : E ≠ "") : IsFormulaText ("=" ++ E) := by
  refine ⟨E.data, rfl, ?_⟩
  intro h
  apply hE
  exact String.ext h

/-- C1: on a reachable sheet whose formula references are all present, setting a valid
position `p` to a parsing formula text with valid references raises
`CircularDependencyException` exactly when `p` is among the references or is reachable
from one of them along the references of the current formula cells. The parser is
assumed to read the references of a formula back from its canonical printing. -/
theorem cycle_rejection_exact (api : FormulaAPI F) (s : Sheet F) (p : Position) (E : String)
    (f : F) (hreach : Reachable api s) (hpres : s.RefsPresent api) (hp : p.IsValid = true)
    (hE : E ≠ "") (hparse : api.ParseFormulaAST E = some f)
    (hvalid : ∀ q ∈ api.GetReferencedCells f, q.IsValid = true)
    (hround : ∀ g h, api.ParseFormulaAST (api.PrintFormula g) = some h →
      api.GetReferencedCells h = api.GetReferencedCells g) :
    (Sheet.SetCell api s p ("=" ++ E)).1 = some .CircularDependencyException ↔
      (p ∈ api.GetReferencedCells f ∨
        ∃ n ∈ api.GetReferencedCells f, Relation.TransGen (s.Edge api) n p) := by
  have hinv := Reachable.invariant api hreach
  have hrhs : (p ∈ api.GetReferencedCells f ∨
        ∃ n ∈ api.GetReferencedCells f, Relation.TransGen (s.Edge api) n p) ↔
      ∃ n ∈ api.GetReferencedCells f, Relation.ReflTransGen (s.Edge api) n p := by
    constructor
    · rintro (h | ⟨n, hn, h⟩)
      · exact ⟨p, h, Relation.ReflTransGen.refl⟩
      · exact ⟨n, hn, h.to_reflTransGen⟩
    · rintro ⟨n, hn, h⟩
      rcases Relation.reflTransGen_iff_eq_or_transGen.1 h with h | h
      · exact Or.inl (h ▸ hn)
      · exact Or.inr ⟨n, hn, h⟩
  rw [hrhs]
  unfold Sheet.SetCell Sheet.SetCellDepth
  simp only [hp, Bool.not_true, Bool.false_eq_true, if_false]
  obtain ⟨c1, hc1, hsame, hev, hc1s⟩ := Sheet.reseat_spec api s p
  generalize (match s.position_cell p with
        | none => s.SaveNewCell p
        | some c => if c.IsEmpty = true then s.SaveNewCell p else s) = s1 at hc1 hsame hev
  have hinv1 := Sheet.Evolve.preserves api hev hinv
  by_cases htext : "=" ++ E = c1.impl.GetText api
  · have hset : Cell.Set api (Sheet.SetCellDepth api 1) s1 p ("=" ++ E) = (none, s1) := by
      unfold Cell.Set
      rw [hc1]
      simp only [if_pos htext]
    rw [hset]
    constructor
    · intro h; cases h
    · rintro ⟨n, hn, hreachn⟩
      exfalso
      cases hi : c1.impl with
      | Empty =>
        rw [hi] at htext
        have := congrArg String.data htext
        simp [Impl.GetText, formulaText_data] at this
      | Text t =>
        rw [hi] at htext
        have := hinv1.text p c1 t hc1 hi
        apply this
        have ht : t = "=" ++ E := htext.symm
        rw [ht]
        exact formulaText_isFormulaText hE
      | Formula g cache =>
        rw [hi] at htext
        have hEg : E = api.PrintFormula g := formulaText_inj htext
        rw [hEg] at hparse
        have hrefs := hround g f hparse
        have hcs : s.position_cell p = some c1 := by
          rcases hc1s with h | h
          · rw [hi] at h; cases h
          · exact h
        have hedge : ∀ q ∈ api.GetReferencedCells f, s.Edge api p q := by
          intro q hq
          simp [Sheet.Edge, Sheet.refsAt, hcs, Cell.GetReferencedCells, hi, ← hrefs, hq]
        rcases Relation.reflTransGen_iff_eq_or_transGen.1 hreachn with h | h
        · exact hinv.acyclic p (Relation.TransGen.single (hedge p (h ▸ hn)))
        · exact hinv.acyclic p (Relation.TransGen.head (hedge n hn) h)
  · have := Cell.Set_formula_raises api (Sheet.SetCellDepth_blank api 0) s1 p c1 E f hinv1
      (hsame.refsPresent api hpres) hc1 hE hparse hvalid htext
    rw [hsame.edge_eq] at this
    exact this

/-- C2: the reference graph of every reachable sheet is acyclic. -/
theorem reachable_acyclic (api : FormulaAPI F) (s : Sheet F) (hreach : Reachable api s) :
    s.Acyclic api :=
  (Reachable.invariant api hreach).acyclic


/-! ## The text of a cell after `SetCell` -/

theorem Impl.GetText_ClearCache (api : FormulaAPI F) (i : Impl F) :
    i.ClearCache.GetText api = i.GetText api := by
  cases i <;> rfl

theorem Sheet.CoreEq.getText (api : FormulaAPI F) {s s' : Sheet F} (h : s.CoreEq s')
    {p : Position} {c : Cell F} (hc : s.position_cell p = some c) :
    ∃ d, s'.position_cell p = some d ∧ d.GetText api = c.GetText api := by
  obtain ⟨d, hd, _, hdi⟩ := h.cell hc
  refine ⟨d, hd, ?_⟩
  unfold Cell.GetText
  rw [← Impl.GetText_ClearCache api d.impl, hdi, Impl.GetText_ClearCache]

theorem Sheet.setImpl_getText (api : FormulaAPI F) {s : Sheet F} {pos : Position}
    {c : Cell F} (hc : s.position_cell pos = some c) (impl : Impl F) :
    ∃ d, (s.setImpl pos impl).position_cell pos = some d ∧ d.GetText api = impl.GetText api := by
  refine ⟨{ c with impl := impl }, ?_, rfl⟩
  rw [Sheet.setImpl_cell]
  simp [hc]

theorem Cell.SetFormula_text (api : FormulaAPI F)
    {setCell : Sheet F → Position → String → Option Exn × Sheet F} (hcb : BlankOK setCell)
    (this : Ptr) (E : String) (s s' : Sheet F) (hinv : s.Inv api) (hthis : s.Canon this)
    (hret : Cell.SetFormula api setCell this E s = (none, s')) :
    ∃ f d, api.ParseFormulaAST E = some f ∧ s'.position_cell this.pos = some d ∧
      d.GetText api = "=" ++ api.PrintFormula f := by
  unfold Cell.SetFormula at hret
  cases hparse : api.ParseFormulaAST E with
  | none => rw [hparse] at hret; cases hret
  | some f =>
    rw [hparse] at hret
    simp only at hret
    obtain ⟨_, hg, _⟩ :=
      Cell.resolveAndCheck_spec api hcb this (api.GetReferencedCells f) s hinv hthis
    cases h1 : Cell.resolveAndCheck api setCell this (api.GetReferencedCells f) s with
    | mk e1 s1 =>
      rw [h1] at hret hg
      cases e1 with
      | some e => cases hret
      | none =>
        simp only at hret
        have hce := Cell.addReferences_coreEq this (api.GetReferencedCells f) s1
        cases h2 : Cell.addReferences this (api.GetReferencedCells f) s1 with
        | mk e2 s2 =>
          rw [h2] at hret hce
          cases e2 with
          | some e => cases hret
          | none =>
            simp only [Prod.mk.injEq, true_and] at hret
            obtain ⟨c, hc, _⟩ := hce.canon_of (hg.canon_mono hthis)
            obtain ⟨d, hd, hdt⟩ := Sheet.setImpl_getText api hc (.Formula f none)
            rw [hret] at hd
            exact ⟨f, d, rfl, hd, hdt⟩

theorem Cell.Set_text (api : FormulaAPI F)
    {setCell : Sheet F → Position → String → Option Exn × Sheet F} (hcb : BlankOK setCell)
    (s s' : Sheet F) (pos : Position) (c : Cell F) (t : String) (hinv : s.Inv api)
    (hcanon : ∀ g, ∃ h, api.ParseFormulaAST (api.PrintFormula g) = some h ∧
      api.PrintFormula h = api.PrintFormula g)
    (hc : s.position_cell pos = some c)
    (hret : Cell.Set api setCell s pos t = (none, s')) :
    ∃ d, s'.position_cell pos = some d ∧ TextSpec api t d := by
  unfold Cell.Set at hret
  rw [hc] at hret
  simp only at hret
  by_cases htext : t = c.impl.GetText api
  · rw [if_pos htext] at hret
    simp only [Prod.mk.injEq, true_and] at hret
    subst hret
    refine ⟨c, hc, fun _ => htext.symm, ?_⟩
    intro E hE hne
    cases hi : c.impl with
    | Empty =>
      rw [hi, hE] at htext
      have := congrArg String.data htext
      simp [Impl.GetText, formulaText_data] at this
    | Text t' =>
      rw [hi] at htext
      exfalso
      apply hinv.text pos c t' hc hi
      have ht : t' = "=" ++ E := by rw [← hE]; exact htext.symm
      rw [ht]
      exact formulaText_isFormulaText hne
    | Formula g cache =>
      rw [hi, hE] at htext
      have hEg : E = api.PrintFormula g := formulaText_inj htext
      obtain ⟨h, hparse, hprint⟩ := hcanon g
      refine ⟨h, by rw [hEg]; exact hparse, ?_⟩
      unfold Cell.GetText
      rw [hi, hprint]
      rfl
  · rw [if_neg htext] at hret
    have hce := Cell.RemoveDependence_coreEq api ⟨pos, c.addr⟩ c s
    cases h1 : Cell.RemoveDependence api ⟨pos, c.addr⟩ c s with
    | mk e1 s1 =>
      rw [h1] at hret hce
      cases e1 with
      | some e => cases hret
      | none =>
        simp only at hret hce
        obtain ⟨c1, hc1, hc1a, _⟩ := hce.cell hc
        cases hdata : t.data with
        | nil =>
          rw [hdata] at hret
          simp only at hret
          have hcc := Cell.ClearCache_coreEq ((s1.setImpl pos .Empty).next + 1) ⟨pos, c.addr⟩
            (s1.setImpl pos .Empty)
          rw [hret] at hcc
          obtain ⟨d, hd, hdt⟩ := Sheet.setImpl_getText api hc1 .Empty
          obtain ⟨d', hd', hdt'⟩ := hcc.getText api hd
          refine ⟨d', hd', fun _ => ?_, ?_⟩
          · rw [hdt', hdt]
            exact (String.ext hdata).symm
          · intro E hE _
            rw [hE, formulaText_data] at hdata
            cases hdata
        | cons ch rest =>
          rw [hdata] at hret
          simp only at hret
          by_cases hform : ch = FORMULA_SIGN ∧ rest ≠ []
          · rw [if_pos hform] at hret
            cases h2 : Cell.SetFormula api setCell ⟨pos, c.addr⟩ (String.mk rest) s1 with
            | mk e2 s2 =>
              rw [h2] at hret
              cases e2 with
              | some e => cases hret
              | none =>
                simp only at hret
                obtain ⟨f, d, hparse, hd, hdt⟩ := Cell.SetFormula_text api hcb ⟨pos, c.addr⟩
                  (String.mk rest) s1 s2 (Sheet.Inv.coreEq api hce hinv)
                  ⟨c1, hc1, hc1a⟩ h2
                have hcc := Cell.ClearCache_coreEq (s2.next + 1) ⟨pos, c.addr⟩ s2
                rw [hret] at hcc
                obtain ⟨d', hd', hdt'⟩ := hcc.getText api hd
                refine ⟨d', hd', fun hnf => ?_, ?_⟩
                · exact absurd ⟨rest, by rw [hdata, hform.1], hform.2⟩ hnf
                · intro E hE _
                  rw [hE, formulaText_data] at hdata
                  simp only [List.cons.injEq] at hdata
                  have hEr : E = String.mk rest := String.ext hdata.2
                  exact ⟨f, by rw [hEr]; exact hparse, by rw [hdt', hdt]⟩
          · rw [if_neg hform] at hret
            simp only at hret
            have hcc := Cell.ClearCache_coreEq ((s1.setImpl pos (.Text t)).next + 1)
              ⟨pos, c.addr⟩ (s1.setImpl pos (.Text t))
            rw [hret] at hcc
            obtain ⟨d, hd, hdt⟩ := Sheet.setImpl_getText api hc1 (.Text t)
            obtain ⟨d', hd', hdt'⟩ := hcc.getText api hd
            refine ⟨d', hd', fun _ => ?_, ?_⟩
            · rw [hdt', hdt]
              rfl
            · intro E hE hne
              exfalso
              apply hform
              rw [hE, formulaText_data] at hdata
              simp only [List.cons.injEq] at hdata
              refine ⟨hdata.1.symm, ?_⟩
              rw [← hdata.2]
              intro h
              exact hne (String.ext h)

/-- C8: when `SetCell(p, t)` returns normally on a reachable sheet, the cell at `p` exists
and its text is `t` if `t` is not a formula text, and `=` followed by the canonical
printing of the parsed expression if `t` is `=E` with `E` non-empty. The parser is
assumed to read a canonical printing back to a formula that prints the same. -/
theorem setCell_getText_roundtrip (api : FormulaAPI F) (s s' : Sheet F) (p : Position)
    (t : String) (hreach : Reachable api s)
    (hcanon : ∀ g, ∃ h, api.ParseFormulaAST (api.PrintFormula g) = some h ∧
      api.PrintFormula h = api.PrintFormula g)
    (hret : Sheet.SetCell api s p t = (none, s')) :
    ∃ c, s'.GetCell p = .ok (some c) ∧ TextSpec api t c := by
  have hinv := Reachable.invariant api hreach
  unfold Sheet.SetCell Sheet.SetCellDepth at hret
  by_cases hp : p.IsValid = true
  · simp only [hp, Bool.not_true, Bool.false_eq_true, if_false] at hret
    obtain ⟨c1, hc1, _, hev, _⟩ := Sheet.reseat_spec api s p
    generalize (match s.position_cell p with
          | none => s.SaveNewCell p
          | some c => if c.IsEmpty = true then s.SaveNewCell p else s) = s1 at hc1 hev hret
    obtain ⟨d, hd, hspec⟩ := Cell.Set_text api (Sheet.SetCellDepth_blank api 0) s1 s' p c1 t
      (Sheet.Evolve.preserves api hev hinv) hcanon hc1 hret
    refine ⟨d, ?_, hspec⟩
    unfold Sheet.GetCell
    simp [hp, hd]
  · simp [hp] at hret

/-- C10: `SetCell`, `GetCell` and `ClearCell` reject an invalid position with
`InvalidPositionException` and leave the sheet as it is. -/
theorem invalid_position_rejected (api : FormulaAPI F) (s : Sheet F) (pos : Position)
    (text : String) (hpos : pos.IsValid = false) :
    Sheet.SetCell api s pos text = (some .InvalidPositionException, s) ∧
    s.GetCell pos = .error .InvalidPositionException ∧
    Sheet.ClearCell api s pos = (some .InvalidPositionException, s) := by
  refine ⟨?_, ?_, ?_⟩
  · unfold Sheet.SetCell Sheet.SetCellDepth
    simp [hpos]
  · unfold Sheet.GetCell
    simp [hpos]
  · unfold Sheet.ClearCell
    simp [hpos]


/-! ## Concrete sheets -/

theorem Reachable.after (api : FormulaAPI F) (ops : List Op) :
    ∀ s, Reachable api s → Reachable api (Sheet.after api s ops) := by
  induction ops with
  | nil => intro s h; exact h
  | cons op ops ih => intro s h; exact ih _ (Reachable.call s op h)

theorem Sample.reachable (ops : List Op) : Reachable Sample.api (Sample.sheetAfter ops) :=
  Reachable.after Sample.api ops _ Reachable.init

theorem Sheet.RefsPresent.of_cells (api : FormulaAPI F) (s : Sheet F) (cells : List Position)
    (hsupp : ∀ q, q ∉ cells → s.position_cell q = none)
    (hall : ∀ a ∈ cells, ∀ b ∈ s.refsAt api a, (s.position_cell b).isSome = true) :
    s.RefsPresent api := by
  intro a b hab
  by_cases ha : a ∈ cells
  · exact hall a ha b hab
  · have := hsupp a ha
    simp [Sheet.Edge, Sheet.refsAt, this] at hab

theorem Sample.parse_print (g : Sample.Formula) :
    Sample.api.ParseFormulaAST (Sample.api.PrintFormula g) = some g := by
  obtain ⟨e, he⟩ := g
  simp only [Sample.api]
  rw [dif_pos he]

theorem Sample.refsPresent_A1_B1 :
    (Sample.sheetAfter [.SetCell Sample.A1 "=B1"]).RefsPresent Sample.api := by
  refine Sheet.RefsPresent.of_cells Sample.api _ [Sample.A1, Sample.B1] ?_ (by decide)
  intro q hq
  have hshape : (Sample.sheetAfter [.SetCell Sample.A1 "=B1"]).position_cell q =
      (if q = Sample.A1 then some ⟨0, .Formula ⟨"B1", by decide⟩ none, []⟩
       else if q = Sample.B1 then some ⟨1, .Empty, [⟨Sample.A1, 0⟩]⟩
       else if q = Sample.B1 then some ⟨1, .Empty, []⟩
       else if q = Sample.A1 then some ⟨0, .Empty, []⟩ else none) := rfl
  rw [hshape]
  simp only [List.mem_cons, List.mem_singleton, not_or, List.not_mem_nil, or_false] at hq
  simp [hq.1, hq.2]

/-- Witness of C1 at the two-cycle of the specification: after `SetCell(A1, "=B1")` the
call `SetCell(B1, "=A1")` raises, and `B1` is reachable from the reference `A1`. On the
empty sheet `SetCell(A1, "=A1")` raises as well. -/
theorem cycle_rejection_exact_witness :
    Sample.outcomesOf [.SetCell Sample.A1 "=A1"] = [some .CircularDependencyException] ∧
    Reachable Sample.api (Sample.sheetAfter [.SetCell Sample.A1 "=B1"]) ∧
    (Sample.sheetAfter [.SetCell Sample.A1 "=B1"]).RefsPresent Sample.api ∧
    Sample.B1.IsValid = true ∧
    Sample.api.ParseFormulaAST "A1" = some ⟨"A1", by decide⟩ ∧
    (Sheet.SetCell Sample.api (Sample.sheetAfter [.SetCell Sample.A1 "=B1"]) Sample.B1
        ("=" ++ "A1")).1 = some .CircularDependencyException ∧
    ((Sheet.SetCell Sample.api (Sample.sheetAfter [.SetCell Sample.A1 "=B1"]) Sample.B1
        ("=" ++ "A1")).1 = some .CircularDependencyException ↔
      (Sample.B1 ∈ Sample.api.GetReferencedCells ⟨"A1", by decide⟩ ∨
        ∃ n ∈ Sample.api.GetReferencedCells ⟨"A1", by decide⟩,
          Relation.TransGen
            ((Sample.sheetAfter [.SetCell Sample.A1 "=B1"]).Edge Sample.api) n Sample.B1)) :=
  ⟨by decide, Sample.reachable _, Sample.refsPresent_A1_B1, by decide, by decide, by decide,
    cycle_rejection_exact Sample.api (Sample.sheetAfter [.SetCell Sample.A1 "=B1"]) Sample.B1
      "A1" ⟨"A1", by decide⟩ (Sample.reachable _) Sample.refsPresent_A1_B1 (by decide)
      (by decide) (by decide) (by decide)
      (fun g h hp => by rw [Sample.parse_print g] at hp; cases hp; rfl)⟩

/-- Witness of C2: the sheet left by `SetCell(A1, "=B1")`, the rejected
`SetCell(B1, "=A1")` and `SetCell(C1, "=A1+B1")` is reachable and acyclic. -/
theorem reachable_acyclic_witness :
    Reachable Sample.api (Sample.sheetAfter
      [.SetCell Sample.A1 "=B1", .SetCell Sample.B1 "=A1", .SetCell Sample.C1 "=A1+B1"]) ∧
    (Sample.sheetAfter
      [.SetCell Sample.A1 "=B1", .SetCell Sample.B1 "=A1",
        .SetCell Sample.C1 "=A1+B1"]).Acyclic Sample.api :=
  ⟨Sample.reachable _, reachable_acyclic Sample.api _ (Sample.reachable _)⟩

/-- Witness of C8: `SetCell(A1, "=B1+1")` on the empty sheet returns normally and the
cell at `A1` then reports the text `=B1+1`. -/
theorem setCell_getText_roundtrip_witness :
    Sheet.SetCell Sample.api (Sheet.empty Sample.Formula) Sample.A1 "=B1+1" =
      (none, Sample.sheetAfter [.SetCell Sample.A1 "=B1+1"]) ∧
    ∃ c, (Sample.sheetAfter [.SetCell Sample.A1 "=B1+1"]).GetCell Sample.A1 = .ok (some c) ∧
      TextSpec Sample.api "=B1+1" c :=
  ⟨Prod.ext (by decide) rfl,
    setCell_getText_roundtrip Sample.api (Sheet.empty Sample.Formula)
      (Sample.sheetAfter [.SetCell Sample.A1 "=B1+1"]) Sample.A1 "=B1+1" Reachable.init
      (fun g => ⟨g, Sample.parse_print g, rfl⟩) (Prod.ext (by decide) rfl)⟩

/-- Witness of C10: the position in row `-1` is invalid and every call on it is rejected. -/
theorem invalid_position_rejected_witness :
    (Position.mk (-1) 0).IsValid = false ∧
    Sheet.SetCell Sample.api (Sample.sheetAfter [.SetCell Sample.A1 "=B1"]) ⟨-1, 0⟩ "x" =
      (some .InvalidPositionException, Sample.sheetAfter [.SetCell Sample.A1 "=B1"]) ∧
    (Sample.sheetAfter [.SetCell Sample.A1 "=B1"]).GetCell ⟨-1, 0⟩ =
      .error .InvalidPositionException ∧
    Sheet.ClearCell Sample.api (Sample.sheetAfter [.SetCell Sample.A1 "=B1"]) ⟨-1, 0⟩ =
      (some .InvalidPositionException, Sample.sheetAfter [.SetCell Sample.A1 "=B1"]) :=
  ⟨by decide,
    invalid_position_rejected Sample.api (Sample.sheetAfter [.SetCell Sample.A1 "=B1"])
      ⟨-1, 0⟩ "x" (by decide)⟩


/-! ## Scenarios on which the engine departs from the specification -/

/-- C3, the engine on a concrete scenario: `A1` holds `=B1`, so `A1` is a dependent of `B1`.
`SetCell(A1, "=A1")` raises `CircularDependencyException` and `SetCell(A1, "=+")` raises
`FormulaException`; either way `A1` keeps the text `=B1` but is no longer a dependent
of `B1`, because `RemoveDependence` runs before the parse and the cycle check. -/
theorem set_error_drops_dependents :
    Sample.outcomesOf [.SetCell Sample.A1 "=B1"] = [none] ∧
    (Sample.sheetAfter [.SetCell Sample.A1 "=B1"]).dependentsAt Sample.B1
      = some [⟨Sample.A1, 0⟩] ∧
    Sample.outcomesOf [.SetCell Sample.A1 "=B1", .SetCell Sample.A1 "=A1"]
      = [none, some .CircularDependencyException] ∧
    (Sample.sheetAfter [.SetCell Sample.A1 "=B1", .SetCell Sample.A1 "=A1"]).textAt
      Sample.api Sample.A1 = some "=B1" ∧
    (Sample.sheetAfter [.SetCell Sample.A1 "=B1", .SetCell Sample.A1 "=A1"]).dependentsAt
      Sample.B1 = some [] ∧
    Sample.outcomesOf [.SetCell Sample.A1 "=B1", .SetCell Sample.A1 "=+"]
      = [none, some .FormulaException] ∧
    (Sample.sheetAfter [.SetCell Sample.A1 "=B1", .SetCell Sample.A1 "=+"]).textAt
      Sample.api Sample.A1 = some "=B1" ∧
    (Sample.sheetAfter [.SetCell Sample.A1 "=B1", .SetCell Sample.A1 "=+"]).dependentsAt
      Sample.B1 = some [] := by
  decide

/-- C4, the engine on a concrete scenario: `A1` holds `=B1` and has cached the value 5 of
`B1`. After `SetCell(B1, "=C1")` returns normally, `A1` still references `B1` and still
holds the cached 5. The same happens when `B1` was an empty placeholder and is set
to `5`: `A1` keeps its cached value error. -/
theorem setCell_leaves_stale_cache :
    Sample.outcomesOf [.SetCell Sample.B1 "5", .SetCell Sample.A1 "=B1", .GetValue Sample.A1,
      .SetCell Sample.B1 "=C1"] = [none, none, none, none] ∧
    Sample.B1 ∈ (Sample.sheetAfter [.SetCell Sample.B1 "5", .SetCell Sample.A1 "=B1",
      .GetValue Sample.A1, .SetCell Sample.B1 "=C1"]).refsAt Sample.api Sample.A1 ∧
    (Sample.sheetAfter [.SetCell Sample.B1 "5", .SetCell Sample.A1 "=B1",
      .GetValue Sample.A1, .SetCell Sample.B1 "=C1"]).cacheAt Sample.A1
      = some (.number ⟨5⟩) ∧
    Sample.outcomesOf [.SetCell Sample.A1 "=B1", .GetValue Sample.A1, .SetCell Sample.B1 "5"]
      = [none, none, none] ∧
    Sample.B1 ∈ (Sample.sheetAfter [.SetCell Sample.A1 "=B1", .GetValue Sample.A1,
      .SetCell Sample.B1 "5"]).refsAt Sample.api Sample.A1 ∧
    (Sample.sheetAfter [.SetCell Sample.A1 "=B1", .GetValue Sample.A1,
      .SetCell Sample.B1 "5"]).cacheAt Sample.A1 = some (.error .Value) := by
  decide

/-- C5, the engine on a concrete scenario: after `SetCell(A1, "=B1")` and `SetCell(B1, "5")`,
both returning normally, `A1` is a formula that references `B1` but the dependents of
`B1` are empty. In the other direction, after `SetCell(B1, "5")`, `SetCell(A1, "=B1")`
and `ClearCell(A1)` the dependents of `B1` still record the destroyed cell of `A1`. -/
theorem back_edges_inconsistent :
    Sample.outcomesOf [.SetCell Sample.A1 "=B1", .SetCell Sample.B1 "5"] = [none, none] ∧
    Sample.B1 ∈ (Sample.sheetAfter [.SetCell Sample.A1 "=B1", .SetCell Sample.B1 "5"]).refsAt
      Sample.api Sample.A1 ∧
    (Sample.sheetAfter [.SetCell Sample.A1 "=B1", .SetCell Sample.B1 "5"]).dependentsAt
      Sample.B1 = some [] ∧
    Sample.outcomesOf [.SetCell Sample.B1 "5", .SetCell Sample.A1 "=B1",
      .ClearCell Sample.A1] = [none, none, none] ∧
    (Sample.sheetAfter [.SetCell Sample.B1 "5", .SetCell Sample.A1 "=B1",
      .ClearCell Sample.A1]).position_cell Sample.A1 = none ∧
    (Sample.sheetAfter [.SetCell Sample.B1 "5", .SetCell Sample.A1 "=B1",
      .ClearCell Sample.A1]).dependentsAt Sample.B1 = some [⟨Sample.A1, 1⟩] := by
  decide

/-- C6, the engine on a concrete scenario: after `SetCell(A1, "=B1")`, `SetCell(B1, "5")` and
`ClearCell(B1)`, all returning normally, the formula at `A1` references `B1` and no
cell is present at `B1`; the next edit of `A1` then fails in `ThisCell`. -/
theorem referenced_position_absent :
    Sample.outcomesOf [.SetCell Sample.A1 "=B1", .SetCell Sample.B1 "5",
      .ClearCell Sample.B1] = [none, none, none] ∧
    Sample.B1 ∈ (Sample.sheetAfter [.SetCell Sample.A1 "=B1", .SetCell Sample.B1 "5",
      .ClearCell Sample.B1]).refsAt Sample.api Sample.A1 ∧
    (Sample.sheetAfter [.SetCell Sample.A1 "=B1", .SetCell Sample.B1 "5",
      .ClearCell Sample.B1]).position_cell Sample.B1 = none ∧
    Sample.outcomesOf [.SetCell Sample.A1 "=B1", .SetCell Sample.B1 "5",
      .ClearCell Sample.B1, .SetCell Sample.A1 "x"] = [none, none, none, some .out_of_range] := by
  decide

/-- C7, the engine on scenario 5 of the specification: after `SetCell(A1, "=B1+1")`,
`SetCell(B1, "7")` and `ClearCell(B1)` the formula at `A1` references `B1`, yet the cell
at `B1` has been removed instead of being retained as an empty cell. -/
theorem clearCell_removes_referenced_cell :
    Sample.outcomesOf [.SetCell Sample.A1 "=B1+1", .SetCell Sample.B1 "7",
      .ClearCell Sample.B1] = [none, none, none] ∧
    (Sample.sheetAfter [.SetCell Sample.A1 "=B1+1", .SetCell Sample.B1 "7"]).textAt
      Sample.api Sample.B1 = some "7" ∧
    Sample.B1 ∈ (Sample.sheetAfter [.SetCell Sample.A1 "=B1+1", .SetCell Sample.B1 "7",
      .ClearCell Sample.B1]).refsAt Sample.api Sample.A1 ∧
    (Sample.sheetAfter [.SetCell Sample.A1 "=B1+1", .SetCell Sample.B1 "7",
      .ClearCell Sample.B1]).position_cell Sample.B1 = none := by
  decide

/-- C9, the engine on a concrete scenario: after `SetCell(A1, "=B1")` the cell at `B1` is an
empty placeholder with text `""` and dependent `A1`. `SetCell(B1, "")` returns
normally, and the cell at `B1` is then a new object without dependents. -/
theorem setCell_same_text_drops_dependents :
    Sample.outcomesOf [.SetCell Sample.A1 "=B1", .SetCell Sample.B1 ""] = [none, none] ∧
    (Sample.sheetAfter [.SetCell Sample.A1 "=B1"]).textAt Sample.api Sample.B1 = some "" ∧
    (Sample.sheetAfter [.SetCell Sample.A1 "=B1"]).dependentsAt Sample.B1
      = some [⟨Sample.A1, 0⟩] ∧
    (Sample.sheetAfter [.SetCell Sample.A1 "=B1", .SetCell Sample.B1 ""]).textAt
      Sample.api Sample.B1 = some "" ∧
    (Sample.sheetAfter [.SetCell Sample.A1 "=B1", .SetCell Sample.B1 ""]).dependentsAt
      Sample.B1 = some [] := by
  decide

/-- Setting a cell that is not empty to its current text changes nothing at all. -/
theorem Sheet.SetCell_same_text (api : FormulaAPI F) (s : Sheet F) (p : Position)
    (c : Cell F) (hp : p.IsValid = true) (hc : s.position_cell p = some c)
    (hne : c.IsEmpty = false) : Sheet.SetCell api s p (c.GetText api) = (none, s) := by
  unfold Sheet.SetCell Sheet.SetCellDepth
  simp only [hp, Bool.not_true, Bool.false_eq_true, if_false, hc, hne]
  unfold Cell.Set
  simp [hc, Cell.GetText]


/-! ## The value lookup of the evaluator -/

/-- C11: `Sheet::GetValue` throws `FormulaError(Ref)` for an invalid position, returns the
number `0.0` for a valid position without a cell, and otherwise returns what
`Cell::GetValue` of the cell at the position returns, which is the value error for an
empty cell. -/
theorem sheet_getValue_cases (api : FormulaAPI F) (s : Sheet F) (pos : Position) :
    (pos.IsValid = false → Sheet.GetValue api s pos = (.ok (.error .Ref), s)) ∧
    (pos.IsValid = true → s.position_cell pos = none →
      Sheet.GetValue api s pos = (.ok (.ok (.number ⟨0⟩)), s)) ∧
    (pos.IsValid = true → (s.position_cell pos).isSome = true →
      (Sheet.GetValue api s pos).1 = (Cell.GetValue api (s.next + 1) s pos).1.map Except.ok ∧
      (Sheet.GetValue api s pos).2 = (Cell.GetValue api (s.next + 1) s pos).2) ∧
    (pos.IsValid = true → ∀ c, s.position_cell pos = some c → c.impl = .Empty →
      Sheet.GetValue api s pos = (.ok (.ok (.error .Value)), s)) := by
  refine ⟨?_, ?_, ?_, ?_⟩
  · intro hv
    simp [Sheet.GetValue, Sheet.GetValueWith, hv]
  · intro hv habs
    simp [Sheet.GetValue, Sheet.GetValueWith, hv, habs]
  · intro hv hpres
    obtain ⟨c, hc⟩ := Option.isSome_iff_exists.1 hpres
    unfold Sheet.GetValue Sheet.GetValueWith
    simp only [hv, Bool.not_true, Bool.false_eq_true, if_false, hc]
    cases hg : Cell.GetValue api (s.next + 1) s pos with
    | mk r s1 => cases r <;> simp [Except.map]
  · intro hv c hc hi
    unfold Sheet.GetValue Sheet.GetValueWith
    simp only [hv, Bool.not_true, Bool.false_eq_true, if_false, hc]
    unfold Cell.GetValue
    simp [hc, hi]

/-- Witness of C11 on the sheet left by `SetCell(A1, "=B1")`: an invalid position, the
absent position `C1`, the formula cell `A1` and the empty placeholder `B1`. -/
theorem sheet_getValue_cases_witness :
    Sheet.GetValue Sample.api (Sample.sheetAfter [.SetCell Sample.A1 "=B1"]) ⟨-1, 0⟩ =
      (.ok (.error .Ref), Sample.sheetAfter [.SetCell Sample.A1 "=B1"]) ∧
    Sheet.GetValue Sample.api (Sample.sheetAfter [.SetCell Sample.A1 "=B1"]) Sample.C1 =
      (.ok (.ok (.number ⟨0⟩)), Sample.sheetAfter [.SetCell Sample.A1 "=B1"]) ∧
    ((Sheet.GetValue Sample.api (Sample.sheetAfter [.SetCell Sample.A1 "=B1"]) Sample.A1).1 =
      (Cell.GetValue Sample.api ((Sample.sheetAfter [.SetCell Sample.A1 "=B1"]).next + 1)
        (Sample.sheetAfter [.SetCell Sample.A1 "=B1"]) Sample.A1).1.map Except.ok ∧
     (Sheet.GetValue Sample.api (Sample.sheetAfter [.SetCell Sample.A1 "=B1"]) Sample.A1).2 =
      (Cell.GetValue Sample.api ((Sample.sheetAfter [.SetCell Sample.A1 "=B1"]).next + 1)
        (Sample.sheetAfter [.SetCell Sample.A1 "=B1"]) Sample.A1).2) ∧
    Sheet.GetValue Sample.api (Sample.sheetAfter [.SetCell Sample.A1 "=B1"]) Sample.B1 =
      (.ok (.ok (.error .Value)), Sample.sheetAfter [.SetCell Sample.A1 "=B1"]) :=
  ⟨(sheet_getValue_cases Sample.api _ ⟨-1, 0⟩).1 (by decide),
   (sheet_getValue_cases Sample.api _ Sample.C1).2.1 (by decide) (by decide),
   (sheet_getValue_cases Sample.api _ Sample.A1).2.2.1 (by decide) (by decide),
   (sheet_getValue_cases Sample.api _ Sample.B1).2.2.2 (by decide)
     ⟨1, .Empty, [⟨Sample.A1, 0⟩]⟩ (by decide) rfl⟩

/-! ## More scenarios on which the engine departs from the specification -/

/-- C15, the engine on a concrete scenario: after `SetCell(A1, "=B1")` the first
`ClearCell(B1)` keeps the referenced placeholder but removes it from the indices, and
the second `ClearCell(B1)` throws `std::out_of_range` from `col_cell_.at`. `SetCell` can
throw it too, from `ThisCell` in `RemoveDependence`. -/
theorem public_calls_throw_out_of_range :
    Sample.B1.IsValid = true ∧ Sample.A1.IsValid = true ∧
    Sample.outcomesOf [.SetCell Sample.A1 "=B1", .ClearCell Sample.B1, .ClearCell Sample.B1]
      = [none, none, some .out_of_range] ∧
    Sample.outcomesOf [.SetCell Sample.A1 "=B1", .SetCell Sample.B1 "5",
      .ClearCell Sample.B1, .SetCell Sample.A1 "7"]
      = [none, none, none, some .out_of_range] := by
  decide

/-- C16, the engine on a concrete scenario: `operator<<` writes `#ARITHM!` for the value
and the ref category as well, and `PrintValues` prints the value errors of `A1` and
`B1` after `SetCell(A1, "=B1")` as `#ARITHM!`. -/
theorem every_error_renders_as_arithm :
    FormulaError.render .Arithmetic = "#ARITHM!" ∧
    FormulaError.render .Value = "#ARITHM!" ∧
    FormulaError.render .Ref = "#ARITHM!" ∧
    (Sample.sheetAfter [.SetCell Sample.A1 "=B1", .GetValue Sample.A1]).cacheAt Sample.A1
      = some (.error .Value) ∧
    (Sheet.PrintValues Sample.api Sample.printDouble
      (Sample.sheetAfter [.SetCell Sample.A1 "=B1"])).1 = none ∧
    (Sheet.PrintValues Sample.api Sample.printDouble
      (Sample.sheetAfter [.SetCell Sample.A1 "=B1"])).2.1 = "#ARITHM!\t#ARITHM!\n" := by
  decide

/-- C18, the engine on a concrete scenario: the expression `A99999` parses in the sample
library and references a position outside the sheet; `SetCell(A1, "=A99999")` does
not return normally but throws `InvalidPositionException`, raised by the `SetCell`
that `GetOrCreate` calls for the referenced position. -/
theorem invalid_reference_rejected_at_set_time :
    Sample.A1.IsValid = true ∧
    (Sample.api.ParseFormulaAST "A99999").map Sample.api.GetReferencedCells
      = some [⟨99998, 0⟩] ∧
    (Position.mk 99998 0).IsValid = false ∧
    Sample.outcomesOf [.SetCell Sample.A1 "=A99999"] = [some .InvalidPositionException] ∧
    (Sample.sheetAfter [.SetCell Sample.A1 "=A99999"]).textAt Sample.api Sample.A1
      = some "" := by
  decide

/-- C19, the engine on concrete scenarios: after `SetCell(A1, "=B1")` the dependents of
`B1` hold `A1`. `SetCell(B1, "=C1")` returns normally and the dependents of `B1` are
then empty, so the entry contributed by `A1` is gone. Likewise, after
`SetCell(A1, "=B1")`, `SetCell(B1, "5")`, the call `SetCell(A1, "=B1")` returns normally
and the cell at the referenced `B1` does not hold `A1` among its dependents. -/
theorem formula_edit_loses_back_edges :
    (Sample.sheetAfter [.SetCell Sample.A1 "=B1"]).dependentsAt Sample.B1
      = some [⟨Sample.A1, 0⟩] ∧
    Sample.outcomesOf [.SetCell Sample.A1 "=B1", .SetCell Sample.B1 "=C1"] = [none, none] ∧
    Sample.B1 ∈ (Sample.sheetAfter [.SetCell Sample.A1 "=B1", .SetCell Sample.B1 "=C1"]).refsAt
      Sample.api Sample.A1 ∧
    (Sample.sheetAfter [.SetCell Sample.A1 "=B1", .SetCell Sample.B1 "=C1"]).dependentsAt
      Sample.B1 = some [] ∧
    Sample.outcomesOf [.SetCell Sample.A1 "=B1", .SetCell Sample.B1 "5",
      .SetCell Sample.A1 "=B1"] = [none, none, none] ∧
    (Sample.api.ParseFormulaAST "B1").map Sample.api.GetReferencedCells = some [Sample.B1] ∧
    (Sample.sheetAfter [.SetCell Sample.A1 "=B1", .SetCell Sample.B1 "5",
      .SetCell Sample.A1 "=B1"]).dependentsAt Sample.B1 = some [] := by
  decide


/-! ## Sets kept as increasing lists -/

theorem mem_setInsert {α : Type} (lt : α → α → Bool)
    (htri : ∀ a b, lt a b = false → lt b a = false → a = b) (x a : α) :
    ∀ l : List α, a ∈ setInsert lt x l ↔ a = x ∨ a ∈ l := by
  intro l
  induction l with
  | nil => simp [setInsert]
  | cons y ys ih =>
    unfold setInsert
    by_cases h1 : lt x y = true
    · simp [h1]
    · by_cases h2 : lt y x = true
      · simp only [h1, h2, Bool.false_eq_true, if_false, if_true, List.mem_cons, ih]
        tauto
      · simp only [h1, h2, Bool.false_eq_true, if_false, List.mem_cons]
        have hxy : x = y := htri x y (by simpa using h1) (by simpa using h2)
        subst hxy
        tauto

theorem pairwise_setInsert {α : Type} (lt : α → α → Bool)
    (htrans : ∀ a b c, lt a b = true → lt b c = true → lt a c = true)
    (htri : ∀ a b, lt a b = false → lt b a = false → a = b) (x : α) :
    ∀ l : List α, l.Pairwise (fun a b => lt a b = true) →
      (setInsert lt x l).Pairwise (fun a b => lt a b = true) := by
  intro l
  induction l with
  | nil => intro _; simp [setInsert]
  | cons y ys ih =>
    intro hl
    rw [List.pairwise_cons] at hl
    unfold setInsert
    by_cases h1 : lt x y = true
    · simp only [h1, if_true]
      refine List.pairwise_cons.2 ⟨?_, List.pairwise_cons.2 hl⟩
      intro z hz
      rcases List.mem_cons.1 hz with rfl | hz
      · exact h1
      · exact htrans _ _ _ h1 (hl.1 z hz)
    · by_cases h2 : lt y x = true
      · simp only [h1, h2, Bool.false_eq_true, if_false, if_true]
        refine List.pairwise_cons.2 ⟨?_, ih hl.2⟩
        intro z hz
        rcases (mem_setInsert lt htri x z ys).1 hz with rfl | hz
        · exact h2
        · exact hl.1 z hz
      · simp only [h1, h2, Bool.false_eq_true, if_false]
        exact List.pairwise_cons.2 hl

theorem setOfList_spec {α : Type} (lt : α → α → Bool)
    (htrans : ∀ a b c, lt a b = true → lt b c = true → lt a c = true)
    (htri : ∀ a b, lt a b = false → lt b a = false → a = b) :
    ∀ (l acc : List α), acc.Pairwise (fun a b => lt a b = true) →
      (l.foldl (fun acc x => setInsert lt x acc) acc).Pairwise (fun a b => lt a b = true) ∧
      ∀ a, a ∈ l.foldl (fun acc x => setInsert lt x acc) acc ↔ a ∈ acc ∨ a ∈ l := by
  intro l
  induction l with
  | nil => intro acc hacc; simp [hacc]
  | cons x xs ih =>
    intro acc hacc
    simp only [List.foldl_cons]
    obtain ⟨h1, h2⟩ := ih (setInsert lt x acc) (pairwise_setInsert lt htrans htri x acc hacc)
    refine ⟨h1, fun a => ?_⟩
    rw [h2, mem_setInsert lt htri, List.mem_cons]
    tauto

theorem Position.lt_irrefl (a : Position) : a.lt a = false := by
  simp [Position.lt]

theorem Position.lt_trans (a b c : Position) (hab : a.lt b = true) (hbc : b.lt c = true) :
    a.lt c = true := by
  simp only [Position.lt, Bool.or_eq_true, decide_eq_true_eq, Bool.and_eq_true] at *
  omega

theorem Position.lt_trichotomy (a b : Position) (hab : a.lt b = false) (hba : b.lt a = false) :
    a = b := by
  obtain ⟨ar, ac⟩ := a
  obtain ⟨br, bc⟩ := b
  simp only [Position.lt, Bool.or_eq_false_iff, decide_eq_false_iff_not,
    Bool.and_eq_false_iff] at hab hba
  simp only [Position.mk.injEq]
  obtain ⟨h1, h2⟩ := hab
  obtain ⟨h3, h4⟩ := hba
  have hr : ar = br := by omega
  refine ⟨hr, ?_⟩
  rcases h2 with h2 | h2
  · exact absurd hr h2
  · rcases h4 with h4 | h4
    · exact absurd hr.symm h4
    · omega

/-- C17: the list returned by `GetReferencedCells` of a formula is strictly increasing in
the order of positions, has no duplicates and has the cells of the parsed expression
as its members; a formula cell returns that list, an empty or text cell the empty
list. -/
theorem getReferencedCells_sorted_unique (api : FormulaAPI F) (f : F) :
    (api.GetReferencedCells f).Pairwise (fun a b => a.lt b = true) ∧
    (api.GetReferencedCells f).Nodup ∧
    (∀ q, q ∈ api.GetReferencedCells f ↔ q ∈ api.GetCells f) ∧
    (∀ addr cache deps,
      (Cell.mk addr (.Formula f cache) deps).GetReferencedCells api
        = api.GetReferencedCells f) ∧
    (∀ addr deps, (Cell.mk addr (.Empty : Impl F) deps).GetReferencedCells api = []) ∧
    (∀ addr text deps, (Cell.mk addr (.Text text : Impl F) deps).GetReferencedCells api = []) := by
  obtain ⟨hsorted, hmem⟩ := setOfList_spec Position.lt Position.lt_trans
    Position.lt_trichotomy (api.GetCells f) [] List.Pairwise.nil
  refine ⟨hsorted, ?_, ?_, fun _ _ _ => rfl, fun _ _ => rfl, fun _ _ _ => rfl⟩
  · refine List.Pairwise.imp ?_ hsorted
    intro a b hab heq
    rw [heq, Position.lt_irrefl] at hab
    cases hab
  · intro q
    have := hmem q
    simpa using this


/-! ## Text cells -/

theorem Impl.eq_Text_of_ClearCache {i : Impl F} {t : String}
    (h : i.ClearCache = (Impl.Text t : Impl F).ClearCache) : i = .Text t := by
  cases i <;> simp_all [Impl.ClearCache]

theorem Cell.Set_plain_text (api : FormulaAPI F)
    (setCell : Sheet F → Position → String → Option Exn × Sheet F)
    (s s' : Sheet F) (pos : Position) (c : Cell F) (t : String) (ht : t ≠ "")
    (hnf : ¬ IsFormulaText t) (hc : s.position_cell pos = some c)
    (hret : Cell.Set api setCell s pos t = (none, s')) :
    (t = c.impl.GetText api ∧ s' = s) ∨
      ∃ d, s'.position_cell pos = some d ∧ d.impl = .Text t := by
  unfold Cell.Set at hret
  rw [hc] at hret
  simp only at hret
  by_cases htext : t = c.impl.GetText api
  · rw [if_pos htext] at hret
    simp only [Prod.mk.injEq, true_and] at hret
    exact Or.inl ⟨htext, hret.symm⟩
  · rw [if_neg htext] at hret
    right
    have hce := Cell.RemoveDependence_coreEq api ⟨pos, c.addr⟩ c s
    cases h1 : Cell.RemoveDependence api ⟨pos, c.addr⟩ c s with
    | mk e1 s1 =>
      rw [h1] at hret hce
      cases e1 with
      | some e => cases hret
      | none =>
        simp only at hret hce
        obtain ⟨c1, hc1, _, _⟩ := hce.cell hc
        cases hdata : t.data with
        | nil => exact absurd (String.ext hdata) ht
        | cons ch rest =>
          rw [hdata] at hret
          simp only at hret
          have hform : ¬ (ch = FORMULA_SIGN ∧ rest ≠ []) := by
            intro h
            exact hnf ⟨rest, by rw [hdata, h.1], h.2⟩
          rw [if_neg hform] at hret
          simp only at hret
          have hcc := Cell.ClearCache_coreEq ((s1.setImpl pos (.Text t)).next + 1)
            ⟨pos, c.addr⟩ (s1.setImpl pos (.Text t))
          rw [hret] at hcc
          have hd : (s1.setImpl pos (.Text t)).position_cell pos
              = some { c1 with impl := .Text t } := by
            rw [Sheet.setImpl_cell]
            simp [hc1]
          obtain ⟨d', hd', _, hdi⟩ := hcc.cell hd
          exact ⟨d', hd', Impl.eq_Text_of_ClearCache hdi⟩

theorem TextImpl.GetValue_eq (t : String) :
    TextImpl.GetValue t =
      .text (if t.data.head? = some ESCAPE_SIGN then String.mk t.data.tail else t) := by
  unfold TextImpl.GetValue
  cases hdata : t.data with
  | nil => simp
  | cons ch rest =>
    by_cases h : ch = ESCAPE_SIGN
    · simp [h]
    · simp [h]

/-- When `SetCell(p, t)` returns normally on a reachable sheet for a non-empty text `t`
that is not a formula text, the cell at `p` reports the text `t` verbatim and the
value `Text` of `t` without its first character if that is the escape sign, and of
`t` itself otherwise. The canonical printing of a formula is assumed not to be empty. -/
theorem Sheet.SetCell_text_spec (api : FormulaAPI F) (s s' : Sheet F) (p : Position)
    (t : String) (hreach : Reachable api s) (hprint : ∀ g, api.PrintFormula g ≠ "")
    (ht : t ≠ "") (hnf : ¬ IsFormulaText t)
    (hret : Sheet.SetCell api s p t = (none, s')) :
    ∃ c, s'.GetCell p = .ok (some c) ∧ c.GetText api = t ∧
      Sheet.CellValue api s' p =
        (.ok (some (.text
          (if t.data.head? = some ESCAPE_SIGN then String.mk t.data.tail else t))), s') := by
  have hinv := Reachable.invariant api hreach
  unfold Sheet.SetCell Sheet.SetCellDepth at hret
  by_cases hp : p.IsValid = true
  · simp only [hp, Bool.not_true, Bool.false_eq_true, if_false] at hret
    obtain ⟨c1, hc1, _, hev, _⟩ := Sheet.reseat_spec api s p
    generalize (match s.position_cell p with
          | none => s.SaveNewCell p
          | some c => if c.IsEmpty = true then s.SaveNewCell p else s) = s1 at hc1 hev hret
    have key : ∃ d, s'.position_cell p = some d ∧ d.impl = .Text t := by
      rcases Cell.Set_plain_text api _ s1 s' p c1 t ht hnf hc1 hret with ⟨htext, hs⟩ | h
      · subst hs
        refine ⟨c1, hc1, ?_⟩
        cases hi : c1.impl with
        | Empty =>
          rw [hi] at htext
          exact absurd htext ht
        | Text t' =>
          rw [hi] at htext
          have : t' = t := htext.symm
          rw [this]
        | Formula g cache =>
          rw [hi] at htext
          exfalso
          have hdata : t.data = FORMULA_SIGN :: (api.PrintFormula g).data := by
            rw [htext]; rfl
          apply hnf
          refine ⟨_, hdata, ?_⟩
          intro h
          exact hprint g (String.ext h)
      · exact h
    obtain ⟨d, hd, hdi⟩ := key
    refine ⟨d, ?_, ?_, ?_⟩
    · unfold Sheet.GetCell
      simp [hp, hd]
    · unfold Cell.GetText
      rw [hdi]
      rfl
    · unfold Sheet.CellValue
      simp only [hp, Bool.not_true, Bool.false_eq_true, if_false, hd]
      unfold Cell.GetValue
      simp only [hd, hdi]
      rw [TextImpl.GetValue_eq]
  · simp [hp] at hret

theorem Sample.print_ne_empty (g : Sample.Formula) : Sample.api.PrintFormula g ≠ "" := by
  intro h
  have hg := g.property
  have h2 : g.val = "" := h
  rw [h2] at hg
  revert hg
  decide



/-! ## Index maps -/

theorem IndexMap.at?_isSome_iff (m : IndexMap) (k : Int) :
    (m.at? k).isSome = true ↔ k ∈ m.map Prod.fst := by
  induction m with
  | nil => simp [IndexMap.at?]
  | cons a rest ih =>
    obtain ⟨k1, s⟩ := a
    unfold IndexMap.at?
    by_cases h : k1 = k
    · simp [h]
    · simp only [h, if_false, ih, List.map_cons, List.mem_cons]
      constructor
      · intro h1; exact Or.inr h1
      · rintro (h1 | h1)
        · exact absurd h1.symm h
        · exact h1

theorem IndexMap.at?_eq_none_iff (m : IndexMap) (k : Int) :
    m.at? k = none ↔ k ∉ m.map Prod.fst := by
  rw [← IndexMap.at?_isSome_iff]
  cases m.at? k <;> simp

theorem IndexMap.keys_insertAt (k v : Int) (m : IndexMap) (x : Int) :
    x ∈ (IndexMap.insertAt k v m).map Prod.fst ↔ x = k ∨ x ∈ m.map Prod.fst := by
  induction m with
  | nil => simp [IndexMap.insertAt]
  | cons a rest ih =>
    obtain ⟨k1, s⟩ := a
    unfold IndexMap.insertAt
    by_cases h1 : k < k1
    · simp [h1]
    · by_cases h2 : k1 < k
      · simp only [h1, h2, if_false, if_true, List.map_cons, List.mem_cons, ih]
        tauto
      · have : k = k1 := by omega
        subst this
        simp [h1]

theorem IndexMap.sorted_insertAt (k v : Int) (m : IndexMap) (hm : m.Sorted) :
    (IndexMap.insertAt k v m).Sorted := by
  induction m with
  | nil => simp [IndexMap.insertAt, IndexMap.Sorted]
  | cons a rest ih =>
    obtain ⟨k1, s⟩ := a
    unfold IndexMap.Sorted at hm ih ⊢
    simp only [List.map_cons, List.pairwise_cons] at hm
    unfold IndexMap.insertAt
    by_cases h1 : k < k1
    · simp only [h1, if_true, List.map_cons, List.pairwise_cons]
      refine ⟨?_, hm⟩
      intro x hx
      rcases List.mem_cons.1 hx with rfl | hx
      · exact h1
      · exact lt_trans h1 (hm.1 x hx)
    · by_cases h2 : k1 < k
      · simp only [h1, h2, if_false, if_true, List.map_cons, List.pairwise_cons]
        refine ⟨?_, ih hm.2⟩
        intro x hx
        rcases (IndexMap.keys_insertAt k v rest x).1 hx with rfl | hx
        · exact h2
        · exact hm.1 x hx
      · simp only [h1, h2, if_false, List.map_cons, List.pairwise_cons]
        exact hm

theorem IndexMap.at?_insertAt (k v : Int) (m : IndexMap) (hm : m.Sorted) (x : Int) :
    (IndexMap.insertAt k v m).at? x =
      if x = k then some (setInsert intLt v ((m.at? k).getD [])) else m.at? x := by
  induction m with
  | nil =>
    by_cases hx : x = k
    · simp [IndexMap.insertAt, IndexMap.at?, hx, setInsert]
    · have : ¬ k = x := fun h => hx h.symm
      simp [IndexMap.insertAt, IndexMap.at?, hx, this]
  | cons a rest ih =>
    obtain ⟨k1, s⟩ := a
    have hm' := hm
    unfold IndexMap.Sorted at hm'
    simp only [List.map_cons, List.pairwise_cons] at hm'
    unfold IndexMap.insertAt
    by_cases h1 : k < k1
    · have hnone : IndexMap.at? ((k1, s) :: rest) k = none := by
        rw [IndexMap.at?_eq_none_iff]
        simp only [List.map_cons, List.mem_cons, not_or]
        refine ⟨by omega, fun hmem => ?_⟩
        have := hm'.1 k hmem
        omega
      simp only [h1, if_true, hnone, Option.getD_none]
      by_cases hx : x = k
      · simp [IndexMap.at?, hx, setInsert]
      · have : ¬ k = x := fun h => hx h.symm
        simp [IndexMap.at?, hx, this]
    · by_cases h2 : k1 < k
      · simp only [h1, h2, if_false, if_true]
        have hk : ¬ k1 = k := by omega
        by_cases hx1 : k1 = x
        · have hxk : ¬ x = k := by omega
          simp [IndexMap.at?, hx1, hxk]
        · simp only [IndexMap.at?, hx1, hk, if_false]
          exact ih hm'.2
      · have hk : k = k1 := by omega
        subst hk
        simp only [h1, if_false]
        by_cases hx : x = k
        · simp [IndexMap.at?, hx]
        · have : ¬ k = x := fun h => hx h.symm
          simp [IndexMap.at?, hx, this]

theorem IndexMap.keys_eraseAt (k v : Int) (m : IndexMap) :
    ((IndexMap.eraseAt k v m).map Prod.fst).Sublist (m.map Prod.fst) := by
  induction m with
  | nil => simp [IndexMap.eraseAt]
  | cons a rest ih =>
    obtain ⟨k1, s⟩ := a
    unfold IndexMap.eraseAt
    by_cases h1 : k1 = k
    · simp only [h1, if_true]
      split
      · exact List.sublist_cons_self _ _
      · exact List.Sublist.refl _
    · simp only [h1, if_false, List.map_cons]
      exact ih.cons₂ _

theorem IndexMap.sorted_eraseAt (k v : Int) (m : IndexMap) (hm : m.Sorted) :
    (IndexMap.eraseAt k v m).Sorted :=
  List.Pairwise.sublist (IndexMap.keys_eraseAt k v m) hm

theorem IndexMap.at?_eraseAt (k v : Int) (m : IndexMap) (hm : m.Sorted) (x : Int) :
    (IndexMap.eraseAt k v m).at? x =
      if x = k then
        (match m.at? k with
         | none => none
         | some set => if setErase intLt v set = [] then none else some (setErase intLt v set))
      else m.at? x := by
  induction m with
  | nil => by_cases hx : x = k <;> simp [IndexMap.eraseAt, IndexMap.at?, hx]
  | cons a rest ih =>
    obtain ⟨k1, s⟩ := a
    have hm' := hm
    unfold IndexMap.Sorted at hm'
    simp only [List.map_cons, List.pairwise_cons] at hm'
    unfold IndexMap.eraseAt
    by_cases h1 : k1 = k
    · subst h1
      have hrest : IndexMap.at? rest k1 = none := by
        rw [IndexMap.at?_eq_none_iff]
        intro hmem
        have := hm'.1 k1 hmem
        omega
      simp only [if_true, IndexMap.at?]
      by_cases hx : x = k1
      · subst hx
        by_cases he : setErase intLt v s = []
        · simp [he, hrest]
        · simp [he, IndexMap.at?]
      · have hx' : ¬ k1 = x := fun h => hx h.symm
        by_cases he : setErase intLt v s = []
        · simp [he, hx, hx']
        · simp [he, hx, hx', IndexMap.at?]
    · simp only [h1, if_false, IndexMap.at?]
      by_cases hx1 : k1 = x
      · have hxk : ¬ x = k := by omega
        simp [hx1, hxk]
      · simp only [hx1, if_false]
        exact ih hm'.2

theorem mem_setErase_int (v a : Int) (l : List Int) :
    a ∈ setErase intLt v l ↔ a ∈ l ∧ a ≠ v := by
  unfold setErase intLt
  simp only [List.mem_filter, Bool.or_eq_true, decide_eq_true_eq]
  constructor
  · rintro ⟨h1, h2⟩; exact ⟨h1, by omega⟩
  · rintro ⟨h1, h2⟩; exact ⟨h1, by omega⟩

theorem mem_setInsert_int (v a : Int) (l : List Int) :
    a ∈ setInsert intLt v l ↔ a = v ∨ a ∈ l := by
  refine mem_setInsert intLt ?_ v a l
  intro x y hxy hyx
  simp only [intLt, decide_eq_false_iff_not] at hxy hyx
  omega

theorem IndexMap.mem_insertAt (k v : Int) (m : IndexMap) (hm : m.Sorted) (x y : Int) :
    (IndexMap.insertAt k v m).Mem x y ↔ (x = k ∧ y = v) ∨ m.Mem x y := by
  unfold IndexMap.Mem
  rw [IndexMap.at?_insertAt k v m hm x]
  by_cases hx : x = k
  · subst hx
    simp only [if_true, Option.some.injEq, exists_eq_left', true_and, mem_setInsert_int]
    cases m.at? x <;> simp
  · simp [hx]

theorem IndexMap.mem_eraseAt (k v : Int) (m : IndexMap) (hm : m.Sorted) (x y : Int) :
    (IndexMap.eraseAt k v m).Mem x y ↔ m.Mem x y ∧ ¬ (x = k ∧ y = v) := by
  unfold IndexMap.Mem
  rw [IndexMap.at?_eraseAt k v m hm x]
  by_cases hx : x = k
  · subst hx
    simp only [if_true, true_and]
    cases hat : m.at? x with
    | none => simp
    | some set =>
      simp only [Option.some.injEq, exists_eq_left']
      by_cases he : setErase intLt v set = []
      · simp only [he, if_true]
        constructor
        · rintro ⟨_, h, _⟩
          cases h
        · rintro ⟨hy, hne⟩
          have : y ∈ setErase intLt v set := (mem_setErase_int v y set).2 ⟨hy, hne⟩
          rw [he] at this
          cases this
      · simp only [he, if_false, Option.some.injEq, exists_eq_left', mem_setErase_int]
  · simp [hx]

theorem IndexMap.nonempty_insertAt (k v : Int) (m : IndexMap) (hm : m.Sorted)
    (hne : ∀ x set, m.at? x = some set → set ≠ []) :
    ∀ x set, (IndexMap.insertAt k v m).at? x = some set → set ≠ [] := by
  intro x set hx
  rw [IndexMap.at?_insertAt k v m hm x] at hx
  by_cases hxk : x = k
  · simp only [hxk, if_true, Option.some.injEq] at hx
    intro h
    have : v ∈ set := by rw [← hx]; exact (mem_setInsert_int v v _).2 (Or.inl rfl)
    rw [h] at this
    cases this
  · simp only [hxk, if_false] at hx
    exact hne x set hx

theorem IndexMap.nonempty_eraseAt (k v : Int) (m : IndexMap) (hm : m.Sorted)
    (hne : ∀ x set, m.at? x = some set → set ≠ []) :
    ∀ x set, (IndexMap.eraseAt k v m).at? x = some set → set ≠ [] := by
  intro x set hx
  rw [IndexMap.at?_eraseAt k v m hm x] at hx
  by_cases hxk : x = k
  · simp only [hxk, if_true] at hx
    cases hat : m.at? k with
    | none => simp [hat] at hx
    | some set0 =>
      simp only [hat] at hx
      by_cases he : setErase intLt v set0 = []
      · simp [he] at hx
      · simp only [he, if_false, Option.some.injEq] at hx
        rw [← hx]
        exact he
  · simp only [hxk, if_false] at hx
    exact hne x set hx


theorem IdxInv.nil : IdxInv [] [] := by
  refine ⟨?_, ?_, ?_, ?_, ?_, ?_⟩
  · simp [IndexMap.Sorted]
  · simp [IndexMap.Sorted]
  · intro r c; simp [IndexMap.Mem, IndexMap.at?]
  · intro r set h; simp [IndexMap.at?] at h
  · intro r set h; simp [IndexMap.at?] at h
  · intro r c h; simp [IndexMap.Mem, IndexMap.at?] at h

theorem IdxInv.insert {rows cols : IndexMap} (h : IdxInv rows cols) (r c : Int)
    (hr : 0 ≤ r) (hc : 0 ≤ c) : IdxInv (rows.insertAt r c) (cols.insertAt c r) := by
  refine ⟨IndexMap.sorted_insertAt r c rows h.rows_sorted,
    IndexMap.sorted_insertAt c r cols h.cols_sorted, ?_,
    IndexMap.nonempty_insertAt r c rows h.rows_sorted h.rows_nonempty,
    IndexMap.nonempty_insertAt c r cols h.cols_sorted h.cols_nonempty, ?_⟩
  · intro x y
    rw [IndexMap.mem_insertAt r c rows h.rows_sorted, IndexMap.mem_insertAt c r cols h.cols_sorted,
      h.consistent x y]
    tauto
  · intro x y hxy
    rw [IndexMap.mem_insertAt r c rows h.rows_sorted] at hxy
    rcases hxy with ⟨rfl, rfl⟩ | hxy
    · exact ⟨hr, hc⟩
    · exact h.nonneg x y hxy

theorem IdxInv.eraseBoth {rows cols : IndexMap} (h : IdxInv rows cols) (r c : Int) :
    IdxInv (rows.eraseAt r c) (cols.eraseAt c r) := by
  refine ⟨IndexMap.sorted_eraseAt r c rows h.rows_sorted,
    IndexMap.sorted_eraseAt c r cols h.cols_sorted, ?_,
    IndexMap.nonempty_eraseAt r c rows h.rows_sorted h.rows_nonempty,
    IndexMap.nonempty_eraseAt c r cols h.cols_sorted h.cols_nonempty, ?_⟩
  · intro x y
    rw [IndexMap.mem_eraseAt r c rows h.rows_sorted, IndexMap.mem_eraseAt c r cols h.cols_sorted,
      h.consistent x y]
    tauto
  · intro x y hxy
    rw [IndexMap.mem_eraseAt r c rows h.rows_sorted] at hxy
    exact h.nonneg x y hxy.1

theorem IdxInv.eraseRowOnly {rows cols : IndexMap} (h : IdxInv rows cols) (r c : Int)
    (hcol : cols.at? c = none) : IdxInv (rows.eraseAt r c) cols := by
  have hnot : ¬ rows.Mem r c := by
    rw [h.consistent]
    rintro ⟨set, hset, _⟩
    rw [hcol] at hset
    cases hset
  refine ⟨IndexMap.sorted_eraseAt r c rows h.rows_sorted, h.cols_sorted, ?_,
    IndexMap.nonempty_eraseAt r c rows h.rows_sorted h.rows_nonempty, h.cols_nonempty, ?_⟩
  · intro x y
    rw [IndexMap.mem_eraseAt r c rows h.rows_sorted, ← h.consistent x y]
    constructor
    · exact fun hxy => hxy.1
    · intro hxy
      refine ⟨hxy, ?_⟩
      rintro ⟨rfl, rfl⟩
      exact hnot hxy
  · intro x y hxy
    rw [IndexMap.mem_eraseAt r c rows h.rows_sorted] at hxy
    exact h.nonneg x y hxy.1

theorem IndexMap.getLast?_spec (m : IndexMap) (hm : m.Sorted) (k : Int) (set : List Int)
    (hlast : m.getLast? = some (k, set)) :
    m.at? k = some set ∧ ∀ x, (m.at? x).isSome = true → x ≤ k := by
  induction m with
  | nil => simp at hlast
  | cons a rest ih =>
    obtain ⟨k1, s⟩ := a
    have hm' := hm
    unfold IndexMap.Sorted at hm'
    simp only [List.map_cons, List.pairwise_cons] at hm'
    cases rest with
    | nil =>
      simp only [List.getLast?_singleton, Option.some.injEq, Prod.mk.injEq] at hlast
      obtain ⟨rfl, rfl⟩ := hlast
      refine ⟨by simp [IndexMap.at?], ?_⟩
      intro x hx
      rw [IndexMap.at?_isSome_iff] at hx
      simp at hx
      omega
    | cons b rest2 =>
      rw [List.getLast?_cons_cons] at hlast
      obtain ⟨h1, h2⟩ := ih hm'.2 hlast
      have hkmem : k ∈ (b :: rest2).map Prod.fst := by
        rw [← IndexMap.at?_isSome_iff, h1]
        rfl
      have hlt : k1 < k := hm'.1 k hkmem
      refine ⟨?_, ?_⟩
      · have hne : ¬ k1 = k := by omega
        show IndexMap.at? ((k1, s) :: b :: rest2) k = some set
        rw [IndexMap.at?]
        simp only [hne, if_false]
        exact h1
      · intro x hx
        rw [IndexMap.at?_isSome_iff] at hx
        simp only [List.map_cons, List.mem_cons] at hx
        rcases hx with rfl | hx
        · omega
        · exact h2 x (by
            rw [IndexMap.at?_isSome_iff]
            simpa using hx)

theorem IndexMap.exists_mem_of_at? {m : IndexMap} {k : Int} {set : List Int}
    (h : m.at? k = some set) (hne : set ≠ []) : ∃ v, m.Mem k v := by
  cases set with
  | nil => exact absurd rfl hne
  | cons v rest => exact ⟨v, v :: rest, h, List.mem_cons_self _ _⟩

/-- The shape of the printable size when the indices are consistent. -/
theorem IdxInv.printableSize {s : Sheet F} (h : s.IndexOK) :
    s.GetPrintableSize = (0, 0) ∨
      ∃ R C, s.GetPrintableSize = (R + 1, C + 1) ∧ 0 ≤ R ∧ 0 ≤ C ∧
        (s.row_cell.at? R).isSome = true ∧ (∀ r, (s.row_cell.at? r).isSome = true → r ≤ R) ∧
        (s.col_cell.at? C).isSome = true ∧ (∀ c, (s.col_cell.at? c).isSome = true → c ≤ C) := by
  unfold Sheet.IndexOK at h
  unfold Sheet.GetPrintableSize
  cases hr : s.row_cell.getLast? with
  | none =>
    have hrows : s.row_cell = [] := List.getLast?_eq_none_iff.1 hr
    cases hc : s.col_cell.getLast? with
    | none => exact Or.inl rfl
    | some last =>
      exfalso
      obtain ⟨C, set⟩ := last
      obtain ⟨h1, _⟩ := IndexMap.getLast?_spec _ h.cols_sorted C set hc
      obtain ⟨v, hv⟩ := IndexMap.exists_mem_of_at? h1 (h.cols_nonempty C set h1)
      rw [← h.consistent, hrows] at hv
      simp [IndexMap.Mem, IndexMap.at?] at hv
  | some lastr =>
    obtain ⟨R, setR⟩ := lastr
    obtain ⟨hR1, hR2⟩ := IndexMap.getLast?_spec _ h.rows_sorted R setR hr
    obtain ⟨v, hv⟩ := IndexMap.exists_mem_of_at? hR1 (h.rows_nonempty R setR hR1)
    have hvc := (h.consistent R v).1 hv
    cases hc : s.col_cell.getLast? with
    | none =>
      exfalso
      have hcols : s.col_cell = [] := List.getLast?_eq_none_iff.1 hc
      rw [hcols] at hvc
      simp [IndexMap.Mem, IndexMap.at?] at hvc
    | some lastc =>
      obtain ⟨C, setC⟩ := lastc
      obtain ⟨hC1, hC2⟩ := IndexMap.getLast?_spec _ h.cols_sorted C setC hc
      obtain ⟨w, hw⟩ := IndexMap.exists_mem_of_at? hC1 (h.cols_nonempty C setC hC1)
      have hwr := (h.consistent w C).2 hw
      right
      refine ⟨R, C, rfl, (h.nonneg R v hv).1, (h.nonneg w C hwr).2, ?_, hR2, ?_, hC2⟩
      · rw [hR1]; rfl
      · rw [hC1]; rfl


/-! ## The indices along the operations -/

theorem Sheet.SameIndex.rfl_index (s : Sheet F) : s.SameIndex s := ⟨rfl, rfl⟩

theorem Sheet.SameIndex.then_index {s1 s2 s3 : Sheet F} (h12 : s1.SameIndex s2)
    (h23 : s2.SameIndex s3) : s1.SameIndex s3 :=
  ⟨h23.1.trans h12.1, h23.2.trans h12.2⟩

theorem Sheet.SameIndex.of_store (s : Sheet F) (pos : Position) (c : Option (Cell F)) :
    s.SameIndex (s.store pos c) := ⟨rfl, rfl⟩

theorem Sheet.SameIndex.of_setImpl_index (s : Sheet F) (pos : Position) (impl : Impl F) :
    s.SameIndex (s.setImpl pos impl) := by
  unfold Sheet.setImpl
  cases s.position_cell pos
  · exact ⟨rfl, rfl⟩
  · exact ⟨rfl, rfl⟩

theorem Cell.RemoveDependence_index (api : FormulaAPI F) (this : Ptr) (c : Cell F)
    (s : Sheet F) : s.SameIndex (Cell.RemoveDependence api this c s).2 := by
  unfold Cell.RemoveDependence
  refine forEach_rel Sheet.SameIndex Sheet.SameIndex.rfl_index
    (fun _ _ _ => Sheet.SameIndex.then_index) _ ?_ _ s
  intro pos s1
  cases h : s1.position_cell pos with
  | none => exact Sheet.SameIndex.rfl_index s1
  | some cell => exact Sheet.SameIndex.of_store s1 pos _

theorem Cell.addReferences_index (this : Ptr) (refs : List Position) (s : Sheet F) :
    s.SameIndex (Cell.addReferences this refs s).2 := by
  unfold Cell.addReferences
  refine forEach_rel Sheet.SameIndex Sheet.SameIndex.rfl_index
    (fun _ _ _ => Sheet.SameIndex.then_index) _ ?_ _ s
  intro pos s1
  cases h : s1.position_cell pos with
  | none => exact Sheet.SameIndex.rfl_index s1
  | some cell => exact Sheet.SameIndex.of_store s1 pos _

theorem Cell.ClearCache_index : ∀ (fuel : Nat) (this : Ptr) (s : Sheet F),
    s.SameIndex (Cell.ClearCache fuel this s).2 := by
  intro fuel
  induction fuel with
  | zero => intro this s; exact Sheet.SameIndex.rfl_index s
  | succ fuel ih =>
    intro this s
    unfold Cell.ClearCache
    cases hd : s.deref this with
    | none => exact Sheet.SameIndex.rfl_index s
    | some c =>
      simp only
      split
      · exact Sheet.SameIndex.then_index (Sheet.SameIndex.of_setImpl_index s _ _)
          (forEach_rel Sheet.SameIndex Sheet.SameIndex.rfl_index
            (fun _ _ _ => Sheet.SameIndex.then_index) _ (fun cell s1 => ih cell s1) _ _)
      · exact Sheet.SameIndex.rfl_index s

theorem Cell.GetValue_index (api : FormulaAPI F) : ∀ (fuel : Nat) (s : Sheet F)
    (pos : Position), s.SameIndex (Cell.GetValue api fuel s pos).2 := by
  intro fuel
  induction fuel with
  | zero => intro s pos; exact Sheet.SameIndex.rfl_index s
  | succ fuel ih =>
    intro s pos
    unfold Cell.GetValue
    cases hc : s.position_cell pos with
    | none => exact Sheet.SameIndex.rfl_index s
    | some c =>
      simp only
      cases hi : c.impl with
      | Empty => exact Sheet.SameIndex.rfl_index s
      | Text t => exact Sheet.SameIndex.rfl_index s
      | Formula f cache =>
        cases cache with
        | some v => exact Sheet.SameIndex.rfl_index s
        | none =>
          simp only
          have h1 : s.SameIndex (runExec (Sheet.GetValueWith
              (fun s1 q => Cell.GetValue api fuel s1 q)) (api.Execute f) s).2 :=
            runExec_rel Sheet.SameIndex Sheet.SameIndex.rfl_index
              (fun _ _ _ => Sheet.SameIndex.then_index) _
              (fun s1 q => Sheet.GetValueWith_rel Sheet.SameIndex Sheet.SameIndex.rfl_index _
                (fun s2 q2 => ih s2 q2) s1 q) _ s
          cases hr : runExec (Sheet.GetValueWith
              (fun s1 q => Cell.GetValue api fuel s1 q)) (api.Execute f) s with
          | mk r s1 =>
            rw [hr] at h1
            cases r with
            | error e => exact h1
            | ok result =>
              exact h1.then_index (Sheet.SameIndex.of_setImpl_index s1 _ _)

theorem Sheet.CellValue_index (api : FormulaAPI F) (s : Sheet F) (pos : Position) :
    s.SameIndex (Sheet.CellValue api s pos).2 := by
  unfold Sheet.CellValue
  split
  · exact Sheet.SameIndex.rfl_index s
  · split
    · exact Sheet.SameIndex.rfl_index s
    · have h1 := Cell.GetValue_index api (s.next + 1) s pos
      cases hg : Cell.GetValue api (s.next + 1) s pos with
      | mk r s1 =>
        rw [hg] at h1
        cases r <;> exact h1

theorem Sheet.IndexGrown.of_quiet {s s' : Sheet F} (hi : s.SameIndex s') (hc : s.CoreEq s') :
    s.IndexGrown s' :=
  ⟨[], by simp, hi.1, hi.2, fun q hq => by rw [hc.isSome]; exact hq, by simp,
    fun q hq => Or.inl (by rw [← hc.isSome]; exact hq)⟩

theorem Sheet.IndexGrown.none_added (s : Sheet F) : s.IndexGrown s :=
  ⟨[], by simp, rfl, rfl, fun _ hq => hq, by simp, fun _ hq => Or.inl hq⟩

theorem Sheet.IndexGrown.compose {s1 s2 s3 : Sheet F} (h12 : s1.IndexGrown s2)
    (h23 : s2.IndexGrown s3) : s1.IndexGrown s3 := by
  obtain ⟨qs1, hv1, hr1, hc1, hm1, hn1, hp1⟩ := h12
  obtain ⟨qs2, hv2, hr2, hc2, hm2, hn2, hp2⟩ := h23
  refine ⟨qs1 ++ qs2, ?_, ?_, ?_, fun q hq => hm2 q (hm1 q hq), ?_, ?_⟩
  · intro q hq
    rcases List.mem_append.1 hq with hq | hq
    · exact hv1 q hq
    · refine ⟨(hv2 q hq).1, ?_⟩
      cases hs : s1.position_cell q with
      | none => rfl
      | some c =>
        have h2 := hm1 q (by simp [hs])
        rw [(hv2 q hq).2] at h2
        cases h2
  · rw [hr2, hr1]
    simp [IndexMap.insertRows, List.foldl_append]
  · rw [hc2, hc1]
    simp [IndexMap.insertCols, List.foldl_append]
  · intro q hq
    rcases List.mem_append.1 hq with hq | hq
    · exact hm2 q (hn1 q hq)
    · exact hn2 q hq
  · intro q hq
    rcases hp2 q hq with h | h
    · rcases hp1 q h with h | h
      · exact Or.inl h
      · exact Or.inr (List.mem_append.2 (Or.inl h))
    · exact Or.inr (List.mem_append.2 (Or.inr h))

theorem Sheet.IndexGrown.save (s : Sheet F) (pos : Position) (hv : pos.IsValid = true)
    (habs : s.position_cell pos = none) : s.IndexGrown (s.SaveNewCell pos) := by
  refine ⟨[pos], by simpa using ⟨hv, habs⟩, rfl, rfl, ?_, ?_, ?_⟩
  · intro q hq
    rw [Sheet.SaveNewCell_cell]
    by_cases h : q = pos
    · simp [h]
    · simpa [h] using hq
  · intro q hq
    rw [List.mem_singleton] at hq
    simp [hq]
  · intro q hq
    rw [Sheet.SaveNewCell_cell] at hq
    by_cases h : q = pos
    · exact Or.inr (by simp [h])
    · simp only [h, if_false] at hq
      exact Or.inl hq

theorem Sheet.IndexGrown.of_setImpl_grown (s : Sheet F) (pos : Position) (impl : Impl F) :
    s.IndexGrown (s.setImpl pos impl) := by
  have hsame : ∀ q, ((s.setImpl pos impl).position_cell q).isSome =
      (s.position_cell q).isSome := by
    intro q
    rw [Sheet.setImpl_cell]
    by_cases h : q = pos
    · simp [h]
    · simp [h]
  exact ⟨[], by simp, (Sheet.SameIndex.of_setImpl_index s pos impl).1,
    (Sheet.SameIndex.of_setImpl_index s pos impl).2, fun q hq => by rw [hsame]; exact hq,
    by simp, fun q hq => Or.inl (by rw [← hsame]; exact hq)⟩

theorem Sheet.GetOrCreate_grown
    {setCell : Sheet F → Position → String → Option Exn × Sheet F} (hcb : BlankOK setCell)
    (s : Sheet F) (pos : Position) : s.IndexGrown (Sheet.GetOrCreate setCell s pos).2 := by
  cases hc : s.position_cell pos with
  | some c =>
    rw [Sheet.GetOrCreate_present setCell hc]
    exact Sheet.IndexGrown.none_added s
  | none =>
    rw [Sheet.GetOrCreate_absent hcb hc]
    by_cases hv : pos.IsValid = true
    · rw [if_pos hv]
      exact Sheet.IndexGrown.save s pos hv hc
    · rw [if_neg hv]
      exact Sheet.IndexGrown.none_added s

theorem Cell.cellsToCheck_grown
    {setCell : Sheet F → Position → String → Option Exn × Sheet F} (hcb : BlankOK setCell) :
    ∀ (qs : List Position) (s : Sheet F), s.IndexGrown (Cell.cellsToCheck setCell qs s).2 := by
  intro qs
  induction qs with
  | nil => intro s; exact Sheet.IndexGrown.none_added s
  | cons q qs ih =>
    intro s
    unfold Cell.cellsToCheck
    have h1 := Sheet.GetOrCreate_grown hcb s q
    cases hg : Sheet.GetOrCreate setCell s q with
    | mk r1 s1 =>
      rw [hg] at h1
      cases r1 with
      | error e => exact h1
      | ok ptr =>
        simp only
        have h2 := ih s1
        cases hg2 : Cell.cellsToCheck setCell qs s1 with
        | mk r2 s2 =>
          rw [hg2] at h2
          cases r2 <;> exact h1.compose h2

theorem Cell.SetFormula_grown (api : FormulaAPI F)
    {setCell : Sheet F → Position → String → Option Exn × Sheet F} (hcb : BlankOK setCell)
    (this : Ptr) (expression : String) (s : Sheet F) :
    s.IndexGrown (Cell.SetFormula api setCell this expression s).2 := by
  unfold Cell.SetFormula
  cases hparse : api.ParseFormulaAST expression with
  | none => exact Sheet.IndexGrown.none_added s
  | some f =>
    simp only
    have h1 : s.IndexGrown
        (Cell.resolveAndCheck api setCell this (api.GetReferencedCells f) s).2 := by
      unfold Cell.resolveAndCheck
      split
      · exact Sheet.IndexGrown.none_added s
      · have h := Cell.cellsToCheck_grown hcb (api.GetReferencedCells f) s
        cases hg : Cell.cellsToCheck setCell (api.GetReferencedCells f) s with
        | mk r1 s1 =>
          rw [hg] at h
          cases r1 <;> exact h
    cases hr : Cell.resolveAndCheck api setCell this (api.GetReferencedCells f) s with
    | mk e1 s1 =>
      rw [hr] at h1
      cases e1 with
      | some e => exact h1
      | none =>
        simp only
        have h2 := Sheet.IndexGrown.of_quiet
          (Cell.addReferences_index this (api.GetReferencedCells f) s1)
          (Cell.addReferences_coreEq this (api.GetReferencedCells f) s1)
        cases ha : Cell.addReferences this (api.GetReferencedCells f) s1 with
        | mk e2 s2 =>
          rw [ha] at h2
          cases e2 with
          | some e => exact h1.compose h2
          | none =>
            exact (h1.compose h2).compose (Sheet.IndexGrown.of_setImpl_grown s2 _ _)

theorem Cell.Set_grown (api : FormulaAPI F)
    {setCell : Sheet F → Position → String → Option Exn × Sheet F} (hcb : BlankOK setCell)
    (s : Sheet F) (pos : Position) (text : String) :
    s.IndexGrown (Cell.Set api setCell s pos text).2 := by
  unfold Cell.Set
  cases hc : s.position_cell pos with
  | none => exact Sheet.IndexGrown.none_added s
  | some c =>
    simp only
    split
    · exact Sheet.IndexGrown.none_added s
    · have h1 := Sheet.IndexGrown.of_quiet
        (Cell.RemoveDependence_index api ⟨pos, c.addr⟩ c s)
        (Cell.RemoveDependence_coreEq api ⟨pos, c.addr⟩ c s)
      cases hr : Cell.RemoveDependence api ⟨pos, c.addr⟩ c s with
      | mk e1 s1 =>
        rw [hr] at h1
        cases e1 with
        | some e => exact h1
        | none =>
          simp only
          have hinst : s.IndexGrown
              (match text.data with
                | [] => ((none : Option Exn), s1.setImpl pos .Empty)
                | ch :: rest =>
                  if ch = FORMULA_SIGN ∧ rest ≠ [] then
                    Cell.SetFormula api setCell ⟨pos, c.addr⟩ (String.mk rest) s1
                  else (none, s1.setImpl pos (.Text text))).2 := by
            cases hdata : text.data with
            | nil => exact h1.compose (Sheet.IndexGrown.of_setImpl_grown s1 _ _)
            | cons ch rest =>
              simp only
              split
              · exact h1.compose (Cell.SetFormula_grown api hcb _ _ s1)
              · exact h1.compose (Sheet.IndexGrown.of_setImpl_grown s1 _ _)
          cases h2 : (match text.data with
                | [] => ((none : Option Exn), s1.setImpl pos .Empty)
                | ch :: rest =>
                  if ch = FORMULA_SIGN ∧ rest ≠ [] then
                    Cell.SetFormula api setCell ⟨pos, c.addr⟩ (String.mk rest) s1
                  else (none, s1.setImpl pos (.Text text))) with
          | mk e2 s2 =>
            rw [h2] at hinst
            cases e2 with
            | some e => exact hinst
            | none =>
              exact hinst.compose (Sheet.IndexGrown.of_quiet
                (Cell.ClearCache_index _ _ s2) (Cell.ClearCache_coreEq _ _ s2))

theorem Sheet.SetCell_eq_seat (api : FormulaAPI F) (s : Sheet F) (pos : Position)
    (text : String) :
    Sheet.SetCell api s pos text =
      if (!pos.IsValid) = true then (some .InvalidPositionException, s)
      else Cell.Set api (Sheet.SetCellDepth api 1) (s.seat pos) pos text := rfl

theorem Sheet.SetCell_grown (api : FormulaAPI F) (s : Sheet F) (pos : Position)
    (text : String) (hv : pos.IsValid = true) :
    (s.seat pos).IndexGrown (Sheet.SetCell api s pos text).2 := by
  rw [Sheet.SetCell_eq_seat]
  simp only [hv, Bool.not_true, Bool.false_eq_true, if_false]
  exact Cell.Set_grown api (Sheet.SetCellDepth_blank api 0) _ pos text

theorem Sheet.seat_index (s : Sheet F) (pos : Position) :
    ((s.seat pos).row_cell = s.row_cell ∧ (s.seat pos).col_cell = s.col_cell) ∨
    ((s.seat pos).row_cell = s.row_cell.insertAt pos.row pos.col ∧
      (s.seat pos).col_cell = s.col_cell.insertAt pos.col pos.row) := by
  unfold Sheet.seat
  split
  · exact Or.inr ⟨rfl, rfl⟩
  · split
    · exact Or.inr ⟨rfl, rfl⟩
    · exact Or.inl ⟨rfl, rfl⟩


/-! ## The index invariant on every reachable sheet -/

theorem Position.nonneg_of_valid {p : Position} (h : p.IsValid = true) :
    0 ≤ p.row ∧ 0 ≤ p.col := by
  unfold Position.IsValid at h
  simp only [Bool.and_eq_true, decide_eq_true_eq] at h
  exact ⟨h.1.1.1, h.1.1.2⟩

theorem IdxInv.insertAll : ∀ (qs : List Position) {rows cols : IndexMap},
    IdxInv rows cols → (∀ q ∈ qs, q.IsValid = true) →
    IdxInv (rows.insertRows qs) (cols.insertCols qs) ∧
      (∀ r c, rows.Mem r c → (rows.insertRows qs).Mem r c) ∧
      (∀ q ∈ qs, (rows.insertRows qs).Mem q.row q.col) := by
  intro qs
  induction qs with
  | nil =>
    intro rows cols h _
    exact ⟨h, fun _ _ hm => hm, fun q hq => by cases hq⟩
  | cons q qs ih =>
    intro rows cols h hv
    have hq := Position.nonneg_of_valid (hv q (List.mem_cons_self _ _))
    have h1 := h.insert q.row q.col hq.1 hq.2
    obtain ⟨h2, hmono, hnew⟩ := ih h1 (fun x hx => hv x (List.mem_cons_of_mem _ hx))
    refine ⟨h2, ?_, ?_⟩
    · intro r c hm
      exact hmono r c ((IndexMap.mem_insertAt q.row q.col rows h.rows_sorted r c).2 (Or.inr hm))
    · intro x hx
      rcases List.mem_cons.1 hx with rfl | hx
      · exact hmono _ _ ((IndexMap.mem_insertAt x.row x.col rows h.rows_sorted _ _).2
          (Or.inl ⟨rfl, rfl⟩))
      · exact hnew x hx

theorem Sheet.IndexGrown.grown_indexOK {s s' : Sheet F} (hg : s.IndexGrown s') (h : s.IndexOK) :
    s'.IndexOK := by
  obtain ⟨qs, hv, hr, hc, _⟩ := hg
  unfold Sheet.IndexOK
  rw [hr, hc]
  exact (IdxInv.insertAll qs h (fun q hq => (hv q hq).1)).1

theorem Sheet.SameIndex.same_indexOK {s s' : Sheet F} (hg : s.SameIndex s') (h : s.IndexOK) :
    s'.IndexOK := by
  unfold Sheet.IndexOK
  rw [hg.1, hg.2]
  exact h

theorem Sheet.ClearCell_indexOK (api : FormulaAPI F) (s : Sheet F) (pos : Position)
    (h : s.IndexOK) : (Sheet.ClearCell api s pos).2.IndexOK := by
  unfold Sheet.ClearCell
  split
  · exact h
  · cases hc : s.position_cell pos with
    | none => exact h
    | some c =>
      simp only
      have h1 : (if (!c.IsReferenced) = true then ((none : Option Exn), s.store pos none)
          else Cell.Set api (Sheet.SetCell api) s pos "").2.IndexOK := by
        split
        · exact (Sheet.SameIndex.of_store s pos none).same_indexOK h
        · exact (Cell.Set_grown api (Sheet.SetCellDepth_blank api 1) s pos "").grown_indexOK h
      cases hcl : (if (!c.IsReferenced) = true then ((none : Option Exn), s.store pos none)
          else Cell.Set api (Sheet.SetCell api) s pos "") with
      | mk e1 s1 =>
        rw [hcl] at h1
        cases e1 with
        | some e => exact h1
        | none =>
          simp only
          cases hrow : s1.row_cell.at? pos.row with
          | none => exact h1
          | some set =>
            simp only
            cases hcol : s1.col_cell.at? pos.col with
            | none => exact IdxInv.eraseRowOnly h1 pos.row pos.col hcol
            | some set2 => exact IdxInv.eraseBoth h1 pos.row pos.col

theorem Sheet.seat_indexOK (s : Sheet F) (pos : Position) (hv : pos.IsValid = true)
    (h : s.IndexOK) : (s.seat pos).IndexOK := by
  unfold Sheet.IndexOK
  rcases Sheet.seat_index s pos with ⟨hr, hc⟩ | ⟨hr, hc⟩
  · rw [hr, hc]; exact h
  · rw [hr, hc]
    exact IdxInv.insert h pos.row pos.col (Position.nonneg_of_valid hv).1
      (Position.nonneg_of_valid hv).2

theorem Sheet.apply_indexOK (api : FormulaAPI F) (s : Sheet F) (op : Op) (h : s.IndexOK) :
    (Sheet.apply api s op).2.IndexOK := by
  cases op with
  | SetCell pos text =>
    by_cases hv : pos.IsValid = true
    · exact (Sheet.SetCell_grown api s pos text hv).grown_indexOK (Sheet.seat_indexOK s pos hv h)
    · show (Sheet.SetCell api s pos text).2.IndexOK
      rw [Sheet.SetCell_eq_seat]
      simp only [hv, Bool.not_false, if_true]
      exact h
  | ClearCell pos => exact Sheet.ClearCell_indexOK api s pos h
  | GetValue pos =>
    have h1 := (Sheet.CellValue_index api s pos).same_indexOK h
    show (match Sheet.CellValue api s pos with
      | (.error e, s1) => ((some e : Option Exn), s1)
      | (.ok _, s1) => (none, s1)).2.IndexOK
    cases hv : Sheet.CellValue api s pos with
    | mk r s1 =>
      rw [hv] at h1
      cases r <;> exact h1

theorem Reachable.indexOK {api : FormulaAPI F} {s : Sheet F} (h : Reachable api s) :
    s.IndexOK := by
  induction h with
  | init => exact IdxInv.nil
  | call s op _ ih => exact Sheet.apply_indexOK api s op ih


/-! ## The indices and the printable size (C14, C20) -/

theorem IndexMap.at?_of_mem {m : IndexMap} (hm : m.Sorted) {k : Int} {set : List Int}
    (h : (k, set) ∈ m) : m.at? k = some set := by
  induction m with
  | nil => cases h
  | cons a rest ih =>
    obtain ⟨k1, s1⟩ := a
    unfold IndexMap.Sorted at hm
    simp only [List.map_cons, List.pairwise_cons] at hm
    unfold IndexMap.at?
    rcases List.mem_cons.1 h with heq | hrest
    · cases heq
      simp
    · have hlt : k1 < k := hm.1 k (List.mem_map.2 ⟨(k, set), hrest, rfl⟩)
      rw [if_neg (by omega)]
      exact ih hm.2 hrest

/-- C20: in every reachable sheet each index holds every key once (keys strictly
increasing), column `c` is in the row index's set for row `r` if and only if row `r` is
in the column index's set for column `c`, neither index stores an empty set, and
`GetPrintableSize()` is `(0, 0)` or has both components positive and equal to the largest
indexed row plus one and the largest indexed column plus one. -/
theorem index_consistency (api : FormulaAPI F) (s : Sheet F) (hreach : Reachable api s) :
    s.row_cell.Sorted ∧ s.col_cell.Sorted ∧
    (∀ r c, s.row_cell.Mem r c ↔ s.col_cell.Mem c r) ∧
    (∀ e ∈ s.row_cell, e.2 ≠ []) ∧ (∀ e ∈ s.col_cell, e.2 ≠ []) ∧
    (s.GetPrintableSize = (0, 0) ∨
      ∃ R C, s.GetPrintableSize = (R + 1, C + 1) ∧ 0 < R + 1 ∧ 0 < C + 1 ∧
        R ∈ s.row_cell.map Prod.fst ∧ (∀ r ∈ s.row_cell.map Prod.fst, r ≤ R) ∧
        C ∈ s.col_cell.map Prod.fst ∧ (∀ c ∈ s.col_cell.map Prod.fst, c ≤ C)) := by
  have h := hreach.indexOK
  refine ⟨h.rows_sorted, h.cols_sorted, h.consistent, ?_, ?_, ?_⟩
  · rintro ⟨k, set⟩ he
    exact h.rows_nonempty k set (IndexMap.at?_of_mem h.rows_sorted he)
  · rintro ⟨k, set⟩ he
    exact h.cols_nonempty k set (IndexMap.at?_of_mem h.cols_sorted he)
  · rcases IdxInv.printableSize h with h0 | ⟨R, C, hsz, hR, hC, hRin, hRmax, hCin, hCmax⟩
    · exact Or.inl h0
    · refine Or.inr ⟨R, C, hsz, by omega, by omega, (IndexMap.at?_isSome_iff _ _).1 hRin,
        fun r hr => hRmax r ((IndexMap.at?_isSome_iff _ _).2 hr),
        (IndexMap.at?_isSome_iff _ _).1 hCin,
        fun c hc => hCmax c ((IndexMap.at?_isSome_iff _ _).2 hc)⟩

/-- Witness of C20: the sheet left by `SetCell(A1, "=B1")`, `ClearCell(B1)` and a second
`ClearCell(B1)`, which raises. -/
theorem index_consistency_witness :
    Reachable Sample.api (Sample.sheetAfter
      [.SetCell Sample.A1 "=B1", .ClearCell Sample.B1, .ClearCell Sample.B1]) ∧
    ((Sample.sheetAfter
      [.SetCell Sample.A1 "=B1", .ClearCell Sample.B1, .ClearCell Sample.B1]).row_cell.Sorted ∧
    (Sample.sheetAfter
      [.SetCell Sample.A1 "=B1", .ClearCell Sample.B1, .ClearCell Sample.B1]).col_cell.Sorted ∧
    (∀ r c, (Sample.sheetAfter
      [.SetCell Sample.A1 "=B1", .ClearCell Sample.B1, .ClearCell Sample.B1]).row_cell.Mem r c ↔
      (Sample.sheetAfter
      [.SetCell Sample.A1 "=B1", .ClearCell Sample.B1, .ClearCell Sample.B1]).col_cell.Mem c r) ∧
    (∀ e ∈ (Sample.sheetAfter
      [.SetCell Sample.A1 "=B1", .ClearCell Sample.B1, .ClearCell Sample.B1]).row_cell, e.2 ≠ []) ∧
    (∀ e ∈ (Sample.sheetAfter
      [.SetCell Sample.A1 "=B1", .ClearCell Sample.B1, .ClearCell Sample.B1]).col_cell, e.2 ≠ []) ∧
    ((Sample.sheetAfter
      [.SetCell Sample.A1 "=B1", .ClearCell Sample.B1, .ClearCell Sample.B1]).GetPrintableSize = (0, 0) ∨
      ∃ R C, (Sample.sheetAfter
      [.SetCell Sample.A1 "=B1", .ClearCell Sample.B1, .ClearCell Sample.B1]).GetPrintableSize = (R + 1, C + 1) ∧ 0 < R + 1 ∧ 0 < C + 1 ∧
        R ∈ (Sample.sheetAfter
      [.SetCell Sample.A1 "=B1", .ClearCell Sample.B1, .ClearCell Sample.B1]).row_cell.map Prod.fst ∧
        (∀ r ∈ (Sample.sheetAfter
      [.SetCell Sample.A1 "=B1", .ClearCell Sample.B1, .ClearCell Sample.B1]).row_cell.map Prod.fst, r ≤ R) ∧
        C ∈ (Sample.sheetAfter
      [.SetCell Sample.A1 "=B1", .ClearCell Sample.B1, .ClearCell Sample.B1]).col_cell.map Prod.fst ∧
        (∀ c ∈ (Sample.sheetAfter
      [.SetCell Sample.A1 "=B1", .ClearCell Sample.B1, .ClearCell Sample.B1]).col_cell.map Prod.fst, c ≤ C))) :=
  ⟨Sample.reachable _, index_consistency Sample.api _ (Sample.reachable _)⟩


/-! ## A formula text that does not parse -/

theorem Sheet.SameButDeps.same_deps (this : Ptr) (s : Sheet F) : s.SameButDeps this s :=
  ⟨rfl, rfl, rfl, fun _ h => h, fun _ c h => ⟨c, h, rfl, rfl, Or.inl rfl⟩⟩

theorem Sheet.SameButDeps.then_deps {this : Ptr} {s1 s2 s3 : Sheet F}
    (h12 : s1.SameButDeps this s2) (h23 : s2.SameButDeps this s3) : s1.SameButDeps this s3 := by
  obtain ⟨hr1, hc1, hn1, ha1, hp1⟩ := h12
  obtain ⟨hr2, hc2, hn2, ha2, hp2⟩ := h23
  refine ⟨hr2.trans hr1, hc2.trans hc1, hn2.trans hn1, fun q h => ha2 q (ha1 q h), ?_⟩
  intro q c hc
  obtain ⟨c2, hc2', haddr2, himpl2, hdeps2⟩ := hp1 q c hc
  obtain ⟨c3, hc3, haddr3, himpl3, hdeps3⟩ := hp2 q c2 hc2'
  refine ⟨c3, hc3, haddr3.trans haddr2, himpl3.trans himpl2, ?_⟩
  rcases hdeps2 with h2 | h2 <;> rcases hdeps3 with h3 | h3
  · exact Or.inl (h3.trans h2)
  · exact Or.inr (by rw [h3, h2])
  · exact Or.inr (h3.trans h2)
  · exact Or.inr (by rw [h3, h2, List.filter_filter]; simp)

theorem Cell.RemoveDependence_sameButDeps (api : FormulaAPI F) (this : Ptr) (c : Cell F)
    (s : Sheet F) : s.SameButDeps this (Cell.RemoveDependence api this c s).2 := by
  unfold Cell.RemoveDependence
  refine forEach_rel (Sheet.SameButDeps this) (Sheet.SameButDeps.same_deps this)
    (fun _ _ _ => Sheet.SameButDeps.then_deps) _ ?_ _ s
  intro pos s1
  cases h : s1.position_cell pos with
  | none => exact Sheet.SameButDeps.same_deps this s1
  | some cell =>
    refine ⟨rfl, rfl, rfl, ?_, ?_⟩
    · intro q hq
      show (if q = pos then some (cell.DeleteRefference this) else s1.position_cell q) = none
      by_cases hqp : q = pos
      · rw [hqp, h] at hq; cases hq
      · rw [if_neg hqp]; exact hq
    · intro q d hd
      show ∃ c', (if q = pos then some (cell.DeleteRefference this) else s1.position_cell q)
        = some c' ∧ _
      by_cases hqp : q = pos
      · rw [hqp, h] at hd
        cases hd
        rw [if_pos hqp]
        exact ⟨_, rfl, rfl, rfl, Or.inr rfl⟩
      · rw [if_neg hqp]
        exact ⟨d, hd, rfl, rfl, Or.inl rfl⟩

theorem Cell.Set_parse_fails (api : FormulaAPI F)
    (setCell : Sheet F → Position → String → Option Exn × Sheet F)
    (s s1 : Sheet F) (p : Position) (c : Cell F) (E : String)
    (hc : s.position_cell p = some c) (htext : "=" ++ E ≠ c.impl.GetText api)
    (hrem : Cell.RemoveDependence api ⟨p, c.addr⟩ c s = (none, s1))
    (hE : E ≠ "") (hparse : api.ParseFormulaAST E = none) :
    Cell.Set api setCell s p ("=" ++ E) = (some .FormulaException, s1) := by
  have hdata : E.data ≠ [] := fun h => hE (String.ext h)
  have hmk : String.mk E.data = E := rfl
  unfold Cell.Set
  rw [hc]
  simp only [if_neg htext, hrem, formulaText_data]
  rw [if_pos ⟨trivial, hdata⟩]
  unfold Cell.SetFormula
  rw [hmk, hparse]

theorem Cell.text_ne_of_parse_fails (api : FormulaAPI F) (s : Sheet F) (hinv : s.Inv api)
    (p : Position) (c : Cell F) (E : String) (hc : s.position_cell p = some c)
    (hE : E ≠ "") (hparse : api.ParseFormulaAST E = none)
    (hprint : ∀ g, api.ParseFormulaAST (api.PrintFormula g) ≠ none) :
    "=" ++ E ≠ c.impl.GetText api := by
  intro htext
  cases hi : c.impl with
  | Empty =>
    rw [hi] at htext
    have := congrArg String.data htext
    simp [Impl.GetText, formulaText_data] at this
  | Text t =>
    rw [hi] at htext
    apply hinv.text p c t hc hi
    have ht : t = "=" ++ E := htext.symm
    rw [ht]
    exact formulaText_isFormulaText hE
  | Formula g cache =>
    rw [hi] at htext
    have hEg : E = api.PrintFormula g := formulaText_inj htext
    rw [hEg] at hparse
    exact hprint g hparse


/-- C13, the engine on concrete scenarios: a `SetCell` that raises `FormulaException`
changes the sheet. After `SetCell(A1, "=B1")` the call `SetCell(A1, "=+")` raises and
leaves `A1` with the text `=B1`, but the dependents of `B1` go from `A1` to none. The
call `SetCell(B1, "=+")` raises as well and the dependents of the placeholder `B1` go
from `A1` to none. On the empty sheet `SetCell(A1, "=+")` raises and leaves an empty
cell at `A1`, where there was none, and the printable size goes from `(0, 0)` to
`(1, 1)`. -/
theorem failed_parse_changes_sheet :
    Sample.A1.IsValid = true ∧ Sample.B1.IsValid = true ∧
    Sample.api.ParseFormulaAST "+" = none ∧
    Sample.outcomesOf [.SetCell Sample.A1 "=B1"] = [none] ∧
    (Sample.sheetAfter [.SetCell Sample.A1 "=B1"]).dependentsAt Sample.B1
      = some [⟨Sample.A1, 0⟩] ∧
    Sample.outcomesOf [.SetCell Sample.A1 "=B1", .SetCell Sample.A1 "=+"]
      = [none, some .FormulaException] ∧
    (Sample.sheetAfter [.SetCell Sample.A1 "=B1", .SetCell Sample.A1 "=+"]).textAt
      Sample.api Sample.A1 = some "=B1" ∧
    (Sample.sheetAfter [.SetCell Sample.A1 "=B1", .SetCell Sample.A1 "=+"]).dependentsAt
      Sample.B1 = some [] ∧
    Sample.outcomesOf [.SetCell Sample.A1 "=B1", .SetCell Sample.B1 "=+"]
      = [none, some .FormulaException] ∧
    (Sample.sheetAfter [.SetCell Sample.A1 "=B1", .SetCell Sample.B1 "=+"]).dependentsAt
      Sample.B1 = some [] ∧
    Sample.outcomesOf [.SetCell Sample.A1 "=+"] = [some .FormulaException] ∧
    (Sample.sheetAfter []).textAt Sample.api Sample.A1 = none ∧
    (Sample.sheetAfter [.SetCell Sample.A1 "=+"]).textAt Sample.api Sample.A1 = some "" ∧
    (Sample.sheetAfter []).GetPrintableSize = (0, 0) ∧
    (Sample.sheetAfter [.SetCell Sample.A1 "=+"]).GetPrintableSize = (1, 1) := by
  decide

/-- What `SetCell(p, "=E")` does when `E` is not empty and does not parse, on a reachable
sheet where the cell at `p` (if any) references only positions that hold a cell: it
raises `FormulaException`. When `p` was absent or empty, the sheet afterwards is the
sheet before with a new empty cell without dependents saved and indexed at `p`. When
`p` held a cell that is not empty, the indices and the printable size are as before
and every position holds the same cell with the same content and cache as before,
but the pointer to the cell at `p` may have been erased from lists of dependents. The
parser is assumed to parse every canonical printing. -/
theorem Sheet.SetCell_parse_fails (api : FormulaAPI F) (s : Sheet F) (p : Position) (E : String)
    (hreach : Reachable api s) (hp : p.IsValid = true) (hE : E ≠ "")
    (hparse : api.ParseFormulaAST E = none)
    (hprint : ∀ g, api.ParseFormulaAST (api.PrintFormula g) ≠ none)
    (hrefs : ∀ b ∈ s.refsAt api p, (s.position_cell b).isSome = true) :
    (Sheet.SetCell api s p ("=" ++ E)).1 = some .FormulaException ∧
    ((s.position_cell p = none ∨ ∃ c, s.position_cell p = some c ∧ c.IsEmpty = true) →
      (Sheet.SetCell api s p ("=" ++ E)).2 = s.SaveNewCell p) ∧
    (∀ c, s.position_cell p = some c → c.IsEmpty = false →
      s.SameButDeps ⟨p, c.addr⟩ (Sheet.SetCell api s p ("=" ++ E)).2 ∧
      (Sheet.SetCell api s p ("=" ++ E)).2.GetPrintableSize = s.GetPrintableSize) := by
  have hinv := Reachable.invariant api hreach
  have hfresh : Sheet.SetCell api s p ("=" ++ E) =
      if (!p.IsValid) = true then (some .InvalidPositionException, s)
      else Cell.Set api (Sheet.SetCellDepth api 1) (s.seat p) p ("=" ++ E) :=
    Sheet.SetCell_eq_seat api s p _
  simp only [hp, Bool.not_true, Bool.false_eq_true, if_false] at hfresh
  have hnew : Cell.Set api (Sheet.SetCellDepth api 1) (s.SaveNewCell p) p ("=" ++ E) =
      (some .FormulaException, s.SaveNewCell p) := by
    refine Cell.Set_parse_fails api _ (s.SaveNewCell p) (s.SaveNewCell p) p
      ⟨s.next, .Empty, []⟩ E (by simp) ?_ rfl hE hparse
    intro h
    have := congrArg String.data h
    simp [Impl.GetText, formulaText_data] at this
  cases hc : s.position_cell p with
  | none =>
    have hseat : s.seat p = s.SaveNewCell p := by unfold Sheet.seat; rw [hc]
    rw [hseat, hnew] at hfresh
    rw [hfresh]
    exact ⟨rfl, fun _ => rfl, fun c h => by cases h⟩
  | some c =>
    by_cases hemp : c.IsEmpty = true
    · have hseat : s.seat p = s.SaveNewCell p := by
        unfold Sheet.seat; rw [hc]; simp only [hemp, if_true]
      rw [hseat, hnew] at hfresh
      rw [hfresh]
      refine ⟨rfl, fun _ => rfl, fun d hd hne => ?_⟩
      cases hd
      rw [hemp] at hne
      cases hne
    · have hseat : s.seat p = s := by
        unfold Sheet.seat; rw [hc]; simp only [hemp, if_false]; rfl
      have hnone : (Cell.RemoveDependence api ⟨p, c.addr⟩ c s).1 = none := by
        apply Cell.RemoveDependence_none
        intro q hq
        apply hrefs
        unfold Sheet.refsAt
        rw [hc]
        exact hq
      have hsame := Cell.RemoveDependence_sameButDeps api ⟨p, c.addr⟩ c s
      cases hrem : Cell.RemoveDependence api ⟨p, c.addr⟩ c s with
      | mk e1 s1 =>
        rw [hrem] at hnone hsame
        simp only at hnone
        rw [hnone] at hrem
        have hset := Cell.Set_parse_fails api (Sheet.SetCellDepth api 1) s s1 p c E hc
          (Cell.text_ne_of_parse_fails api s hinv p c E hc hE hparse hprint) hrem hE hparse
        rw [hseat, hset] at hfresh
        rw [hfresh]
        refine ⟨rfl, ?_, ?_⟩
        · rintro (h | ⟨d, hd, hde⟩)
          · cases h
          · cases hd
            exact absurd hde hemp
        · intro d hd _
          cases hd
          refine ⟨hsame, ?_⟩
          show Sheet.GetPrintableSize s1 = s.GetPrintableSize
          unfold Sheet.GetPrintableSize
          rw [hsame.1, hsame.2.1]



theorem Sheet.SetCell_text_fresh (api : FormulaAPI F) (s : Sheet F) (p : Position)
    (t : String) (hp : p.IsValid = true) (ht : t ≠ "") (hnf : ¬ IsFormulaText t)
    (hfresh : s.position_cell p = none ∨ ∃ c, s.position_cell p = some c ∧ c.IsEmpty = true) :
    (Sheet.SetCell api s p t).1 = none := by
  have hseat : s.seat p = s.SaveNewCell p := by
    unfold Sheet.seat
    rcases hfresh with h | ⟨c, h, hc⟩
    · rw [h]
    · rw [h]; simp only [hc, if_true]
  rw [Sheet.SetCell_eq_seat, hseat]
  simp only [hp, Bool.not_true, Bool.false_eq_true, if_false]
  have hcell : (s.SaveNewCell p).position_cell p = some ⟨s.next, .Empty, []⟩ := by simp
  have hne : t ≠ (Impl.Empty : Impl F).GetText api := ht
  unfold Cell.Set
  rw [hcell]
  simp only [if_neg hne]
  have hrem : Cell.RemoveDependence api ⟨p, s.next⟩ ⟨s.next, .Empty, []⟩ (s.SaveNewCell p)
      = (none, s.SaveNewCell p) := rfl
  rw [hrem]
  cases hdata : t.data with
  | nil => exact absurd (String.ext hdata) ht
  | cons ch rest =>
    have hform : ¬ (ch = FORMULA_SIGN ∧ rest ≠ []) := by
      intro h
      exact hnf ⟨rest, by rw [hdata, h.1], h.2⟩
    simp only [if_neg hform]
    unfold Cell.ClearCache
    have hderef : ((s.SaveNewCell p).setImpl p (.Text t)).deref ⟨p, s.next⟩
        = some ⟨s.next, .Text t, []⟩ := by
      unfold Sheet.deref
      rw [Sheet.setImpl_cell]
      simp
    rw [hderef]
    rfl

/-- C12, the engine on a concrete scenario: `7` is a non-empty text that is not a formula
text and `A1` is valid, yet after `SetCell(A1, "=B1")`, `SetCell(B1, "5")` and
`ClearCell(B1)`, which all return normally, `SetCell(A1, "7")` throws
`std::out_of_range` and the cell at `A1` still has the text `=B1`, not `7`. -/
theorem text_set_throws_and_keeps_formula :
    Sample.A1.IsValid = true ∧ ("7" : String) ≠ "" ∧
    ("7" : String).data.head? ≠ some FORMULA_SIGN ∧
    Sample.outcomesOf [.SetCell Sample.A1 "=B1", .SetCell Sample.B1 "5",
      .ClearCell Sample.B1, .SetCell Sample.A1 "7"]
      = [none, none, none, some .out_of_range] ∧
    (Sample.sheetAfter [.SetCell Sample.A1 "=B1", .SetCell Sample.B1 "5",
      .ClearCell Sample.B1, .SetCell Sample.A1 "7"]).textAt Sample.api Sample.A1
      = some "=B1" ∧
    (Sample.sheetAfter [.SetCell Sample.A1 "=B1", .SetCell Sample.B1 "5",
      .ClearCell Sample.B1, .SetCell Sample.A1 "7"]).textAt Sample.api Sample.A1
      ≠ some "7" := by
  decide

end Spreadsheet
